import Mathlib

/-!
# Copy-move forgery detector (`main.go`): shallow embedding and verification

The Go program is embedded as pure Lean functions.

* `float64` values are modelled by an ordered field `R`; the theorems take `R := ℝ`
  and pass `Real.cos`, `Real.sqrt`, `Real.pi` for `math.Cos`, `math.Sqrt`, `math.Pi`.
* The package-level variables `features`, `cr`, `cg`, `cb`, `cy` and the locals `avr`,
  `avg`, `avb` of `main` (declared once, before the block loop) are the fields of `State`.
* `BlockSize` is a constant of the program (4); the embedding takes it as the
  parameter `K` so that statements can range over every block size.
* Reading a slice outside its bounds makes the Go program stop; the reads of
  `dctPixels` are therefore modelled with `Option`.
* The conversion `float64(int)` of `analyze` is `float64OfInt`, which rounds to 53
  significant bits (ties to even).
* `sort.Sort` comes from the library `go4.org/sort`, a copy of the standard library's
  `sort.go`; its functions (`quickSort`, `doPivot`, `medianOfThree`, `heapSort`,
  `siftDown`, `insertionSort`) are embedded one by one and reach the slice only through
  `Len`, `Less` and `Swap`. The two loops of `doPivot` whose end depends on the results
  of `Less` take a fuel argument, and the theorems show that the fuel `doPivot` gives
  them is enough.
* Where a statement is about the comparison of `float64` values that may be NaN, the
  values are of type `Float64 R`: a number of `R` or NaN, with Go's `<` and `<=`.
-/

namespace Forensic

/-! ## Constants and data types -/

/-- Source: `const BlockSize int = 4`. -/
def BlockSize : Nat := 4

/-- Source: `const Threshold = 10`. -/
def Threshold : Nat := 10

/-- Source: `type pixel struct { r, g, b, y float64 }`. -/
structure pixel (R : Type) where
  r : R
  g : R
  b : R
  y : R

/-- Source: `type feature struct { x int; y int; val float64 }`. -/
structure feature (R : Type) where
  x : Int
  y : Int
  val : R

/-- The part of Go's `image.RGBA` that `main` uses: the byte slice `Pix`, the `Stride`
and the bounding rectangle `Rect` (decoded images have non-negative coordinates). -/
structure RGBA where
  Pix : Nat → Nat
  Stride : Nat
  MinX : Nat
  MinY : Nat
  MaxX : Nat
  MaxY : Nat

/-- Source: `type imageBlock struct { x int; y int; img image.Image }`. -/
structure imageBlock where
  x : Int
  y : Int
  img : RGBA

/-- The variables that live across loop iterations of `main`: the package-level
`features`, `cr`, `cg`, `cb`, `cy` and the locals `avr`, `avg`, `avb`. -/
structure State (R : Type) where
  features : List (feature R)
  cr : R
  cg : R
  cb : R
  cy : R
  avr : R
  avg : R
  avb : R

/-- Source: `type dctPx [][]pixel`, as a map from the two indices to the cell. -/
abbrev dctPx (R : Type) := Nat → Nat → pixel R

/-! ## `image.RGBA` operations used by `main` -/

/-- Go `(*RGBA).PixOffset`: `(y-Rect.Min.Y)*Stride + (x-Rect.Min.X)*4`. -/
def RGBA.PixOffset (p : RGBA) (x y : Nat) : Nat :=
  (y - p.MinY) * p.Stride + (x - p.MinX) * 4

/-- Go `Rectangle.Dx`. -/
def RGBA.Dx (p : RGBA) : Nat := p.MaxX - p.MinX

/-- Go `(*RGBA).SubImage` for the rectangle `(x0, y0)-(x1, y1)`: the rectangle is
intersected with the bounds; an empty intersection gives the empty image, otherwise
the result shares `Pix` from the offset of the rectangle's corner. -/
def RGBA.SubImage (p : RGBA) (x0 y0 x1 y1 : Nat) : RGBA :=
  let ax := max x0 p.MinX
  let ay := max y0 p.MinY
  let bx := min x1 p.MaxX
  let b_y := min y1 p.MaxY
  if ax ≥ bx ∨ ay ≥ b_y then
    { Pix := fun _ => 0, Stride := 0, MinX := 0, MinY := 0, MaxX := 0, MaxY := 0 }
  else
    { Pix := fun k => p.Pix (p.PixOffset ax ay + k), Stride := p.Stride,
      MinX := ax, MinY := ay, MaxX := bx, MaxY := b_y }

/-! ## Numeric kernels -/

/-- The Go conversion `float64(n)` of an `int`, as the integer the result denotes: `n`
itself when it has at most 53 significant bits, otherwise the nearest integer with 53
significant bits, a tie going to the even one. `e` is the number of low bits that do not
fit, `q` the kept bits and `r` the dropped ones. -/
def float64OfInt (n : Int) : Int :=
  let m := n.natAbs
  let e := Nat.log2 m - 52
  let q := m / 2 ^ e
  let r := m % 2 ^ e
  let q1 := if 2 ^ e < 2 * r ∨ (2 * r = 2 ^ e ∧ q % 2 = 1) then q + 1 else q
  n.sign * ((q1 * 2 ^ e : Nat) : Int)

section Kernels

variable {R : Type} [LinearOrderedField R]

/-- Source: `func dct(x, y, u, v, w float64) float64`. -/
def dct (cos : R → R) (pi : R) (x y u v w : R) : R :=
  let a := cos (((2 * x + 1) * (u * pi)) / (2 * w))
  let b := cos (((2 * y + 1) * (v * pi)) / (2 * w))
  a * b

/-- The closure `alpha` inside `idct`. -/
def idctAlpha (sqrt : R → R) (a : R) : R :=
  if a = 0 then 1 / sqrt 2 else 1

/-- Source: `func idct(u, v, x, y, w float64) float64`. -/
def idct (cos sqrt : R → R) (pi : R) (u v x y w : R) : R :=
  dct cos pi u v x y w * idctAlpha sqrt u * idctAlpha sqrt v

/-- The closure `alpha` inside the block loop of `main`; `dx`, `dy` are the image's
`Bounds().Max.X` and `Bounds().Max.Y`. -/
def alpha (sqrt : R → R) (dx dy : Int) (a : R) : R :=
  if a = 0 then sqrt (1 / (dx : R)) else sqrt (2 / (dy : R))

/-- Source: `func analyze(blockA, blockB feature) float64`; the coordinates are converted
with `float64(blockA.x)` and so on. -/
def analyze (sqrt : R → R) (blockA blockB : feature R) : R :=
  let dx : R := ((float64OfInt blockA.x : Int) : R) - ((float64OfInt blockB.x : Int) : R)
  let dy : R := ((float64OfInt blockA.y : Int) : R) - ((float64OfInt blockB.y : Int) : R)
  let dist := sqrt (dx ^ 2 + dy ^ 2)
  if dist < (Threshold : R) then dist else 0

end Kernels

/-! ## Block enumeration (`main`, lines 62-73) -/

/-- The two nested loops `for i := 0; i < bdx; i++ { for j := 0; j < bdy; j++ {...} }`
with `bdx, bdy := dx - BlockSize + 1, dy - BlockSize + 1`; the loop body appends
`imageBlock{x: i, y: j, img: newImg.SubImage(image.Rect(i, j, i+BlockSize, j+BlockSize))}`.
The `draw.Draw` call of the body copies the block onto itself and changes nothing. -/
def makeBlocks (K : Nat) (newImg : RGBA) (dx dy : Int) : List imageBlock :=
  let bdx : Int := dx - K + 1
  let bdy : Int := dy - K + 1
  (List.range bdx.toNat).foldl
    (fun blocks i =>
      (List.range bdy.toNat).foldl
        (fun blocks j =>
          blocks ++ [{ x := (i : Int), y := (j : Int),
                       img := newImg.SubImage i j (i + K) (j + K) }])
        blocks)
    []

/-! ## Feature extraction (`main`, lines 86-152) -/

section Extractor

variable {R : Type} [LinearOrderedField R]

/-- Go standard library `color.YCbCrToRGB` (package `image/color`), on bytes:
each channel is `(yy1 + k*c) >> 16` clamped to `0..255`. The extractor takes the
conversion as the argument `conv`; this definition instantiates it. -/
def YCbCrToRGB (y cb cr : Nat) : Nat × Nat × Nat :=
  let yy1 : Int := (y : Int) * 65793
  let cb1 : Int := (cb : Int) - 128
  let cr1 : Int := (cr : Int) - 128
  let clamp : Int → Nat := fun t =>
    if 0 ≤ t ∧ t < 16777216 then (t / 65536).toNat else if t < 0 then 0 else 255
  (clamp (yy1 + 91881 * cr1), clamp (yy1 - 22554 * cb1 - 46802 * cr1),
    clamp (yy1 + 116130 * cb1))

/-- Lines 107-114: the body of the innermost loop, for the sample `(r, g, b, yc)` read
from the block and the loop indices `x`, `y`, `u`, `v`. -/
def accumStep (cos : R → R) (pi : R) (K u v r g b yc x y : Nat) (s : State R) : State R :=
  { s with
    cr := s.cr + dct cos pi (x : R) (y : R) (u : R) (v : R) (K : R) * (r : R)
    cg := s.cg + dct cos pi (x : R) (y : R) (u : R) (v : R) (K : R) * (g : R)
    cb := s.cb + dct cos pi (x : R) (y : R) (u : R) (v : R) (K : R) * (b : R)
    cy := s.cy + dct cos pi (x : R) (y : R) (u : R) (v : R) (K : R) * (yc : R)
    avr := s.avr + (r : R)
    avg := s.avg + (g : R)
    avb := s.avb + (b : R) }

/-- Lines 104-116: `for x := 0; x < BlockSize; x++ { for y := 0; y < BlockSize; y++ {...} }`. -/
def accumPixel (cos : R → R) (pi : R) (K u v r g b yc : Nat) (s : State R) : State R :=
  (List.range K).foldl
    (fun s x => (List.range K).foldl (fun s y => accumStep cos pi K u v r g b yc x y s) s) s

/-- The values taken by `i` in `for i := i0; i < i1; i += 4`. -/
def rowIndices (i0 i1 : Nat) : List Nat :=
  (List.range ((i1 - i0 + 3) / 4)).map (fun k => i0 + 4 * k)

/-- Lines 98-117: the loop over `i`; each iteration reads
`yc, uc, vc := b.Pix[i+0], b.Pix[i+2], b.Pix[i+2]`, converts with
`color.YCbCrToRGB(yc, uc, vc)` and runs the `x`, `y` loops. -/
def accumRow (cos : R → R) (pi : R) (conv : Nat → Nat → Nat → Nat × Nat × Nat)
    (K u v : Nat) (b : RGBA) (i0 i1 : Nat) (s : State R) : State R :=
  (rowIndices i0 i1).foldl
    (fun s i =>
      let yc := b.Pix (i + 0)
      let uc := b.Pix (i + 2)
      let vc := b.Pix (i + 2)
      let rgb := conv yc uc vc
      accumPixel cos pi K u v rgb.1 rgb.2.1 rgb.2.2 yc s)
    s

/-- Lines 98-132: the body of the `v` loop up to the normalisation
`cr *= alpha(fi) * alpha(fj)` (likewise `cg`, `cb`, `cy`). -/
def coefficient (cos sqrt : R → R) (pi : R) (conv : Nat → Nat → Nat → Nat × Nat × Nat)
    (K : Nat) (dx dy : Int) (b : RGBA) (i0 i1 u v : Nat) (s : State R) : State R :=
  let s := accumRow cos pi conv K u v b i0 i1 s
  let fi : R := (u : R)
  let fj : R := (v : R)
  { s with
    cr := s.cr * (alpha sqrt dx dy fi * alpha sqrt dx dy fj)
    cg := s.cg * (alpha sqrt dx dy fi * alpha sqrt dx dy fj)
    cb := s.cb * (alpha sqrt dx dy fi * alpha sqrt dx dy fj)
    cy := s.cy * (alpha sqrt dx dy fi * alpha sqrt dx dy fj) }

/-- Line 134: `dctPixels[u][v] = pixel{cr, cg, cb, cy}`. -/
def store (dctPixels : dctPx R) (u v : Nat) (s : State R) : dctPx R :=
  fun a c => if a = u ∧ c = v then ⟨s.cr, s.cg, s.cb, s.cy⟩ else dctPixels a c

/-- Lines 90-136: `i0`, `i1` and the loops over `u` and `v`, which return the state and
the filled `dctPixels` (`make` gives cells that are zero). -/
def transform (cos sqrt : R → R) (pi : R) (conv : Nat → Nat → Nat → Nat × Nat × Nat)
    (K : Nat) (dx dy : Int) (b : RGBA) (s : State R) : State R × dctPx R :=
  let i0 := b.PixOffset b.MinX b.MinY
  let i1 := i0 + b.Dx * 4
  (List.range K).foldl
    (fun acc u =>
      (List.range K).foldl
        (fun acc v =>
          let s := coefficient cos sqrt pi conv K dx dy b i0 i1 u v acc.1
          (s, store acc.2 u v s))
        acc)
    (s, fun _ _ => ⟨0, 0, 0, 0⟩)

/-- A read `dctPixels[u][v]`: `dctPixels` has `BlockSize*BlockSize` rows, of which the
rows `u < BlockSize` were made with `BlockSize` cells; any other index stops the program. -/
def readPx (K : Nat) (dctPixels : dctPx R) (u v : Nat) : Option (pixel R) :=
  if u < K * K ∧ v < (if u < K then K else 0) then some (dctPixels u v) else none

/-- Source: `features = append(features, f)`. -/
def State.append (s : State R) (f : feature R) : State R :=
  { s with features := s.features ++ [f] }

/-- Lines 89-152: the body of `for _, block := range blocks`. -/
def processBlock (cos sqrt : R → R) (pi : R) (conv : Nat → Nat → Nat → Nat × Nat × Nat)
    (K : Nat) (dx dy : Int) (s : State R) (block : imageBlock) : Option (State R) := do
  let t := transform cos sqrt pi conv K dx dy block.img s
  let dctPixels := t.2
  let s := t.1
  let s := { s with avr := s.avr / ((K * K : Nat) : R) }
  let s := { s with avg := s.avg / ((K * K : Nat) : R) }
  let s := { s with avb := s.avb / ((K * K : Nat) : R) }
  let p ← readPx K dctPixels 0 0
  let s := s.append { x := block.x, y := block.y, val := p.y }
  let p ← readPx K dctPixels 0 1
  let s := s.append { x := block.x, y := block.y, val := p.y }
  let p ← readPx K dctPixels 1 0
  let s := s.append { x := block.x, y := block.y, val := p.y }
  let p ← readPx K dctPixels 0 0
  let s := s.append { x := block.x, y := block.y, val := p.r }
  let p ← readPx K dctPixels 0 0
  let s := s.append { x := block.x, y := block.y, val := p.g }
  let p ← readPx K dctPixels 0 0
  let s := s.append { x := block.x, y := block.y, val := p.b }
  let s := s.append { x := block.x, y := block.y, val := s.avr }
  let s := s.append { x := block.x, y := block.y, val := s.avb }
  let s := s.append { x := block.x, y := block.y, val := s.avg }
  return s

/-- Lines 89-152: the loop over `blocks`. -/
def extract (cos sqrt : R → R) (pi : R) (conv : Nat → Nat → Nat → Nat × Nat × Nat)
    (K : Nat) (dx dy : Int) (blocks : List imageBlock) (s : State R) : Option (State R) :=
  blocks.foldlM (processBlock cos sqrt pi conv K dx dy) s

/-- The state at the start of `main`: package-level variables and `avr`, `avg`, `avb`
have their zero values. -/
def State.init : State R :=
  { features := [], cr := 0, cg := 0, cb := 0, cy := 0, avr := 0, avg := 0, avb := 0 }

end Extractor

/-! ## Sort step (`main`, line 155, and `featVec`, lines 249-262) -/

section SortStep

variable {R : Type} [LT R] [DecidableRel (fun a b : R => a < b)]

/-- Source: `type featVec []feature`. -/
abbrev featVec (R : Type) := List (feature R)

/-- Source: `func (a featVec) Len() int`. -/
def featVec.Len (a : featVec R) : Nat := a.length

/-- Source: `func (a featVec) Swap(i, j int) { a[i], a[j] = a[j], a[i] }`; an index
outside the slice stops the program. -/
def featVec.Swap (a : featVec R) (i j : Nat) : Option (featVec R) := do
  let ai ← a[i]?
  let aj ← a[j]?
  return (a.set i aj).set j ai

/-- Source: `func (a featVec) Less(i, j int) bool`, with its three `return`s. -/
def featVec.Less (a : featVec R) (i j : Nat) : Option Bool := do
  let ai ← a[i]?
  let aj ← a[j]?
  if ai.val < aj.val then
    return true
  if ai.val > aj.val then
    return false
  return decide (ai.val < aj.val)

/-- One run of `sort.Sort(featVec(features))`. The function belongs to the library
`go4.org/sort` and reaches the slice only through `Len`, `Less` and `Swap`, so the
effect of a run on the slice is that of the `Swap` calls it makes, in order. -/
def applySwaps (swaps : List (Nat × Nat)) (a : featVec R) : Option (featVec R) :=
  swaps.foldlM (fun a ij => a.Swap ij.1 ij.2) a

/-- Stability of an output `b` for an input `a`: for every value, the entries with that
`val` come in the same order in both. -/
def StableFor [DecidableEq R] (a b : featVec R) : Prop :=
  ∀ v : R, b.filter (fun f => decide (f.val = v)) = a.filter (fun f => decide (f.val = v))

end SortStep

/-! ## The library function `sort.Sort` (`go4.org/sort`, a copy of the Go standard
library's `sort.go`) on a `featVec` -/

section SortLibrary

variable {R : Type} [LT R] [DecidableRel (fun a b : R => a < b)]

/-- Library: the inner loop of `insertionSort`,
`for j := i; j > a && data.Less(j, j-1); j-- { data.Swap(j, j-1) }`, from `j` on. -/
def insertionLoop (data : featVec R) (a : Nat) : Nat → Option (featVec R)
  | 0 => some data
  | j + 1 =>
    if a < j + 1 then
      match data.Less (j + 1) j with
      | none => none
      | some false => some data
      | some true =>
        match data.Swap (j + 1) j with
        | none => none
        | some data1 => insertionLoop data1 a j
    else some data

/-- Library: `func insertionSort(data Interface, a, b int)`, with the loop
`for i := a + 1; i < b; i++`. -/
def insertionSort (data : featVec R) (a b : Nat) : Option (featVec R) :=
  (List.range' (a + 1) (b - (a + 1))).foldlM (fun data i => insertionLoop data a i) data

/-- Library: `func siftDown(data Interface, lo, hi, first int)`; `root` starts at `lo` and
the loop ends when `child >= hi` or `!data.Less(first+root, first+child)`. -/
def siftDown (data : featVec R) (root hi first : Nat) : Option (featVec R) :=
  if _h : 2 * root + 1 ≥ hi then some data
  else
    match (if 2 * root + 1 + 1 < hi then
        data.Less (first + (2 * root + 1)) (first + (2 * root + 1) + 1) else some false) with
    | none => none
    | some true =>
      match data.Less (first + root) (first + (2 * root + 1 + 1)) with
      | none => none
      | some false => some data
      | some true =>
        match data.Swap (first + root) (first + (2 * root + 1 + 1)) with
        | none => none
        | some data1 => siftDown data1 (2 * root + 1 + 1) hi first
    | some false =>
      match data.Less (first + root) (first + (2 * root + 1)) with
      | none => none
      | some false => some data
      | some true =>
        match data.Swap (first + root) (first + (2 * root + 1)) with
        | none => none
        | some data1 => siftDown data1 (2 * root + 1) hi first
termination_by hi - root
decreasing_by
  all_goals simp_wf
  all_goals omega

/-- Library: `func heapSort(data Interface, a, b int)`: the loop
`for i := (hi - 1) / 2; i >= 0; i--` that builds the heap and the loop
`for i := hi - 1; i >= 0; i--` that pops the greatest element. -/
def heapSort (data : featVec R) (a b : Nat) : Option (featVec R) := do
  let first := a
  let lo := 0
  let hi := b - a
  let data ← ((List.range ((hi - 1) / 2 + 1)).reverse).foldlM
    (fun data i => siftDown data i hi first) data
  ((List.range hi).reverse).foldlM
    (fun data i => do
      let data ← data.Swap first (first + i)
      siftDown data lo i first)
    data

/-- Library: `func medianOfThree(data Interface, m1, m0, m2 int)`. -/
def medianOfThree (data : featVec R) (m1 m0 m2 : Nat) : Option (featVec R) := do
  let data ← if (← data.Less m1 m0) then data.Swap m1 m0 else pure data
  if (← data.Less m2 m1) then do
    let data ← data.Swap m2 m1
    if (← data.Less m1 m0) then data.Swap m1 m0 else pure data
  else pure data

/-- Library, in `doPivot`: `for ; a < c && data.Less(a, pivot); a++ {}`; the result is the
final `a`. -/
def scanLess (data : featVec R) (pivot a c : Nat) : Option Nat :=
  if _h : a < c then
    match data.Less a pivot with
    | none => none
    | some true => scanLess data pivot (a + 1) c
    | some false => some a
  else some a
termination_by c - a

/-- Library, in `doPivot`: `for ; b < c && !data.Less(pivot, b); b++ {}`; the result is the
final `b`. -/
def scanNotGreater (data : featVec R) (pivot b c : Nat) : Option Nat :=
  if _h : b < c then
    match data.Less pivot b with
    | none => none
    | some false => scanNotGreater data pivot (b + 1) c
    | some true => some b
  else some b
termination_by c - b

/-- Library, in `doPivot`: `for ; b < c && data.Less(pivot, c-1); c-- {}`; the result is the
final `c`. -/
def scanGreater (data : featVec R) (pivot b : Nat) : Nat → Option Nat
  | 0 => some 0
  | c + 1 =>
    if b < c + 1 then
      match data.Less pivot c with
      | none => none
      | some true => scanGreater data pivot b c
      | some false => some (c + 1)
    else some (c + 1)

/-- Library, in `doPivot`: the loop `for { ...; if b >= c { break }; data.Swap(b, c-1); b++;
c-- }` around the two scans. Each turn brings `b` and `c` closer, so `fuel` bounds the
number of turns; the results are the slice and the final `b`, `c`. -/
def partitionLoop (pivot : Nat) : Nat → featVec R → Nat → Nat → Option (featVec R × Nat × Nat)
  | 0, _, _, _ => none
  | fuel + 1, data, b, c =>
    match scanNotGreater data pivot b c with
    | none => none
    | some b1 =>
      match scanGreater data pivot b1 c with
      | none => none
      | some c1 =>
        if b1 ≥ c1 then some (data, b1, c1)
        else
          match data.Swap b1 (c1 - 1) with
          | none => none
          | some data1 => partitionLoop pivot fuel data1 (b1 + 1) (c1 - 1)

/-- Library, in `doPivot`: the three tests for points equal to the pivot; the results are
the slice, `b`, `c` and `dups > 1`. -/
def dupsCheck (data : featVec R) (pivot m hi b c : Nat) :
    Option (featVec R × Nat × Nat × Bool) := do
  let dups := 0
  let (data, c, dups) ←
    if !(← data.Less pivot (hi - 1)) then do
      let data ← data.Swap c (hi - 1)
      pure (data, c + 1, dups + 1)
    else pure (data, c, dups)
  let (b, dups) ←
    if !(← data.Less (b - 1) pivot) then pure (b - 1, dups + 1) else pure (b, dups)
  let (data, b, dups) ←
    if !(← data.Less m pivot) then do
      let data ← data.Swap m (b - 1)
      pure (data, b - 1, dups + 1)
    else pure (data, b, dups)
  pure (data, b, c, decide (dups > 1))

/-- Library, in `doPivot`: `for ; a < b && !data.Less(b-1, pivot); b-- {}`; the result is
the final `b`. -/
def scanNotLessDown (data : featVec R) (pivot a : Nat) : Nat → Option Nat
  | 0 => some 0
  | b + 1 =>
    if a < b + 1 then
      match data.Less b pivot with
      | none => none
      | some false => scanNotLessDown data pivot a b
      | some true => some (b + 1)
    else some (b + 1)

/-- Library, in `doPivot`: the loop that protects against many duplicates,
`for { ...; if a >= b { break }; data.Swap(a, b-1); a++; b-- }`, with `fuel` bounding the
number of turns; the results are the slice and the final `b`. -/
def protectLoop (pivot : Nat) : Nat → featVec R → Nat → Nat → Option (featVec R × Nat)
  | 0, _, _, _ => none
  | fuel + 1, data, a, b =>
    match scanNotLessDown data pivot a b with
    | none => none
    | some b1 =>
      match scanLess data pivot a b1 with
      | none => none
      | some a1 =>
        if a1 ≥ b1 then some (data, b1)
        else
          match data.Swap a1 (b1 - 1) with
          | none => none
          | some data1 => protectLoop pivot fuel data1 (a1 + 1) (b1 - 1)

/-- Library: `func doPivot(data Interface, lo, hi int) (midlo, midhi int)`. -/
def doPivot (data : featVec R) (lo hi : Nat) : Option (featVec R × Nat × Nat) := do
  let m := lo + (hi - lo) / 2
  let data ←
    if hi - lo > 40 then do
      let s := (hi - lo) / 8
      let data ← medianOfThree data lo (lo + s) (lo + 2 * s)
      let data ← medianOfThree data m (m - s) (m + s)
      medianOfThree data (hi - 1) (hi - 1 - s) (hi - 1 - 2 * s)
    else pure data
  let data ← medianOfThree data lo m (hi - 1)
  let pivot := lo
  let a ← scanLess data pivot (lo + 1) (hi - 1)
  let (data, b, c) ← partitionLoop pivot (hi - lo) data a (hi - 1)
  let protect := decide (hi - c < 5)
  let (data, b, c, protect) ←
    if !protect && decide (hi - c < (hi - lo) / 4) then dupsCheck data pivot m hi b c
    else pure (data, b, c, protect)
  let (data, b) ←
    if protect then protectLoop pivot (hi - lo) data a b else pure (data, b)
  let data ← data.Swap pivot (b - 1)
  pure (data, b - 1, c)

/-- Library: `func quickSort(data Interface, a, b, maxDepth int)`. The loop
`for b-a > 12` goes on with `a = mhi` or `b = mlo` after `maxDepth--`, which is the call
of `quickSort` on the remaining part with the lowered `maxDepth`; after the loop comes the
pass with gap 6 and `insertionSort`. -/
def quickSort (data : featVec R) (a b maxDepth : Nat) : Option (featVec R) :=
  if b - a > 12 then
    match maxDepth with
    | 0 => heapSort data a b
    | maxDepth + 1 => do
      let (data, mlo, mhi) ← doPivot data a b
      if mlo - a < b - mhi then do
        let data ← quickSort data a mlo maxDepth
        quickSort data mhi b maxDepth
      else do
        let data ← quickSort data mhi b maxDepth
        quickSort data a mlo maxDepth
  else if b - a > 1 then do
    let data ← (List.range' (a + 6) (b - (a + 6))).foldlM
      (fun data i => do
        if (← data.Less i (i - 6)) then data.Swap i (i - 6) else pure data)
      data
    insertionSort data a b
  else pure data

/-- Library: the loop of `maxDepth`, `for i := n; i > 0; i >>= 1 { depth++ }`. -/
def maxDepthLoop (i depth : Nat) : Nat :=
  if h : i > 0 then maxDepthLoop (i / 2) (depth + 1) else depth
termination_by i
decreasing_by exact Nat.div_lt_self h (by decide)

/-- Library: `func maxDepth(n int) int`, which returns `depth * 2`. -/
def maxDepth (n : Nat) : Nat := maxDepthLoop n 0 * 2

/-- Library: `func Sort(data Interface)` of package `sort` (`Sort` alone is a reserved
word here, hence the package prefix). -/
def sort_Sort (data : featVec R) : Option (featVec R) :=
  let n := data.Len
  quickSort data 0 n (maxDepth n)

end SortLibrary

/-! ## Vocabulary for the sort step -/

section SortVocabulary

variable {R : Type}

/-- Every entry of `d` at an index in `[i, j)` satisfies `P`. -/
def AllIn (d : featVec R) (i j : Nat) (P : feature R → Prop) : Prop :=
  ∀ (k : Nat) (f : feature R), i ≤ k → k < j → d[k]? = some f → P f

/-- The slice `d2` comes from `d1` by rearranging the entries at the indices `[lo, hi)`:
same length, same multiset, the same entry at every index outside the range, and inside
the range only entries that were inside before. -/
def Frame (lo hi : Nat) (d1 d2 : featVec R) : Prop :=
  d2.length = d1.length ∧ d2.Perm d1 ∧ (∀ k, k < lo ∨ hi ≤ k → d2[k]? = d1[k]?) ∧
  ∀ P : feature R → Prop, AllIn d1 lo hi P → AllIn d2 lo hi P

/-- The entry at index `i` and the entry at index `j` are in the order `le` on `val`. -/
def LeAt (le : R → R → Prop) (d : featVec R) (i j : Nat) : Prop :=
  ∀ f g : feature R, d[i]? = some f → d[j]? = some g → le f.val g.val

/-- The index range `[lo, hi)` of `d` is in the order `le` on `val`: an entry and any
later entry are in that order. -/
def SortedOn (le : R → R → Prop) (d : featVec R) (lo hi : Nat) : Prop :=
  ∀ i j, lo ≤ i → i < j → j < hi → LeAt le d i j

/-- The comparison `<` that `Less` makes decides the order `le` on the values that satisfy
`S`: a smaller value comes first, a value that the other is not smaller than comes first,
and `le` is transitive. With `le x y` as "`y < x` is false" these are the laws of a strict
weak order; with `le` always true they hold for every `<`. -/
def OrderFor [LT R] (le : R → R → Prop) (S : R → Prop) : Prop :=
  (∀ x y, S x → S y → x < y → le x y) ∧
  (∀ x y, S x → S y → ¬ y < x → le x y) ∧
  (∀ x y z, S x → S y → S z → le x y → le y z → le x z)

/-- Heap order of `heapSort` on the nodes `[0, hi)` stored from index `first` on, for
every parent from `lo` on: a child `c` and its parent `(c - 1) / 2` are in the order `le`. -/
def HeapFrom (le : R → R → Prop) (d : featVec R) (first lo hi : Nat) : Prop :=
  ∀ c, c < hi → 1 ≤ c → lo ≤ (c - 1) / 2 → LeAt le d (first + c) (first + (c - 1) / 2)

/-- Heap order everywhere but at the node `root`, as it holds inside `siftDown`: every
parent other than `root` dominates its children, and the parent of `root` dominates the
children of `root`. -/
def HeapExcept (le : R → R → Prop) (d : featVec R) (first lo hi root : Nat) : Prop :=
  (∀ c, c < hi → 1 ≤ c → lo ≤ (c - 1) / 2 → (c - 1) / 2 ≠ root →
    LeAt le d (first + c) (first + (c - 1) / 2)) ∧
  (1 ≤ root → lo ≤ (root - 1) / 2 → ∀ c, c < hi → 1 ≤ c → (c - 1) / 2 = root →
    LeAt le d (first + c) (first + (root - 1) / 2))

/-- Every `val` of `d` satisfies `S`. -/
def ValsIn (S : R → Prop) (d : featVec R) : Prop :=
  ∀ (k : Nat) (f : feature R), d[k]? = some f → S f.val

end SortVocabulary

/-! ## Values of type `float64` under comparison -/

/-- A `float64` as the comparison operators see it: a number of `R` (a finite value or an
infinity), or NaN. -/
inductive Float64 (R : Type) where
  | num (v : R)
  | nan

/-- Go's `x < y` on `float64`: false as soon as one side is NaN. -/
def Float64.lt {R : Type} [LT R] : Float64 R → Float64 R → Prop
  | .num a, .num b => a < b
  | _, _ => False

/-- Go's `x <= y` on `float64`: false as soon as one side is NaN. -/
def Float64.le {R : Type} [LE R] : Float64 R → Float64 R → Prop
  | .num a, .num b => a ≤ b
  | _, _ => False

instance {R : Type} [LT R] : LT (Float64 R) := ⟨Float64.lt⟩

instance {R : Type} [LE R] : LE (Float64 R) := ⟨Float64.le⟩

instance {R : Type} [LT R] [DecidableRel (fun a b : R => a < b)] :
    DecidableRel (fun a b : Float64 R => a < b)
  | .num a, .num b => inferInstanceAs (Decidable (a < b))
  | .num _, .nan => isFalse (fun h => h)
  | .nan, .num _ => isFalse (fun h => h)
  | .nan, .nan => isFalse (fun h => h)

/-- Three entries, the middle one with NaN as `val`. -/
def nanInput {R : Type} [LinearOrderedField R] : featVec (Float64 R) :=
  [⟨0, 0, .num 2⟩, ⟨1, 0, .nan⟩, ⟨2, 0, .num 1⟩]

/-- Three entries without NaN. -/
def numInput {R : Type} [LinearOrderedField R] : featVec (Float64 R) :=
  [⟨0, 0, .num 2⟩, ⟨1, 0, .num 3⟩, ⟨2, 0, .num 1⟩]

/-- The entries of `numInput` in the order of their `val`. -/
def numOutput {R : Type} [LinearOrderedField R] : featVec (Float64 R) :=
  [⟨2, 0, .num 1⟩, ⟨0, 0, .num 2⟩, ⟨1, 0, .num 3⟩]

/-! ## Scan of the sorted sequence (`main`, lines 157-161) and the whole of `main` -/

section Scan

variable {R : Type} [LinearOrderedField R]

/-- Lines 157-161: `for i := 0; i < len(features)-1; i++`, whose body computes
`res := analyze(features[i], features[i+1])` and prints it with `fmt.Println(res)`.
The result is the sequence of the printed values; an index outside the slice stops the
program. -/
def scan (sqrt : R → R) (features : List (feature R)) : Option (List R) :=
  (List.range ((features.length : Int) - 1).toNat).foldlM
    (fun out i => do
      let blockA ← features[i]?
      let blockB ← features[i + 1]?
      let res := analyze sqrt blockA blockB
      return out ++ [res])
    []

/-- The stages of `main` from the converted image `newImg` on: block loop, extraction,
the sort (given by the `Swap` calls of its run) and the scan. `dx`, `dy` are
`Bounds().Max.X` and `Bounds().Max.Y`. -/
def pipeline (cos sqrt : R → R) (pi : R) (conv : Nat → Nat → Nat → Nat × Nat × Nat)
    (K : Nat) (newImg : RGBA) (swaps : List (Nat × Nat)) : Option (List R) := do
  let dx : Int := (newImg.MaxX : Int)
  let dy : Int := (newImg.MaxY : Int)
  let blocks := makeBlocks K newImg dx dy
  let s ← extract cos sqrt pi conv K dx dy blocks State.init
  let sorted ← applySwaps swaps s.features
  scan sqrt sorted

end Scan

/-! ## The specification's formulas -/

section Spec

variable {R : Type} [LinearOrderedField R]

/-- Spec 4.2: `α(0) = sqrt(1/K)` and `α(a>0) = sqrt(2/K)`. -/
def specAlpha (sqrt : R → R) (K a : Nat) : R :=
  if a = 0 then sqrt (1 / (K : R)) else sqrt (2 / (K : R))

/-- Spec 4.2: `C(u,v) = α(u)·α(v) · Σ_{x,y∈[0,K)} pixel_c(x,y) · cos((2x+1)·u·π / 2K) ·
cos((2y+1)·v·π / 2K)`. -/
def specCoefficient (cos sqrt : R → R) (pi : R) (K : Nat) (p : Nat → Nat → R)
    (u v : Nat) : R :=
  specAlpha sqrt K u * specAlpha sqrt K v *
    ∑ x ∈ Finset.range K, ∑ y ∈ Finset.range K,
      p x y * cos ((2 * (x : R) + 1) * (u : R) * pi / (2 * (K : R))) *
        cos ((2 * (y : R) + 1) * (v : R) * pi / (2 * (K : R)))

/-- The forward transform written with the program's kernel:
`C(u,v) = α(u)·α(v)·Σ_{x,y} p(x,y)·dct(x,y,u,v,K)`. -/
def forwardDCT (cos sqrt : R → R) (pi : R) (K : Nat) (p : Nat → Nat → R) (u v : Nat) : R :=
  specAlpha sqrt K u * specAlpha sqrt K v *
    ∑ x ∈ Finset.range K, ∑ y ∈ Finset.range K,
      p x y * dct cos pi (x : R) (y : R) (u : R) (v : R) (K : R)

/-- The inverse written with the program's `idct`:
`Σ_{u,v∈[0,K)} (2/K)·idct(u,v,x,y,K)·C(u,v)`. -/
def inverseDCT (cos sqrt : R → R) (pi : R) (K : Nat) (C : Nat → Nat → R) (x y : Nat) : R :=
  ∑ u ∈ Finset.range K, ∑ v ∈ Finset.range K,
    2 / (K : R) * idct cos sqrt pi (u : R) (v : R) (x : R) (y : R) (K : R) * C u v

/-- Byte `c` of the sample at offset `(x, y)` inside the block `b`, the pixel at
`(Min.X + x, Min.Y + y)`. -/
def sampleByte (b : RGBA) (x y c : Nat) : Nat :=
  b.Pix (b.PixOffset (b.MinX + x) (b.MinY + y) + c)

/-- The luma sample at offset `(x, y)` inside the block `b`: the first byte of the pixel
at `(Min.X + x, Min.Y + y)`. -/
def lumaAt (b : RGBA) (x y : Nat) : Nat :=
  b.Pix (b.PixOffset (b.MinX + x) (b.MinY + y))

/-- The red, green and blue values of the sample at offset `(x, y)` inside the block `b`:
the conversion of the bytes `Y`, `Cb`, `Cr` of the pixel at `(Min.X + x, Min.Y + y)`. -/
def sampleRGB (conv : Nat → Nat → Nat → Nat × Nat × Nat) (b : RGBA) (x y : Nat) :
    Nat × Nat × Nat :=
  conv (b.Pix (b.PixOffset (b.MinX + x) (b.MinY + y)))
    (b.Pix (b.PixOffset (b.MinX + x) (b.MinY + y) + 1))
    (b.Pix (b.PixOffset (b.MinX + x) (b.MinY + y) + 2))

/-- Spec 4.2: the arithmetic mean of red over the `K²` pixels of the block. -/
def meanRed (conv : Nat → Nat → Nat → Nat × Nat × Nat) (K : Nat) (b : RGBA) : R :=
  (∑ x ∈ Finset.range K, ∑ y ∈ Finset.range K, ((sampleRGB conv b x y).1 : R)) /
    ((K : R) * (K : R))

/-- Spec 4.2: the arithmetic mean of green over the `K²` pixels of the block. -/
def meanGreen (conv : Nat → Nat → Nat → Nat × Nat × Nat) (K : Nat) (b : RGBA) : R :=
  (∑ x ∈ Finset.range K, ∑ y ∈ Finset.range K, ((sampleRGB conv b x y).2.1 : R)) /
    ((K : R) * (K : R))

/-- Spec 4.2: the arithmetic mean of blue over the `K²` pixels of the block. -/
def meanBlue (conv : Nat → Nat → Nat → Nat × Nat × Nat) (K : Nat) (b : RGBA) : R :=
  (∑ x ∈ Finset.range K, ∑ y ∈ Finset.range K, ((sampleRGB conv b x y).2.2 : R)) /
    ((K : R) * (K : R))

/-- The sum over `x, y ∈ [0, K)` of the kernel `dct(x, y, u, v, K)`. -/
def kernelSum (cos : R → R) (pi : R) (K u v : Nat) : R :=
  ∑ x ∈ Finset.range K, ∑ y ∈ Finset.range K,
    dct cos pi (x : R) (y : R) (u : R) (v : R) (K : R)

end Spec

/-! ## Concrete inputs -/

/-- A `W × H` image in which every pixel has the bytes `(yc, 128, 128, 255)`. -/
def uniformImage (W H yc : Nat) : RGBA :=
  { Pix := fun k => if k % 4 = 0 then yc else if k % 4 = 3 then 255 else 128,
    Stride := 4 * W, MinX := 0, MinY := 0, MaxX := W, MaxY := H }

/-- The only block of the uniform 4×4 image with luma 1. -/
def uniformBlock4 : RGBA := (uniformImage 4 4 1).SubImage 0 0 (0 + 4) (0 + 4)

/-- The block `uniformBlock4` with every byte of the rows 1, 2, 3 of its window (the bytes
from index `Stride = 16` on) replaced by 77. -/
def uniformBlock4Changed : RGBA :=
  { uniformBlock4 with Pix := fun k => if 16 ≤ k then 77 else uniformBlock4.Pix k }

/-- Seven entries of which the first six tie on `val`. -/
def tieInput {R : Type} [LinearOrderedField R] : featVec R :=
  [⟨0, 0, 2⟩, ⟨1, 0, 2⟩, ⟨2, 0, 2⟩, ⟨3, 0, 2⟩, ⟨4, 0, 2⟩, ⟨5, 0, 2⟩, ⟨6, 0, 1⟩]

/-- The slice `tieInput` after the call `Swap(6, 0)`. -/
def tieOutput {R : Type} [LinearOrderedField R] : featVec R :=
  [⟨6, 0, 1⟩, ⟨1, 0, 2⟩, ⟨2, 0, 2⟩, ⟨3, 0, 2⟩, ⟨4, 0, 2⟩, ⟨5, 0, 2⟩, ⟨0, 0, 2⟩]

/-! ## Quantities used in the statements -/

/-- The coordinates the two block loops visit, in order. -/
def blockCoords (K : Nat) (dx dy : Int) : List (Int × Int) :=
  (List.range (dx - K + 1).toNat).flatMap
    (fun (i : Nat) => (List.range (dy - K + 1).toNat).map (fun (j : Nat) => ((i : Int), (j : Int))))

/-- The pairs `(u, v)` in the order in which the loops over `u` and `v` visit them. -/
def uvPairs (K : Nat) : List (Nat × Nat) :=
  (List.range K).flatMap (fun u => (List.range K).map (fun v => (u, v)))

section Derived

variable {R : Type} [LinearOrderedField R]

/-- The cell `pixel{cr, cg, cb, cy}` built from the accumulators. -/
def State.toPixel (s : State R) : pixel R := ⟨s.cr, s.cg, s.cb, s.cy⟩

/-- The sum, over the pixels the loop over `i` reads, of the red value `r` it converts. -/
def rowSumR (conv : Nat → Nat → Nat → Nat × Nat × Nat) (b : RGBA) (i0 i1 : Nat) : R :=
  ((rowIndices i0 i1).map
    (fun i => ((conv (b.Pix i) (b.Pix (i + 2)) (b.Pix (i + 2))).1 : R))).sum

/-- The sum, over the pixels the loop over `i` reads, of the green value `g`. -/
def rowSumG (conv : Nat → Nat → Nat → Nat × Nat × Nat) (b : RGBA) (i0 i1 : Nat) : R :=
  ((rowIndices i0 i1).map
    (fun i => ((conv (b.Pix i) (b.Pix (i + 2)) (b.Pix (i + 2))).2.1 : R))).sum

/-- The sum, over the pixels the loop over `i` reads, of the blue value `b`. -/
def rowSumB (conv : Nat → Nat → Nat → Nat × Nat × Nat) (b : RGBA) (i0 i1 : Nat) : R :=
  ((rowIndices i0 i1).map
    (fun i => ((conv (b.Pix i) (b.Pix (i + 2)) (b.Pix (i + 2))).2.2 : R))).sum

/-- The sum, over the pixels the loop over `i` reads, of the luma byte `yc`. -/
def rowSumY (b : RGBA) (i0 i1 : Nat) : R :=
  ((rowIndices i0 i1).map (fun i => ((b.Pix i : Nat) : R))).sum

/-- The body of the `v` loop on the pair of the state and `dctPixels`. -/
def transformStep (cos sqrt : R → R) (pi : R) (conv : Nat → Nat → Nat → Nat × Nat × Nat)
    (K : Nat) (dx dy : Int) (b : RGBA) (i0 i1 : Nat) (acc : State R × dctPx R)
    (p : Nat × Nat) : State R × dctPx R :=
  (coefficient cos sqrt pi conv K dx dy b i0 i1 p.1 p.2 acc.1,
    store acc.2 p.1 p.2 (coefficient cos sqrt pi conv K dx dy b i0 i1 p.1 p.2 acc.1))

end Derived

/-! # Theorems -/

set_option linter.unusedSectionVars false

/-! ## Block enumeration -/

theorem foldl_append_singleton {α β : Type} (f : α → β) (l : List α) (init : List β) :
    l.foldl (fun acc a => acc ++ [f a]) init = init ++ l.map f := by
  induction l generalizing init with
  | nil => simp
  | cons a l ih => simp [ih]

theorem foldl_append_flatMap {α β : Type} (g : α → List β) (l : List α) (init : List β) :
    l.foldl (fun acc a => acc ++ g a) init = init ++ l.flatMap g := by
  induction l generalizing init with
  | nil => simp
  | cons a l ih => simp [ih]

theorem makeBlocks_eq (K : Nat) (newImg : RGBA) (dx dy : Int) :
    makeBlocks K newImg dx dy =
      (List.range (dx - K + 1).toNat).flatMap (fun (i : Nat) =>
        (List.range (dy - K + 1).toNat).map (fun (j : Nat) =>
          ({ x := (i : Int), y := (j : Int),
             img := newImg.SubImage i j (i + K) (j + K) } : imageBlock))) := by
  unfold makeBlocks
  simp only [foldl_append_singleton, foldl_append_flatMap, List.nil_append]

theorem makeBlocks_coords (K : Nat) (newImg : RGBA) (dx dy : Int) :
    (makeBlocks K newImg dx dy).map (fun b => (b.x, b.y)) = blockCoords K dx dy := by
  rw [makeBlocks_eq, blockCoords, List.map_flatMap]
  simp [Function.comp_def]

theorem mem_blockCoords (K : Nat) (dx dy x y : Int) :
    (x, y) ∈ blockCoords K dx dy ↔ 0 ≤ x ∧ x ≤ dx - K ∧ 0 ≤ y ∧ y ≤ dy - K := by
  simp only [blockCoords, List.mem_flatMap, List.mem_map, List.mem_range, Prod.mk.injEq]
  constructor
  · rintro ⟨i, hi, j, hj, rfl, rfl⟩
    omega
  · rintro ⟨h1, h2, h3, h4⟩
    exact ⟨x.toNat, by omega, y.toNat, by omega, by omega, by omega⟩

theorem nodup_blockCoords (K : Nat) (dx dy : Int) : (blockCoords K dx dy).Nodup := by
  unfold blockCoords
  rw [List.nodup_flatMap]
  refine ⟨fun i _ => ?_, ?_⟩
  · refine (List.nodup_range _).map ?_
    intro a b h
    simpa using h
  · refine (List.nodup_range _).pairwise_of_forall_ne ?_
    intro a _ b _ hab
    simp only [Function.onFun, List.disjoint_left, List.mem_map, List.mem_range]
    rintro p ⟨j, _, rfl⟩ ⟨j', _, h⟩
    simp only [Prod.mk.injEq, Nat.cast_inj] at h
    exact hab h.1.symm

theorem length_blockCoords (K : Nat) (dx dy : Int) :
    (blockCoords K dx dy).length = (dx - K + 1).toNat * (dy - K + 1).toNat := by
  simp [blockCoords, List.length_flatMap, Function.comp_def]

theorem pairwise_blockCoords (K : Nat) (dx dy : Int) :
    (blockCoords K dx dy).Pairwise (fun p q => p.1 < q.1 ∨ (p.1 = q.1 ∧ p.2 < q.2)) := by
  unfold blockCoords
  rw [List.pairwise_flatMap]
  refine ⟨fun i _ => ?_, ?_⟩
  · rw [List.pairwise_map]
    refine (List.pairwise_lt_range _).imp ?_
    intro a b hab
    exact Or.inr ⟨rfl, Int.ofNat_lt.mpr hab⟩
  · refine (List.pairwise_lt_range _).imp ?_
    intro a b hab p hp q hq
    simp only [List.mem_map, List.mem_range] at hp hq
    obtain ⟨j, _, rfl⟩ := hp
    obtain ⟨j', _, rfl⟩ := hq
    exact Or.inl (Int.ofNat_lt.mpr hab)

/-- C5: the block loops visit exactly the coordinates `(x, y)` with `0 ≤ x ≤ dx-K` and
`0 ≤ y ≤ dy-K`, each once, in increasing order of `x` and, for equal `x`, of `y`; for
`dx, dy ≥ K` this makes `(dx-K+1)·(dy-K+1)` blocks. -/
theorem C5_block_enumeration (K : Nat) (newImg : RGBA) (dx dy : Int) :
    (∀ x y : Int, (x, y) ∈ (makeBlocks K newImg dx dy).map (fun b => (b.x, b.y)) ↔
        0 ≤ x ∧ x ≤ dx - K ∧ 0 ≤ y ∧ y ≤ dy - K) ∧
    ((makeBlocks K newImg dx dy).map (fun b => (b.x, b.y))).Nodup ∧
    ((makeBlocks K newImg dx dy).map (fun b => (b.x, b.y))).Pairwise
        (fun p q => p.1 < q.1 ∨ (p.1 = q.1 ∧ p.2 < q.2)) ∧
    ((K : Int) ≤ dx → (K : Int) ≤ dy →
      ((makeBlocks K newImg dx dy).length : Int) = (dx - K + 1) * (dy - K + 1)) := by
  rw [makeBlocks_coords]
  refine ⟨mem_blockCoords K dx dy, nodup_blockCoords K dx dy, pairwise_blockCoords K dx dy, ?_⟩
  intro h1 h2
  have h := congrArg List.length (makeBlocks_coords K newImg dx dy)
  rw [List.length_map, length_blockCoords] at h
  rw [h]
  push_cast
  rw [Int.toNat_of_nonneg (by omega), Int.toNat_of_nonneg (by omega)]

theorem C5_block_enumeration_witness :
    ((BlockSize : Int) ≤ 8 ∧ (BlockSize : Int) ≤ 8) ∧
    ((makeBlocks BlockSize (uniformImage 8 8 1) 8 8).length : Int) = 25 :=
  ⟨by decide, by
    have h := (C5_block_enumeration BlockSize (uniformImage 8 8 1) 8 8).2.2.2
      (by decide) (by decide)
    simpa [BlockSize] using h⟩

/-! ## Closed forms of the extraction loops -/

section ExtractorLemmas

variable {R : Type} [LinearOrderedField R]

theorem foldl_accumStep (cos : R → R) (pi : R) (K u v r g b yc x n : Nat) (s : State R) :
    (List.range n).foldl (fun s y => accumStep cos pi K u v r g b yc x y s) s =
      { s with
        cr := s.cr + (∑ y ∈ Finset.range n, dct cos pi (x : R) (y : R) (u : R) (v : R) (K : R)) * (r : R)
        cg := s.cg + (∑ y ∈ Finset.range n, dct cos pi (x : R) (y : R) (u : R) (v : R) (K : R)) * (g : R)
        cb := s.cb + (∑ y ∈ Finset.range n, dct cos pi (x : R) (y : R) (u : R) (v : R) (K : R)) * (b : R)
        cy := s.cy + (∑ y ∈ Finset.range n, dct cos pi (x : R) (y : R) (u : R) (v : R) (K : R)) * (yc : R)
        avr := s.avr + (n : R) * (r : R)
        avg := s.avg + (n : R) * (g : R)
        avb := s.avb + (n : R) * (b : R) } := by
  induction n with
  | zero => simp
  | succ n ih =>
    rw [List.range_succ, List.foldl_append, ih]
    simp only [List.foldl_cons, List.foldl_nil, accumStep, Finset.sum_range_succ, State.mk.injEq,
      true_and, Nat.cast_add, Nat.cast_one]
    refine ⟨?_, ?_, ?_, ?_, ?_, ?_, ?_⟩ <;> ring

theorem foldl_accumStep_outer (cos : R → R) (pi : R) (K u v r g b yc m n : Nat) (s : State R) :
    (List.range n).foldl
        (fun s x => (List.range m).foldl (fun s y => accumStep cos pi K u v r g b yc x y s) s) s =
      { s with
        cr := s.cr + (∑ x ∈ Finset.range n, ∑ y ∈ Finset.range m,
                dct cos pi (x : R) (y : R) (u : R) (v : R) (K : R)) * (r : R)
        cg := s.cg + (∑ x ∈ Finset.range n, ∑ y ∈ Finset.range m,
                dct cos pi (x : R) (y : R) (u : R) (v : R) (K : R)) * (g : R)
        cb := s.cb + (∑ x ∈ Finset.range n, ∑ y ∈ Finset.range m,
                dct cos pi (x : R) (y : R) (u : R) (v : R) (K : R)) * (b : R)
        cy := s.cy + (∑ x ∈ Finset.range n, ∑ y ∈ Finset.range m,
                dct cos pi (x : R) (y : R) (u : R) (v : R) (K : R)) * (yc : R)
        avr := s.avr + ((n : R) * (m : R)) * (r : R)
        avg := s.avg + ((n : R) * (m : R)) * (g : R)
        avb := s.avb + ((n : R) * (m : R)) * (b : R) } := by
  induction n with
  | zero => simp
  | succ n ih =>
    rw [List.range_succ, List.foldl_append, ih]
    simp only [List.foldl_cons, List.foldl_nil, foldl_accumStep, Finset.sum_range_succ,
      State.mk.injEq, true_and, Nat.cast_add, Nat.cast_one]
    refine ⟨?_, ?_, ?_, ?_, ?_, ?_, ?_⟩ <;> ring

theorem accumPixel_eq (cos : R → R) (pi : R) (K u v r g b yc : Nat) (s : State R) :
    accumPixel cos pi K u v r g b yc s =
      { s with
        cr := s.cr + kernelSum cos pi K u v * (r : R)
        cg := s.cg + kernelSum cos pi K u v * (g : R)
        cb := s.cb + kernelSum cos pi K u v * (b : R)
        cy := s.cy + kernelSum cos pi K u v * (yc : R)
        avr := s.avr + ((K : R) * (K : R)) * (r : R)
        avg := s.avg + ((K : R) * (K : R)) * (g : R)
        avb := s.avb + ((K : R) * (K : R)) * (b : R) } := by
  unfold accumPixel kernelSum
  exact foldl_accumStep_outer cos pi K u v r g b yc K K s

theorem foldl_accumPixel (cos : R → R) (pi : R) (conv : Nat → Nat → Nat → Nat × Nat × Nat)
    (K u v : Nat) (b : RGBA) (l : List Nat) (s : State R) :
    l.foldl (fun s i => accumPixel cos pi K u v (conv (b.Pix (i + 0)) (b.Pix (i + 2))
          (b.Pix (i + 2))).1 (conv (b.Pix (i + 0)) (b.Pix (i + 2)) (b.Pix (i + 2))).2.1
          (conv (b.Pix (i + 0)) (b.Pix (i + 2)) (b.Pix (i + 2))).2.2 (b.Pix (i + 0)) s) s =
      { s with
        cr := s.cr + kernelSum cos pi K u v *
          (l.map (fun i => ((conv (b.Pix i) (b.Pix (i + 2)) (b.Pix (i + 2))).1 : R))).sum
        cg := s.cg + kernelSum cos pi K u v *
          (l.map (fun i => ((conv (b.Pix i) (b.Pix (i + 2)) (b.Pix (i + 2))).2.1 : R))).sum
        cb := s.cb + kernelSum cos pi K u v *
          (l.map (fun i => ((conv (b.Pix i) (b.Pix (i + 2)) (b.Pix (i + 2))).2.2 : R))).sum
        cy := s.cy + kernelSum cos pi K u v * (l.map (fun i => ((b.Pix i : Nat) : R))).sum
        avr := s.avr + ((K : R) * (K : R)) *
          (l.map (fun i => ((conv (b.Pix i) (b.Pix (i + 2)) (b.Pix (i + 2))).1 : R))).sum
        avg := s.avg + ((K : R) * (K : R)) *
          (l.map (fun i => ((conv (b.Pix i) (b.Pix (i + 2)) (b.Pix (i + 2))).2.1 : R))).sum
        avb := s.avb + ((K : R) * (K : R)) *
          (l.map (fun i => ((conv (b.Pix i) (b.Pix (i + 2)) (b.Pix (i + 2))).2.2 : R))).sum } := by
  induction l generalizing s with
  | nil => simp
  | cons i l ih =>
    rw [List.foldl_cons, ih]
    simp only [accumPixel_eq, Nat.add_zero, List.map_cons, List.sum_cons, State.mk.injEq,
      true_and]
    refine ⟨?_, ?_, ?_, ?_, ?_, ?_, ?_⟩ <;> ring

theorem accumRow_eq (cos : R → R) (pi : R) (conv : Nat → Nat → Nat → Nat × Nat × Nat)
    (K u v : Nat) (b : RGBA) (i0 i1 : Nat) (s : State R) :
    accumRow cos pi conv K u v b i0 i1 s =
      { s with
        cr := s.cr + kernelSum cos pi K u v * rowSumR conv b i0 i1
        cg := s.cg + kernelSum cos pi K u v * rowSumG conv b i0 i1
        cb := s.cb + kernelSum cos pi K u v * rowSumB conv b i0 i1
        cy := s.cy + kernelSum cos pi K u v * rowSumY b i0 i1
        avr := s.avr + ((K : R) * (K : R)) * rowSumR conv b i0 i1
        avg := s.avg + ((K : R) * (K : R)) * rowSumG conv b i0 i1
        avb := s.avb + ((K : R) * (K : R)) * rowSumB conv b i0 i1 } := by
  unfold accumRow rowSumR rowSumG rowSumB rowSumY
  exact foldl_accumPixel cos pi conv K u v b (rowIndices i0 i1) s

theorem coefficient_eq (cos sqrt : R → R) (pi : R) (conv : Nat → Nat → Nat → Nat × Nat × Nat)
    (K : Nat) (dx dy : Int) (b : RGBA) (i0 i1 u v : Nat) (s : State R) :
    coefficient cos sqrt pi conv K dx dy b i0 i1 u v s =
      { s with
        cr := (s.cr + kernelSum cos pi K u v * rowSumR conv b i0 i1) *
          (alpha sqrt dx dy (u : R) * alpha sqrt dx dy (v : R))
        cg := (s.cg + kernelSum cos pi K u v * rowSumG conv b i0 i1) *
          (alpha sqrt dx dy (u : R) * alpha sqrt dx dy (v : R))
        cb := (s.cb + kernelSum cos pi K u v * rowSumB conv b i0 i1) *
          (alpha sqrt dx dy (u : R) * alpha sqrt dx dy (v : R))
        cy := (s.cy + kernelSum cos pi K u v * rowSumY b i0 i1) *
          (alpha sqrt dx dy (u : R) * alpha sqrt dx dy (v : R))
        avr := s.avr + ((K : R) * (K : R)) * rowSumR conv b i0 i1
        avg := s.avg + ((K : R) * (K : R)) * rowSumG conv b i0 i1
        avb := s.avb + ((K : R) * (K : R)) * rowSumB conv b i0 i1 } := by
  simp only [coefficient, accumRow_eq]

theorem foldl_flatMap_pairs {α : Type} (f : α → Nat × Nat → α) (n m : Nat) (a : α) :
    (List.range n).foldl (fun acc u => (List.range m).foldl (fun acc v => f acc (u, v)) acc) a =
      ((List.range n).flatMap (fun u => (List.range m).map (fun v => (u, v)))).foldl f a := by
  induction n with
  | zero => simp
  | succ n ih =>
    rw [List.range_succ, List.foldl_append, ih, List.flatMap_append, List.foldl_append]
    simp [List.foldl_map]

theorem transform_eq_foldl (cos sqrt : R → R) (pi : R) (conv : Nat → Nat → Nat → Nat × Nat × Nat)
    (K : Nat) (dx dy : Int) (b : RGBA) (s : State R) :
    transform cos sqrt pi conv K dx dy b s =
      (uvPairs K).foldl
        (transformStep cos sqrt pi conv K dx dy b (b.PixOffset b.MinX b.MinY)
          (b.PixOffset b.MinX b.MinY + b.Dx * 4))
        (s, fun _ _ => ⟨0, 0, 0, 0⟩) := by
  unfold transform uvPairs
  exact foldl_flatMap_pairs
    (transformStep cos sqrt pi conv K dx dy b (b.PixOffset b.MinX b.MinY)
      (b.PixOffset b.MinX b.MinY + b.Dx * 4)) K K (s, fun _ _ => ⟨0, 0, 0, 0⟩)

theorem readPx_eq_some (K : Nat) (hK : 2 ≤ K) (dp : dctPx R) (u v : Nat) (hu : u < 2)
    (hv : v < 2) : readPx K dp u v = some (dp u v) := by
  unfold readPx
  have h1 : u < K := by omega
  have h2 : u < K * K := by nlinarith
  have h3 : v < K := by omega
  simp [h1, h2, h3]

theorem processBlock_eq (cos sqrt : R → R) (pi : R) (conv : Nat → Nat → Nat → Nat × Nat × Nat)
    (K : Nat) (hK : 2 ≤ K) (dx dy : Int) (s : State R) (block : imageBlock) :
    processBlock cos sqrt pi conv K dx dy s block =
      some
        { (transform cos sqrt pi conv K dx dy block.img s).1 with
          avr := (transform cos sqrt pi conv K dx dy block.img s).1.avr / ((K * K : Nat) : R)
          avg := (transform cos sqrt pi conv K dx dy block.img s).1.avg / ((K * K : Nat) : R)
          avb := (transform cos sqrt pi conv K dx dy block.img s).1.avb / ((K * K : Nat) : R)
          features := (transform cos sqrt pi conv K dx dy block.img s).1.features ++
            [⟨block.x, block.y, ((transform cos sqrt pi conv K dx dy block.img s).2 0 0).y⟩,
             ⟨block.x, block.y, ((transform cos sqrt pi conv K dx dy block.img s).2 0 1).y⟩,
             ⟨block.x, block.y, ((transform cos sqrt pi conv K dx dy block.img s).2 1 0).y⟩,
             ⟨block.x, block.y, ((transform cos sqrt pi conv K dx dy block.img s).2 0 0).r⟩,
             ⟨block.x, block.y, ((transform cos sqrt pi conv K dx dy block.img s).2 0 0).g⟩,
             ⟨block.x, block.y, ((transform cos sqrt pi conv K dx dy block.img s).2 0 0).b⟩,
             ⟨block.x, block.y,
               (transform cos sqrt pi conv K dx dy block.img s).1.avr / ((K * K : Nat) : R)⟩,
             ⟨block.x, block.y,
               (transform cos sqrt pi conv K dx dy block.img s).1.avb / ((K * K : Nat) : R)⟩,
             ⟨block.x, block.y,
               (transform cos sqrt pi conv K dx dy block.img s).1.avg / ((K * K : Nat) : R)⟩] } := by
  unfold processBlock
  simp only [readPx_eq_some K hK _ _ _ (show (0 : Nat) < 2 by decide)
      (show (0 : Nat) < 2 by decide), readPx_eq_some K hK _ _ _ (show (0 : Nat) < 2 by decide)
      (show (1 : Nat) < 2 by decide), readPx_eq_some K hK _ _ _ (show (1 : Nat) < 2 by decide)
      (show (0 : Nat) < 2 by decide), State.append, Option.some_bind, Option.pure_def,
      Option.bind_eq_bind, List.append_assoc, List.singleton_append, List.cons_append,
      List.nil_append]

end ExtractorLemmas

/-! ## Distance and normalisation -/

theorem sqrt_25 : Real.sqrt 25 = 5 := by
  rw [show (25 : ℝ) = 5 ^ 2 by norm_num]
  exact Real.sqrt_sq (by norm_num)

theorem log2_zero_eq : Nat.log2 0 = 0 := by
  unfold Nat.log2
  simp

theorem float64OfInt_eq_self (n : Int) (h : n.natAbs ≤ 2 ^ 53) : float64OfInt n = n := by
  unfold float64OfInt
  rcases Nat.lt_or_eq_of_le h with hlt | heq
  · have he : Nat.log2 n.natAbs - 52 = 0 := by
      by_cases h0 : n.natAbs = 0
      · rw [h0, log2_zero_eq]
      · have := (Nat.log2_lt h0).mpr hlt
        omega
    simp only [he, pow_zero, Nat.div_one, Nat.mod_one, Nat.mul_zero, Nat.mul_one]
    rw [if_neg (by omega)]
    exact Int.sign_mul_natAbs n
  · have he : Nat.log2 n.natAbs - 52 = 1 := by
      have h0 : n.natAbs ≠ 0 := by rw [heq]; positivity
      have h1 : Nat.log2 n.natAbs < 54 := (Nat.log2_lt h0).mpr (by rw [heq]; norm_num)
      have h2 : 53 ≤ Nat.log2 n.natAbs := (Nat.le_log2 h0).mpr (by rw [heq])
      omega
    simp only [he, pow_one]
    have hq : n.natAbs / 2 * 2 = n.natAbs := by rw [heq]; norm_num
    have hr : n.natAbs % 2 = 0 := by rw [heq]; norm_num
    rw [if_neg (by omega), hq]
    exact Int.sign_mul_natAbs n

theorem float64OfInt_two_pow_succ : float64OfInt (2 ^ 53 + 1) = 2 ^ 53 := by
  unfold float64OfInt
  have hm : ((2 : Int) ^ 53 + 1).natAbs = 2 ^ 53 + 1 := by decide
  have hs : ((2 : Int) ^ 53 + 1).sign = 1 := by decide
  have he : Nat.log2 (2 ^ 53 + 1) - 52 = 1 := by
    have h0 : (2 ^ 53 + 1 : Nat) ≠ 0 := by norm_num
    have h1 : Nat.log2 (2 ^ 53 + 1) < 54 := (Nat.log2_lt h0).mpr (by norm_num)
    have h2 : 53 ≤ Nat.log2 (2 ^ 53 + 1) := (Nat.le_log2 h0).mpr (by norm_num)
    omega
  simp only [hm, hs, he]
  norm_num

theorem analyze_of_exact (A B : feature ℝ)
    (hA : A.x.natAbs ≤ 2 ^ 53 ∧ A.y.natAbs ≤ 2 ^ 53)
    (hB : B.x.natAbs ≤ 2 ^ 53 ∧ B.y.natAbs ≤ 2 ^ 53) :
    analyze Real.sqrt A B =
      if Real.sqrt (((A.x : ℝ) - (B.x : ℝ)) ^ 2 + ((A.y : ℝ) - (B.y : ℝ)) ^ 2) < (Threshold : ℝ)
      then Real.sqrt (((A.x : ℝ) - (B.x : ℝ)) ^ 2 + ((A.y : ℝ) - (B.y : ℝ)) ^ 2) else 0 := by
  unfold analyze
  rw [float64OfInt_eq_self A.x hA.1, float64OfInt_eq_self A.y hA.2,
    float64OfInt_eq_self B.x hB.1, float64OfInt_eq_self B.y hB.2]

theorem analyze_huge_pair :
    analyze Real.sqrt (⟨2 ^ 53 + 1, 0, 1⟩ : feature ℝ) ⟨2 ^ 53, 0, 2⟩ = 0 := by
  unfold analyze
  have h1 : float64OfInt (2 ^ 53) = 2 ^ 53 := float64OfInt_eq_self _ (by decide)
  have h0 : float64OfInt 0 = 0 := float64OfInt_eq_self _ (by decide)
  simp only [float64OfInt_two_pow_succ, h1, h0]
  norm_num

/-- C10, as stated, fails: for the entries at `(2^53 + 1, 0)` and `(2^53, 0)` the distance
between the block coordinates is 1, below `Threshold`, and `analyze` returns 0, because
`float64(2^53 + 1)` is `2^53`. -/
theorem C10_huge_coordinates_give_zero :
    analyze Real.sqrt (⟨2 ^ 53 + 1, 0, 1⟩ : feature ℝ) ⟨2 ^ 53, 0, 2⟩ = 0 ∧
    Real.sqrt ((((2 ^ 53 + 1 : Int) - (2 ^ 53 : Int) : Int) : ℝ) ^ 2 +
      (((0 : Int) - (0 : Int) : Int) : ℝ) ^ 2) = 1 ∧
    (1 : ℝ) < (Threshold : ℝ) := by
  refine ⟨analyze_huge_pair, ?_, by norm_num [Threshold]⟩
  norm_num

/-- C10, amended: for entries whose coordinates are at most `2^53` in absolute value, where
`float64(int)` is exact, `analyze(A, B)` is the Euclidean distance between the block
coordinates of `A` and `B` when that distance is below `Threshold`, and 0 otherwise. -/
theorem C10_analyze_distance_exact_range (A B : feature ℝ)
    (hA : A.x.natAbs ≤ 2 ^ 53 ∧ A.y.natAbs ≤ 2 ^ 53)
    (hB : B.x.natAbs ≤ 2 ^ 53 ∧ B.y.natAbs ≤ 2 ^ 53) :
    (Real.sqrt (((A.x - B.x : Int) : ℝ) ^ 2 + ((A.y - B.y : Int) : ℝ) ^ 2) < (Threshold : ℝ) →
      analyze Real.sqrt A B =
        Real.sqrt (((A.x - B.x : Int) : ℝ) ^ 2 + ((A.y - B.y : Int) : ℝ) ^ 2)) ∧
    (¬ Real.sqrt (((A.x - B.x : Int) : ℝ) ^ 2 + ((A.y - B.y : Int) : ℝ) ^ 2) < (Threshold : ℝ) →
      analyze Real.sqrt A B = 0) := by
  rw [analyze_of_exact A B hA hB]
  simp only [Int.cast_sub]
  constructor
  · intro h
    rw [if_pos h]
  · intro h
    rw [if_neg h]

theorem C10_analyze_distance_exact_range_witness :
    (Real.sqrt ((((0 : Int) - 3 : Int) : ℝ) ^ 2 + (((0 : Int) - 4 : Int) : ℝ) ^ 2) <
        (Threshold : ℝ) ∧
      analyze Real.sqrt (⟨0, 0, 1⟩ : feature ℝ) ⟨3, 4, 2⟩ = 5) ∧
    (¬ Real.sqrt ((((0 : Int) - 6 : Int) : ℝ) ^ 2 + (((0 : Int) - 8 : Int) : ℝ) ^ 2) <
        (Threshold : ℝ) ∧
      analyze Real.sqrt (⟨0, 0, 1⟩ : feature ℝ) ⟨6, 8, 2⟩ = 0) := by
  have h5 : Real.sqrt ((((0 : Int) - 3 : Int) : ℝ) ^ 2 + (((0 : Int) - 4 : Int) : ℝ) ^ 2) = 5 := by
    rw [show ((((0 : Int) - 3 : Int) : ℝ) ^ 2 + (((0 : Int) - 4 : Int) : ℝ) ^ 2) = 25 by norm_num]
    exact sqrt_25
  have h10 : Real.sqrt ((((0 : Int) - 6 : Int) : ℝ) ^ 2 + (((0 : Int) - 8 : Int) : ℝ) ^ 2) = 10 := by
    rw [show ((((0 : Int) - 6 : Int) : ℝ) ^ 2 + (((0 : Int) - 8 : Int) : ℝ) ^ 2) = 10 ^ 2 by
      norm_num]
    exact Real.sqrt_sq (by norm_num)
  have hlt : Real.sqrt ((((0 : Int) - 3 : Int) : ℝ) ^ 2 + (((0 : Int) - 4 : Int) : ℝ) ^ 2)
      < (Threshold : ℝ) := by
    rw [h5]; norm_num [Threshold]
  have hge : ¬ Real.sqrt ((((0 : Int) - 6 : Int) : ℝ) ^ 2 + (((0 : Int) - 8 : Int) : ℝ) ^ 2)
      < (Threshold : ℝ) := by
    rw [h10]; norm_num [Threshold]
  exact ⟨⟨hlt, ((C10_analyze_distance_exact_range ⟨0, 0, 1⟩ ⟨3, 4, 2⟩
      ⟨by decide, by decide⟩ ⟨by decide, by decide⟩).1 hlt).trans h5⟩,
    ⟨hge, (C10_analyze_distance_exact_range ⟨0, 0, 1⟩ ⟨6, 8, 2⟩
      ⟨by decide, by decide⟩ ⟨by decide, by decide⟩).2 hge⟩⟩

/-- C2: the closure `alpha` of `main` returns `sqrt(1/dx)` at 0 and `sqrt(2/dy)` elsewhere,
for the image width `dx` and height `dy`. On an 8×8 image the factor the program applies at
`(u, v) = (0, 0)` is `1/8`, whereas `α(0)·α(0)` for `K = BlockSize = 4` is `1/4`, and the
factor changes with the image size. -/
theorem C2_alpha_uses_image_size :
    (∀ dx dy : Int, alpha Real.sqrt dx dy (0 : ℝ) = Real.sqrt (1 / (dx : ℝ)) ∧
      alpha Real.sqrt dx dy (1 : ℝ) = Real.sqrt (2 / (dy : ℝ))) ∧
    alpha Real.sqrt 8 8 (0 : ℝ) * alpha Real.sqrt 8 8 (0 : ℝ) = 1 / 8 ∧
    specAlpha Real.sqrt BlockSize 0 * specAlpha Real.sqrt BlockSize 0 = (1 / 4 : ℝ) ∧
    alpha Real.sqrt 8 8 (0 : ℝ) ≠ alpha Real.sqrt 4 4 (0 : ℝ) := by
  have h8 : alpha Real.sqrt 8 8 (0 : ℝ) = Real.sqrt (1 / 8) := by simp [alpha]
  have h4 : alpha Real.sqrt 4 4 (0 : ℝ) = Real.sqrt (1 / 4) := by simp [alpha]
  have hs : specAlpha Real.sqrt BlockSize 0 = Real.sqrt (1 / 4 : ℝ) := by
    simp [specAlpha, BlockSize]
  refine ⟨fun dx dy => ⟨by simp [alpha], by simp [alpha]⟩, ?_, ?_, ?_⟩
  · rw [h8]; exact Real.mul_self_sqrt (by norm_num)
  · rw [hs]; exact Real.mul_self_sqrt (by norm_num)
  · rw [h8, h4]
    intro h
    have := (Real.sqrt_inj (by norm_num) (by norm_num)).mp h
    norm_num at this

/-! ## Feature entries per block -/

section FeatureCount

variable {R : Type} [LinearOrderedField R]

theorem foldl_transformStep_features (cos sqrt : R → R) (pi : R)
    (conv : Nat → Nat → Nat → Nat × Nat × Nat) (K : Nat) (dx dy : Int) (b : RGBA)
    (i0 i1 : Nat) (l : List (Nat × Nat)) (acc : State R × dctPx R) :
    (l.foldl (transformStep cos sqrt pi conv K dx dy b i0 i1) acc).1.features =
      acc.1.features := by
  induction l generalizing acc with
  | nil => rfl
  | cons p l ih =>
    rw [List.foldl_cons, ih]
    simp only [transformStep, coefficient_eq]

theorem transform_features (cos sqrt : R → R) (pi : R)
    (conv : Nat → Nat → Nat → Nat × Nat × Nat) (K : Nat) (dx dy : Int) (b : RGBA)
    (s : State R) :
    (transform cos sqrt pi conv K dx dy b s).1.features = s.features := by
  rw [transform_eq_foldl, foldl_transformStep_features]

/-- C6: for a block size of at least 2 the body of the block loop appends exactly nine
entries, each with the block's `(x, y)`, in the order luma(0,0), luma(0,1), luma(1,0),
red(0,0), green(0,0), blue(0,0), avgRed, avgBlue, avgGreen, where the coefficients are
the cells of `dctPixels` and the averages are `avr`, `avb`, `avg` after their division. -/
theorem C6_nine_entries_in_order (cos sqrt : R → R) (pi : R)
    (conv : Nat → Nat → Nat → Nat × Nat × Nat) (K : Nat) (hK : 2 ≤ K) (dx dy : Int)
    (s : State R) (block : imageBlock) :
    ∃ s' : State R, processBlock cos sqrt pi conv K dx dy s block = some s' ∧
      s'.avr = (transform cos sqrt pi conv K dx dy block.img s).1.avr / ((K * K : Nat) : R) ∧
      s'.avg = (transform cos sqrt pi conv K dx dy block.img s).1.avg / ((K * K : Nat) : R) ∧
      s'.avb = (transform cos sqrt pi conv K dx dy block.img s).1.avb / ((K * K : Nat) : R) ∧
      s'.features = s.features ++
        [⟨block.x, block.y, ((transform cos sqrt pi conv K dx dy block.img s).2 0 0).y⟩,
         ⟨block.x, block.y, ((transform cos sqrt pi conv K dx dy block.img s).2 0 1).y⟩,
         ⟨block.x, block.y, ((transform cos sqrt pi conv K dx dy block.img s).2 1 0).y⟩,
         ⟨block.x, block.y, ((transform cos sqrt pi conv K dx dy block.img s).2 0 0).r⟩,
         ⟨block.x, block.y, ((transform cos sqrt pi conv K dx dy block.img s).2 0 0).g⟩,
         ⟨block.x, block.y, ((transform cos sqrt pi conv K dx dy block.img s).2 0 0).b⟩,
         ⟨block.x, block.y, s'.avr⟩,
         ⟨block.x, block.y, s'.avb⟩,
         ⟨block.x, block.y, s'.avg⟩] := by
  refine ⟨_, processBlock_eq cos sqrt pi conv K hK dx dy s block, rfl, rfl, rfl, ?_⟩
  simp only [transform_features]

theorem processBlock_length (cos sqrt : R → R) (pi : R)
    (conv : Nat → Nat → Nat → Nat × Nat × Nat) (K : Nat) (hK : 2 ≤ K) (dx dy : Int)
    (s : State R) (block : imageBlock) :
    ∃ s' : State R, processBlock cos sqrt pi conv K dx dy s block = some s' ∧
      s'.features.length = s.features.length + 9 := by
  refine ⟨_, processBlock_eq cos sqrt pi conv K hK dx dy s block, ?_⟩
  simp [transform_features]

theorem extract_length (cos sqrt : R → R) (pi : R)
    (conv : Nat → Nat → Nat → Nat × Nat × Nat) (K : Nat) (hK : 2 ≤ K) (dx dy : Int)
    (blocks : List imageBlock) (s : State R) :
    ∃ s' : State R, extract cos sqrt pi conv K dx dy blocks s = some s' ∧
      s'.features.length = s.features.length + 9 * blocks.length := by
  induction blocks generalizing s with
  | nil => exact ⟨s, rfl, by simp⟩
  | cons b bs ih =>
    obtain ⟨s1, h1, hl1⟩ := processBlock_length cos sqrt pi conv K hK dx dy s b
    obtain ⟨s2, h2, hl2⟩ := ih s1
    refine ⟨s2, ?_, ?_⟩
    · unfold extract at h2 ⊢
      rw [List.foldlM_cons, h1]
      exact h2
    · rw [hl2, hl1, List.length_cons]
      ring

/-- C7: for a block size of at least 2, extraction over any list of blocks from an empty
feature sequence returns, and the feature sequence then has `9 × blockCount` entries. -/
theorem C7_feature_count (cos sqrt : R → R) (pi : R)
    (conv : Nat → Nat → Nat → Nat × Nat × Nat) (K : Nat) (hK : 2 ≤ K) (dx dy : Int)
    (blocks : List imageBlock) (s : State R) (hs : s.features = []) :
    ∃ s' : State R, extract cos sqrt pi conv K dx dy blocks s = some s' ∧
      s'.features.length = 9 * blocks.length := by
  obtain ⟨s', h, hl⟩ := extract_length cos sqrt pi conv K hK dx dy blocks s
  exact ⟨s', h, by rw [hl, hs]; simp⟩

theorem C7_feature_count_witness :
    (2 ≤ BlockSize ∧ (State.init : State ℝ).features = []) ∧
    ∃ s' : State ℝ,
      extract Real.cos Real.sqrt Real.pi YCbCrToRGB BlockSize 8 8
        (makeBlocks BlockSize (uniformImage 8 8 1) 8 8) State.init = some s' ∧
      s'.features.length = 225 := by
  refine ⟨⟨by decide, rfl⟩, ?_⟩
  have h := C7_feature_count Real.cos Real.sqrt Real.pi YCbCrToRGB BlockSize (by decide) 8 8
    (makeBlocks BlockSize (uniformImage 8 8 1) 8 8) State.init rfl
  have h25 : (makeBlocks BlockSize (uniformImage 8 8 1) 8 8).length = 25 := by decide
  rw [h25] at h
  exact h

theorem C6_nine_entries_in_order_witness :
    2 ≤ BlockSize ∧
    ∃ s' : State ℝ,
      processBlock Real.cos Real.sqrt Real.pi YCbCrToRGB BlockSize 4 4 State.init
        ⟨0, 0, (uniformImage 4 4 1).SubImage 0 0 4 4⟩ = some s' ∧
      s'.features.length = 9 ∧ s'.features.map (fun f => (f.x, f.y)) = List.replicate 9 (0, 0) := by
  refine ⟨by decide, ?_⟩
  obtain ⟨s', h, _, _, _, hf⟩ := C6_nine_entries_in_order Real.cos Real.sqrt Real.pi YCbCrToRGB
    BlockSize (by decide) 4 4 State.init ⟨0, 0, (uniformImage 4 4 1).SubImage 0 0 4 4⟩
  refine ⟨s', h, ?_, ?_⟩
  · rw [hf]; rfl
  · rw [hf]; rfl

end FeatureCount

/-! ## Sort step -/

section SortLemmas

variable {R : Type} [LinearOrderedField R]

theorem set_set_eq_ofFn {α : Type} (a : List α) (i j : Nat) (hi : i < a.length)
    (hj : j < a.length) :
    (a.set i a[j]).set j a[i] =
      List.ofFn (a.get ∘ (Equiv.swap (⟨i, hi⟩ : Fin a.length) ⟨j, hj⟩)) := by
  apply List.ext_getElem
  · simp
  · intro n h1 h2
    have hn : n < a.length := by simpa using h1
    rw [List.getElem_ofFn, Function.comp_apply, List.getElem_set]
    by_cases hjn : j = n
    · subst hjn
      rw [if_pos rfl]
      simp [Equiv.swap_apply_right]
    · rw [if_neg hjn, List.getElem_set]
      by_cases hin : i = n
      · subst hin
        rw [if_pos rfl]
        simp [Equiv.swap_apply_left]
      · rw [if_neg hin]
        have h3 : (Equiv.swap (⟨i, hi⟩ : Fin a.length) ⟨j, hj⟩) ⟨n, hn⟩ = ⟨n, hn⟩ := by
          apply Equiv.swap_apply_of_ne_of_ne
          · intro h; exact hin (Fin.mk.inj h).symm
          · intro h; exact hjn (Fin.mk.inj h).symm
        simp [h3]

theorem set_set_perm {α : Type} (a : List α) (i j : Nat) (hi : i < a.length)
    (hj : j < a.length) : ((a.set i a[j]).set j a[i]).Perm a := by
  rw [set_set_eq_ofFn a i j hi hj]
  have h := Equiv.Perm.ofFn_comp_perm (Equiv.swap (⟨i, hi⟩ : Fin a.length) ⟨j, hj⟩) a.get
  rwa [List.ofFn_get] at h

theorem Swap_perm (a a' : featVec R) (i j : Nat) (h : a.Swap i j = some a') : a'.Perm a := by
  unfold featVec.Swap at h
  rcases hi : a[i]? with _ | ai
  · simp [hi] at h
  rcases hj : a[j]? with _ | aj
  · simp [hi, hj] at h
  simp only [hi, hj, Option.some_bind, Option.bind_eq_bind, Option.pure_def,
    Option.some.injEq] at h
  obtain ⟨hi', rfl⟩ := List.getElem?_eq_some.mp hi
  obtain ⟨hj', rfl⟩ := List.getElem?_eq_some.mp hj
  rw [← h]
  exact set_set_perm a i j hi' hj'

theorem applySwaps_perm (swaps : List (Nat × Nat)) (a a' : featVec R)
    (h : applySwaps swaps a = some a') : a'.Perm a := by
  induction swaps generalizing a with
  | nil =>
    simp only [applySwaps, List.foldlM_nil, Option.pure_def, Option.some.injEq] at h
    rw [h]
  | cons ij swaps ih =>
    unfold applySwaps at h
    rw [List.foldlM_cons] at h
    rcases h1 : a.Swap ij.1 ij.2 with _ | a1
    · simp [h1] at h
    · rw [h1] at h
      exact (ih a1 h).trans (Swap_perm a a1 ij.1 ij.2 h1)

theorem Less_eq (a : featVec R) (i j : Nat) (hi : i < a.length) (hj : j < a.length) :
    a.Less i j = some (decide (a[i].val < a[j].val)) := by
  unfold featVec.Less
  rw [List.getElem?_eq_getElem hi, List.getElem?_eq_getElem hj]
  simp only [Option.some_bind, Option.bind_eq_bind, Option.pure_def]
  by_cases h1 : a[i].val < a[j].val
  · simp [h1]
  · by_cases h2 : a[i].val > a[j].val
    · simp [h1, h2]
    · simp [h1, h2]

theorem applySwaps_append (s1 s2 : List (Nat × Nat)) (a : featVec R) :
    applySwaps (s1 ++ s2) a = (applySwaps s1 a).bind (applySwaps s2) := by
  unfold applySwaps
  rw [List.foldlM_append]
  rfl

theorem Swap_cons (x : feature R) (a a' : featVec R) (i j : Nat)
    (h : a.Swap i j = some a') :
    featVec.Swap (x :: a) (i + 1) (j + 1) = some (x :: a') := by
  unfold featVec.Swap at h ⊢
  simp only [List.getElem?_cons_succ]
  rcases hi : a[i]? with _ | ai
  · simp [hi] at h
  rcases hj : a[j]? with _ | aj
  · simp [hi, hj] at h
  simp only [hi, hj, Option.some_bind, Option.bind_eq_bind, Option.pure_def,
    Option.some.injEq] at h ⊢
  rw [← h]
  rfl

theorem applySwaps_cons (x : feature R) (swaps : List (Nat × Nat)) (a a' : featVec R)
    (h : applySwaps swaps a = some a') :
    applySwaps (swaps.map (fun ij => (ij.1 + 1, ij.2 + 1))) (x :: a) = some (x :: a') := by
  induction swaps generalizing a with
  | nil =>
    simp only [applySwaps, List.foldlM_nil, Option.pure_def, Option.some.injEq] at h
    rw [h]
    rfl
  | cons ij swaps ih =>
    unfold applySwaps at h
    rw [List.foldlM_cons] at h
    rcases h1 : a.Swap ij.1 ij.2 with _ | a1
    · simp [h1] at h
    · rw [h1] at h
      have h2 := ih a1 h
      unfold applySwaps at h2 ⊢
      rw [List.map_cons, List.foldlM_cons, Swap_cons x a a1 ij.1 ij.2 h1]
      exact h2

theorem exists_swaps_of_perm (a a' : featVec R) (h : a.Perm a') :
    ∃ swaps, applySwaps swaps a = some a' := by
  induction h with
  | nil => exact ⟨[], rfl⟩
  | cons x _ ih =>
    obtain ⟨swaps, hs⟩ := ih
    exact ⟨_, applySwaps_cons x swaps _ _ hs⟩
  | swap x y l => exact ⟨[(0, 1)], by simp [applySwaps, featVec.Swap]⟩
  | trans _ _ ih1 ih2 =>
    obtain ⟨s1, h1⟩ := ih1
    obtain ⟨s2, h2⟩ := ih2
    exact ⟨s1 ++ s2, by rw [applySwaps_append, h1]; exact h2⟩

end SortLemmas

/-! ## The library sort: `Less`, `Swap` and the frame of a call -/

section SortCalls

variable {R : Type} [LT R] [DecidableRel (fun a b : R => a < b)] {le : R → R → Prop}

theorem Less_some (d : featVec R) (i j : Nat) (f g : feature R)
    (hi : d[i]? = some f) (hj : d[j]? = some g) :
    d.Less i j = some (decide (f.val < g.val)) := by
  unfold featVec.Less
  rw [hi, hj]
  simp only [Option.some_bind, Option.bind_eq_bind, Option.pure_def]
  by_cases h1 : f.val < g.val
  · simp [h1]
  · by_cases h2 : f.val > g.val
    · simp [h1, h2]
    · simp [h1, h2]

theorem Swap_some (d : featVec R) (i j : Nat) (hi : i < d.length) (hj : j < d.length) :
    ∃ d', d.Swap i j = some d' ∧ d'.length = d.length ∧ d'.Perm d ∧
      ∀ k, d'[k]? = if k = j then d[i]? else if k = i then d[j]? else d[k]? := by
  refine ⟨(d.set i d[j]).set j d[i], ?_, by simp, set_set_perm d i j hi hj, ?_⟩
  · unfold featVec.Swap
    rw [List.getElem?_eq_getElem hi, List.getElem?_eq_getElem hj]
    rfl
  · intro k
    rw [List.getElem?_set]
    by_cases hkj : k = j
    · subst hkj
      simp [hj, List.getElem?_eq_getElem hi]
    · rw [if_neg (Ne.symm hkj), if_neg hkj, List.getElem?_set]
      by_cases hki : k = i
      · subst hki
        simp [hi, List.getElem?_eq_getElem hj]
      · rw [if_neg (Ne.symm hki), if_neg hki]

end SortCalls

section FrameLemmas

variable {R : Type} [LT R] [DecidableRel (fun a b : R => a < b)] {le : R → R → Prop}

theorem Frame.refl (lo hi : Nat) (d : featVec R) : Frame lo hi d d :=
  ⟨rfl, List.Perm.refl d, fun _ _ => rfl, fun _ h => h⟩

theorem Frame.trans {lo hi : Nat} {d1 d2 d3 : featVec R} (h12 : Frame lo hi d1 d2)
    (h23 : Frame lo hi d2 d3) : Frame lo hi d1 d3 :=
  ⟨h23.1.trans h12.1, h23.2.1.trans h12.2.1,
    fun k hk => (h23.2.2.1 k hk).trans (h12.2.2.1 k hk),
    fun P hP => h23.2.2.2 P (h12.2.2.2 P hP)⟩

theorem Frame.allIn {lo hi : Nat} {d1 d2 : featVec R} (h : Frame lo hi d1 d2)
    {i j : Nat} {P : feature R → Prop} (hr : (i ≤ lo ∧ hi ≤ j) ∨ j ≤ lo ∨ hi ≤ i)
    (hP : AllIn d1 i j P) : AllIn d2 i j P := by
  intro k f hik hkj hf
  by_cases hk : lo ≤ k ∧ k < hi
  · rcases hr with hr | hr
    · have hP1 : AllIn d1 lo hi P := fun k f h1 h2 hf => hP k f (by omega) (by omega) hf
      exact h.2.2.2 P hP1 k f hk.1 hk.2 hf
    · omega
  · rw [h.2.2.1 k (by omega)] at hf
    exact hP k f hik hkj hf

theorem Frame.mono {lo hi lo' hi' : Nat} {d1 d2 : featVec R} (h : Frame lo hi d1 d2)
    (hlo : lo' ≤ lo) (hhi : hi ≤ hi') : Frame lo' hi' d1 d2 :=
  ⟨h.1, h.2.1, fun k hk => h.2.2.1 k (by omega),
    fun _ hP => h.allIn (Or.inl ⟨hlo, hhi⟩) hP⟩

theorem Frame.valsIn {lo hi : Nat} {d1 d2 : featVec R} (h : Frame lo hi d1 d2)
    {S : R → Prop} (hS : ValsIn S d1) : ValsIn S d2 := by
  intro k f hf
  have h1 : AllIn d1 0 (max hi (k + 1)) (fun f => S f.val) := fun k f _ _ hf => hS k f hf
  have h2 := (h.mono (Nat.zero_le lo) (le_max_left hi (k + 1))).2.2.2 _ h1
  exact h2 k f (Nat.zero_le k) (by omega) hf

theorem Frame.sortedOn {lo hi : Nat} {d1 d2 : featVec R} (h : Frame lo hi d1 d2)
    {i j : Nat} (hr : j ≤ lo ∨ hi ≤ i) (hs : SortedOn le d1 i j) : SortedOn le d2 i j := by
  intro p q hp hpq hq f g hf hg
  rw [h.2.2.1 p (by omega)] at hf
  rw [h.2.2.1 q (by omega)] at hg
  exact hs p q hp hpq hq f g hf hg

theorem Frame_of_Swap {lo hi : Nat} {d d' : featVec R} {i j : Nat}
    (hi1 : lo ≤ i) (hi2 : i < hi) (hj1 : lo ≤ j) (hj2 : j < hi)
    (hlen : d'.length = d.length) (hperm : d'.Perm d)
    (hget : ∀ k, d'[k]? = if k = j then d[i]? else if k = i then d[j]? else d[k]?) :
    Frame lo hi d d' := by
  refine ⟨hlen, hperm, ?_, ?_⟩
  · intro k hk
    rw [hget, if_neg (by omega), if_neg (by omega)]
  · intro P hP k f hk1 hk2 hf
    rw [hget] at hf
    split_ifs at hf with h1 h2
    · exact hP i f hi1 hi2 hf
    · exact hP j f hj1 hj2 hf
    · exact hP k f hk1 hk2 hf

/-- A call of `Swap` with both indices inside the slice and inside `[lo, hi)`. -/
theorem Swap_frame (d : featVec R) (lo hi i j : Nat) (hi1 : lo ≤ i) (hi2 : i < hi)
    (hj1 : lo ≤ j) (hj2 : j < hi) (hlen : hi ≤ d.length) :
    ∃ d', d.Swap i j = some d' ∧ Frame lo hi d d' ∧
      ∀ k, d'[k]? = if k = j then d[i]? else if k = i then d[j]? else d[k]? := by
  obtain ⟨d', h1, h2, h3, h4⟩ := Swap_some d i j (by omega) (by omega)
  exact ⟨d', h1, Frame_of_Swap hi1 hi2 hj1 hj2 h2 h3 h4, h4⟩

/-- A call of `Less` with both indices inside the slice returns. -/
theorem Less_total (d : featVec R) (i j : Nat) (hi : i < d.length) (hj : j < d.length) :
    ∃ f g, d[i]? = some f ∧ d[j]? = some g ∧ d.Less i j = some (decide (f.val < g.val)) :=
  ⟨d[i], d[j], List.getElem?_eq_getElem hi, List.getElem?_eq_getElem hj,
    Less_some d i j _ _ (List.getElem?_eq_getElem hi) (List.getElem?_eq_getElem hj)⟩

end FrameLemmas

/-! ## The library sort: `insertionSort` -/

section InsertionLemmas

variable {R : Type} [LT R] [DecidableRel (fun a b : R => a < b)] {le : R → R → Prop}

theorem LeAt_trans {S : R → Prop} (hO : OrderFor le S) {d : featVec R} (hS : ValsIn S d)
    {i j k : Nat} (hj : j < d.length) (h1 : LeAt le d i j) (h2 : LeAt le d j k) : LeAt le d i k := by
  intro f h hf hh
  have hg : d[j]? = some d[j] := List.getElem?_eq_getElem hj
  exact hO.2.2 _ _ _ (hS i f hf) (hS j _ hg) (hS k h hh) (h1 _ _ hf hg) (h2 _ _ hg hh)

theorem LeAt_of_lt {S : R → Prop} (hO : OrderFor le S) {d : featVec R} (hS : ValsIn S d)
    {i j : Nat} {f g : feature R} (hf : d[i]? = some f) (hg : d[j]? = some g)
    (h : f.val < g.val) : LeAt le d i j := by
  intro f' g' hf' hg'
  rw [hf] at hf'
  rw [hg] at hg'
  cases hf'
  cases hg'
  exact hO.1 _ _ (hS i _ hf) (hS j _ hg) h

theorem LeAt_of_not_lt {S : R → Prop} (hO : OrderFor le S) {d : featVec R}
    (hS : ValsIn S d) {i j : Nat} {f g : feature R}
    (hf : d[i]? = some f) (hg : d[j]? = some g) (h : ¬ g.val < f.val) : LeAt le d i j := by
  intro f' g' hf' hg'
  rw [hf] at hf'
  rw [hg] at hg'
  cases hf'
  cases hg'
  exact hO.2.1 _ _ (hS i _ hf) (hS j _ hg) h

theorem LeAt_congr {d d' : featVec R} {p q p' q' : Nat} (hp : d'[p]? = d[p']?)
    (hq : d'[q]? = d[q']?) (h : LeAt le d p' q') : LeAt le d' p q := by
  intro f g hf hg
  rw [hp] at hf
  rw [hq] at hg
  exact h f g hf hg

theorem insertionLoop_spec {S : R → Prop} (hO : OrderFor le S) (a i : Nat) :
    ∀ (j : Nat) (d : featVec R), ValsIn S d → a ≤ j → j ≤ i → i < d.length →
      (∀ p q, a ≤ p → p < q → q ≤ i → p ≠ j → q ≠ j → LeAt le d p q) →
      (∀ q, j < q → q ≤ i → LeAt le d j q) →
      ∃ d', insertionLoop d a j = some d' ∧ Frame a (i + 1) d d' ∧
        SortedOn le d' a (i + 1) := by
  intro j
  induction j with
  | zero =>
    intro d _ ha _ _ h1 h2
    refine ⟨d, rfl, Frame.refl _ _ _, ?_⟩
    intro p q hp hpq hq
    by_cases hp0 : p = 0
    · subst hp0
      exact h2 q hpq (by omega)
    · exact h1 p q hp hpq (by omega) hp0 (by omega)
  | succ j ih =>
    intro d hS ha hji hi h1 h2
    unfold insertionLoop
    by_cases haj : a < j + 1
    · rw [if_pos haj]
      obtain ⟨f, g, hf, hg, hless⟩ := Less_total d (j + 1) j (by omega) (by omega)
      rw [hless]
      by_cases hlt : f.val < g.val
      · rw [decide_eq_true hlt]
        obtain ⟨d1, hsw, hfr, hget⟩ :=
          Swap_frame d a (i + 1) (j + 1) j (by omega) (by omega) (by omega) (by omega)
            (by omega)
        simp only [hsw]
        have hS1 : ValsIn S d1 := hfr.valsIn hS
        have hkeep : ∀ k, k ≠ j → k ≠ j + 1 → d1[k]? = d[k]? := by
          intro k hk1 hk2
          rw [hget, if_neg hk1, if_neg hk2]
        have hj0 : d1[j]? = d[j + 1]? := by rw [hget, if_pos rfl]
        have hj1 : d1[j + 1]? = d[j]? := by
          rw [hget, if_neg (by omega), if_pos rfl]
        obtain ⟨d2, hrun, hfr2, hsorted⟩ := ih d1 hS1 (by omega) (by omega)
          (by rw [hfr.1]; exact hi)
          (by
            intro p q hp hpq hq hpj hqj
            by_cases hq1 : q = j + 1
            · subst hq1
              exact LeAt_congr (hkeep p hpj (by omega)) hj1
                (h1 p j hp (by omega) (by omega) (by omega) (by omega))
            · by_cases hp1 : p = j + 1
              · subst hp1
                exact LeAt_congr hj1 (hkeep q hqj hq1)
                  (h1 j q (by omega) (by omega) hq (by omega) hq1)
              · exact LeAt_congr (hkeep p hpj hp1) (hkeep q hqj hq1)
                  (h1 p q hp hpq hq hp1 hq1))
          (by
            intro q hjq hq
            by_cases hq1 : q = j + 1
            · subst hq1
              exact LeAt_congr hj0 hj1 (LeAt_of_lt hO hS hf hg hlt)
            · exact LeAt_congr hj0 (hkeep q (by omega) hq1) (h2 q (by omega) hq))
        exact ⟨d2, hrun, hfr.trans hfr2, hsorted⟩
      · rw [decide_eq_false hlt]
        refine ⟨d, rfl, Frame.refl _ _ _, ?_⟩
        have hstep : LeAt le d j (j + 1) := LeAt_of_not_lt hO hS hg hf hlt
        intro p q hp hpq hq
        by_cases hp1 : p = j + 1
        · subst hp1
          exact h2 q hpq (by omega)
        · by_cases hq1 : q = j + 1
          · subst hq1
            by_cases hpj : p = j
            · subst hpj
              exact hstep
            · exact LeAt_trans hO hS (by omega)
                (h1 p j hp (by omega) (by omega) hp1 (by omega)) hstep
          · exact h1 p q hp hpq (by omega) hp1 hq1
    · rw [if_neg haj]
      refine ⟨d, rfl, Frame.refl _ _ _, ?_⟩
      intro p q hp hpq hq
      by_cases hp1 : p = j + 1
      · subst hp1
        exact h2 q hpq (by omega)
      · exact h1 p q hp hpq (by omega) hp1 (by omega)

end InsertionLemmas

section InsertionSortLemmas

variable {R : Type} [LT R] [DecidableRel (fun a b : R => a < b)] {le : R → R → Prop}

theorem insertionSort_loop {S : R → Prop} (hO : OrderFor le S) (a : Nat) :
    ∀ (n s : Nat) (d : featVec R), ValsIn S d → a < s → s + n ≤ d.length →
      SortedOn le d a s →
      ∃ d', (List.range' s n).foldlM (fun data i => insertionLoop data a i) d = some d' ∧
        Frame a (s + n) d d' ∧ SortedOn le d' a (s + n) := by
  intro n
  induction n with
  | zero =>
    intro s d _ _ _ hs
    exact ⟨d, rfl, Frame.refl _ _ _, hs⟩
  | succ n ih =>
    intro s d hS has hlen hs
    obtain ⟨d1, h1, hfr1, hs1⟩ := insertionLoop_spec hO a s s d hS (by omega) (le_refl s)
      (by omega) (fun p q hp hpq hq _ hqs => hs p q hp hpq (by omega))
      (fun q h1 h2 => by omega)
    obtain ⟨d2, h2, hfr2, hs2⟩ := ih (s + 1) d1 (hfr1.valsIn hS) (by omega)
      (by rw [hfr1.1]; omega) hs1
    refine ⟨d2, ?_, ?_, ?_⟩
    · rw [List.range'_succ, List.foldlM_cons, h1]
      exact h2
    · have e : s + 1 + n = s + (n + 1) := by omega
      rw [e] at hfr2
      exact (hfr1.mono (le_refl a) (by omega)).trans hfr2
    · have e : s + 1 + n = s + (n + 1) := by omega
      rw [e] at hs2
      exact hs2

/-- Library `insertionSort` returns and leaves the range `[a, b)` sorted. -/
theorem insertionSort_spec {S : R → Prop} (hO : OrderFor le S) (d : featVec R)
    (hS : ValsIn S d) (a b : Nat) (hb : b ≤ d.length) :
    ∃ d', insertionSort d a b = some d' ∧ Frame a b d d' ∧ SortedOn le d' a b := by
  unfold insertionSort
  by_cases hab : a + 1 < b
  · obtain ⟨d', h1, h2, h3⟩ := insertionSort_loop hO a (b - (a + 1)) (a + 1) d hS
      (by omega) (by omega) (fun p q hp hpq hq => by omega)
    have e : a + 1 + (b - (a + 1)) = b := by omega
    rw [e] at h2 h3
    exact ⟨d', h1, h2, h3⟩
  · have e : b - (a + 1) = 0 := by omega
    rw [e]
    exact ⟨d, rfl, Frame.refl _ _ _, fun p q hp hpq hq => by omega⟩

/-- The pass with gap 6 of `quickSort` returns and only rearranges `[a, b)`. -/
theorem gapPass_spec (a b : Nat) :
    ∀ (n s : Nat) (d : featVec R), a + 6 ≤ s → s + n ≤ b → b ≤ d.length →
      ∃ d', (List.range' s n).foldlM
          (fun (data : featVec R) i => do
            if (← data.Less i (i - 6)) then data.Swap i (i - 6) else pure data) d = some d' ∧
        Frame a b d d' := by
  intro n
  induction n with
  | zero =>
    intro s d _ _ _
    exact ⟨d, rfl, Frame.refl _ _ _⟩
  | succ n ih =>
    intro s d has hsb hlen
    obtain ⟨f, g, _, _, hless⟩ := Less_total d s (s - 6) (by omega) (by omega)
    obtain ⟨d1, hsw, hfr, _⟩ :=
      Swap_frame d a b s (s - 6) (by omega) (by omega) (by omega) (by omega) hlen
    rw [List.range'_succ, List.foldlM_cons]
    by_cases hlt : f.val < g.val
    · rw [decide_eq_true hlt] at hless
      obtain ⟨d2, h2, hfr2⟩ := ih (s + 1) d1 (by omega) (by omega) (by rw [hfr.1]; exact hlen)
      refine ⟨d2, ?_, hfr.trans hfr2⟩
      simp only [hless, hsw, Option.some_bind, Option.bind_eq_bind, if_true]
      exact h2
    · rw [decide_eq_false hlt] at hless
      obtain ⟨d2, h2, hfr2⟩ := ih (s + 1) d (by omega) (by omega) hlen
      refine ⟨d2, ?_, hfr2⟩
      simp only [hless, Option.some_bind, Option.bind_eq_bind, Option.pure_def]
      exact h2

end InsertionSortLemmas

/-! ## The library sort: `heapSort` -/

section HeapLemmas

variable {R : Type} [LT R] [DecidableRel (fun a b : R => a < b)] {le : R → R → Prop}

theorem LeAt_refl {S : R → Prop} (hO : OrderFor le S) {d : featVec R} (hS : ValsIn S d)
    (i : Nat) : LeAt le d i i := by
  intro f g hf hg
  rw [hf] at hg
  cases hg
  by_cases h : f.val < f.val
  · exact hO.1 _ _ (hS i f hf) (hS i f hf) h
  · exact hO.2.1 _ _ (hS i f hf) (hS i f hf) h

theorem siftDown_spec {S : R → Prop} (hO : OrderFor le S) (first lo hi : Nat) :
    ∀ (n root : Nat) (d : featVec R), hi - root ≤ n → ValsIn S d →
      first + hi ≤ d.length → lo ≤ root → HeapExcept le d first lo hi root →
      ∃ d', siftDown d root hi first = some d' ∧ Frame (first + lo) (first + hi) d d' ∧
        HeapFrom le d' first lo hi := by
  intro n
  induction n with
  | zero =>
    intro root d hn _ _ _ hex
    rw [siftDown, dif_pos (by omega)]
    refine ⟨d, rfl, Frame.refl _ _ _, ?_⟩
    intro c hc h1 hlo
    exact hex.1 c hc h1 hlo (by omega)
  | succ n ih =>
    intro root d hn hS hlen hlo hex
    rw [siftDown]
    by_cases hch : 2 * root + 1 ≥ hi
    · rw [dif_pos hch]
      refine ⟨d, rfl, Frame.refl _ _ _, ?_⟩
      intro c hc h1 hlo
      exact hex.1 c hc h1 hlo (by omega)
    · rw [dif_neg hch]
      -- the greater child `cs` and the fact that the other child is not greater
      have key : ∀ cs : Nat, (cs = 2 * root + 1 ∨ cs = 2 * root + 1 + 1) → cs < hi →
          (∀ c, c < hi → 1 ≤ c → (c - 1) / 2 = root → LeAt le d (first + c) (first + cs)) →
          ∃ d', (match d.Less (first + root) (first + cs) with
              | none => none
              | some false => some d
              | some true =>
                match d.Swap (first + root) (first + cs) with
                | none => none
                | some data1 => siftDown data1 cs hi first) = some d' ∧
            Frame (first + lo) (first + hi) d d' ∧ HeapFrom le d' first lo hi := by
        intro cs hcs hcshi hother
        obtain ⟨f, g, hf, hg, hless⟩ :=
          Less_total d (first + root) (first + cs) (by omega) (by omega)
        rw [hless]
        by_cases hlt : f.val < g.val
        · rw [decide_eq_true hlt]
          obtain ⟨d1, hsw, hfr, hget⟩ :=
            Swap_frame d (first + lo) (first + hi) (first + root) (first + cs) (by omega)
              (by omega) (by omega) (by omega) hlen
          simp only [hsw]
          have hroot : d1[first + root]? = d[first + cs]? := by
            rw [hget, if_neg (by omega), if_pos rfl]
          have hcs1 : d1[first + cs]? = d[first + root]? := by rw [hget, if_pos rfl]
          have hkeep : ∀ k, k ≠ root → k ≠ cs → d1[first + k]? = d[first + k]? := by
            intro k hk1 hk2
            rw [hget, if_neg (by omega), if_neg (by omega)]
          obtain ⟨d2, hrun, hfr2, hheap⟩ := ih cs d1 (by omega) (hfr.valsIn hS)
            (by rw [hfr.1]; exact hlen) (by omega)
            (by
              constructor
              · intro c hc h1 hpar hne
                by_cases hq : (c - 1) / 2 = root
                · rw [hq]
                  by_cases hccs : c = cs
                  · subst hccs
                    exact LeAt_congr hcs1 hroot (LeAt_of_lt hO hS hf hg hlt)
                  · exact LeAt_congr (hkeep c (by omega) hccs) hroot (hother c hc h1 hq)
                · by_cases hcr : c = root
                  · have h2 := hex.2 (by omega) (by rw [← hcr]; exact hpar) cs hcshi
                      (by omega) (by omega)
                    rw [← hcr] at h2
                    have h3 : d1[first + c]? = d[first + cs]? := by rw [hcr]; exact hroot
                    exact LeAt_congr h3 (hkeep _ hq hne) h2
                  · exact LeAt_congr (hkeep c hcr (by omega)) (hkeep _ hq hne)
                      (hex.1 c hc h1 hpar hq)
              · intro h1 hlo c hc hc1 hq
                have e : (cs - 1) / 2 = root := by omega
                rw [e]
                have h3 := hex.1 c hc hc1 (by omega) (by omega)
                rw [hq] at h3
                exact LeAt_congr (hkeep c (by omega) (by omega)) hroot h3)
          exact ⟨d2, hrun, hfr.trans hfr2, hheap⟩
        · rw [decide_eq_false hlt]
          refine ⟨d, rfl, Frame.refl _ _ _, ?_⟩
          have hcr : LeAt le d (first + cs) (first + root) := LeAt_of_not_lt hO hS hg hf hlt
          intro c hc h1 hlo
          by_cases hq : (c - 1) / 2 = root
          · rw [hq]
            exact LeAt_trans hO hS (by omega) (hother c hc h1 hq) hcr
          · exact hex.1 c hc h1 hlo hq
      by_cases h2 : 2 * root + 1 + 1 < hi
      · rw [if_pos h2]
        obtain ⟨f, g, hf, hg, hless⟩ :=
          Less_total d (first + (2 * root + 1)) (first + (2 * root + 1) + 1) (by omega)
            (by omega)
        rw [hless]
        by_cases hlt : f.val < g.val
        · rw [decide_eq_true hlt]
          apply key (2 * root + 1 + 1) (Or.inr rfl) h2
          intro c hc h1 hq
          have hc' : c = 2 * root + 1 ∨ c = 2 * root + 1 + 1 := by omega
          rcases hc' with rfl | rfl
          · exact LeAt_of_lt hO hS hf hg hlt
          · exact LeAt_refl hO hS _
        · rw [decide_eq_false hlt]
          apply key (2 * root + 1) (Or.inl rfl) (by omega)
          intro c hc h1 hq
          have hc' : c = 2 * root + 1 ∨ c = 2 * root + 1 + 1 := by omega
          rcases hc' with rfl | rfl
          · exact LeAt_refl hO hS _
          · exact LeAt_of_not_lt hO hS hg hf hlt
      · rw [if_neg h2]
        apply key (2 * root + 1) (Or.inl rfl) (by omega)
        intro c hc h1 hq
        have hc' : c = 2 * root + 1 := by omega
        subst hc'
        exact LeAt_refl hO hS _

end HeapLemmas

section HeapSortLemmas

variable {R : Type} [LT R] [DecidableRel (fun a b : R => a < b)] {le : R → R → Prop}

theorem range_succ_reverse (n : Nat) : (List.range (n + 1)).reverse = n :: (List.range n).reverse := by
  rw [List.range_succ, List.reverse_append]
  rfl

theorem buildHeap_spec {S : R → Prop} (hO : OrderFor le S) (first hi : Nat) :
    ∀ (n : Nat) (d : featVec R), ValsIn S d → first + hi ≤ d.length →
      HeapFrom le d first n hi →
      ∃ d', ((List.range n).reverse).foldlM (fun data i => siftDown data i hi first) d
          = some d' ∧
        Frame first (first + hi) d d' ∧ HeapFrom le d' first 0 hi := by
  intro n
  induction n with
  | zero =>
    intro d _ _ hh
    exact ⟨d, rfl, Frame.refl _ _ _, hh⟩
  | succ n ih =>
    intro d hS hlen hh
    obtain ⟨d1, h1, hfr1, hh1⟩ := siftDown_spec hO first n hi (hi - n) n d (le_refl _) hS hlen
      (le_refl n)
      ⟨fun c hc h1 hlo hne => hh c hc h1 (by omega), fun h1 hlo => by omega⟩
    obtain ⟨d2, h2, hfr2, hh2⟩ := ih d1 (hfr1.valsIn hS) (by rw [hfr1.1]; exact hlen) hh1
    refine ⟨d2, ?_, (hfr1.mono (by omega) (le_refl _)).trans hfr2, hh2⟩
    rw [range_succ_reverse, List.foldlM_cons, h1]
    exact h2

theorem heap_root_max {S : R → Prop} (hO : OrderFor le S) {d : featVec R} (hS : ValsIn S d)
    (first m : Nat) (hlen : first + m ≤ d.length) (hh : HeapFrom le d first 0 m) :
    ∀ c, c < m → LeAt le d (first + c) first := by
  intro c
  induction c using Nat.strong_induction_on with
  | _ c ih =>
    intro hc
    by_cases h0 : c = 0
    · subst h0
      exact LeAt_refl hO hS _
    · have h1 := hh c hc (by omega) (Nat.zero_le _)
      have h2 := ih ((c - 1) / 2) (by omega) (by omega)
      exact LeAt_trans hO hS (by omega) h1 h2

theorem popLoop_spec {S : R → Prop} (hO : OrderFor le S) (first hi : Nat) :
    ∀ (n : Nat) (d : featVec R), n ≤ hi → ValsIn S d → first + hi ≤ d.length →
      HeapFrom le d first 0 n → SortedOn le d (first + n) (first + hi) →
      (∀ p q, p < n → n ≤ q → q < hi → LeAt le d (first + p) (first + q)) →
      ∃ d', ((List.range n).reverse).foldlM
          (fun (data : featVec R) i => do
            let data ← data.Swap first (first + i)
            siftDown data 0 i first) d = some d' ∧
        Frame first (first + hi) d d' ∧ SortedOn le d' first (first + hi) := by
  intro n
  induction n with
  | zero =>
    intro d _ _ _ _ hs _
    exact ⟨d, rfl, Frame.refl _ _ _, hs⟩
  | succ n ih =>
    intro d hn hS hlen hh hs hcross
    obtain ⟨d1, hsw, hfr1, hget⟩ :=
      Swap_frame d first (first + hi) first (first + n) (le_refl _) (by omega) (by omega)
        (by omega) hlen
    have hS1 : ValsIn S d1 := hfr1.valsIn hS
    have hlen1 : first + hi ≤ d1.length := by rw [hfr1.1]; exact hlen
    have hkeep : ∀ k, k ≠ 0 → k ≠ n → d1[first + k]? = d[first + k]? := by
      intro k hk1 hk2
      rw [hget, if_neg (by omega), if_neg (by omega)]
    have hlast : d1[first + n]? = d[first]? := by rw [hget, if_pos rfl]
    have hfirst : d1[first + 0]? = d[first + n]? := by
      show d1[first]? = _
      rw [hget]
      by_cases h0 : n = 0
      · subst h0
        simp
      · rw [if_neg (by omega), if_pos rfl]
    have hmax := heap_root_max hO hS first (n + 1) (by omega) hh
    obtain ⟨d2, h2, hfr2, hh2⟩ := siftDown_spec hO first 0 n n 0 d1 (by omega) hS1
      (by omega) (le_refl 0)
      ⟨fun c hc h1 hlo hne =>
        LeAt_congr (hkeep c (by omega) (by omega)) (hkeep _ hne (by omega))
          (hh c (by omega) h1 (Nat.zero_le _)),
       fun h1 => by omega⟩
    have hfr2' : Frame first (first + n) d1 d2 := by
      have e : first + 0 = first := rfl
      rw [e] at hfr2
      exact hfr2
    have hS2 : ValsIn S d2 := hfr2'.valsIn hS1
    -- the state after the exchange
    have hs1 : SortedOn le d1 (first + n) (first + hi) := by
      intro p q hp hpq hq
      obtain ⟨p', rfl⟩ : ∃ p', p = first + p' := ⟨p - first, by omega⟩
      obtain ⟨q', rfl⟩ : ∃ q', q = first + q' := ⟨q - first, by omega⟩
      by_cases hpn : p' = n
      · subst hpn
        have h3 := hcross 0 q' (by omega) (by omega) (by omega)
        exact LeAt_congr hlast (hkeep q' (by omega) (by omega)) h3
      · exact LeAt_congr (hkeep p' (by omega) hpn) (hkeep q' (by omega) (by omega))
          (hs (first + p') (first + q') (by omega) hpq hq)
    have hcross1 : ∀ p q, p < n → n ≤ q → q < hi → LeAt le d1 (first + p) (first + q) := by
      intro p q hp hq1 hq2
      by_cases hqn : q = n
      · subst hqn
        by_cases hp0 : p = 0
        · subst hp0
          have h3 := hmax q (by omega)
          exact LeAt_congr hfirst hlast h3
        · have h3 := hmax p (by omega)
          exact LeAt_congr (hkeep p hp0 (by omega)) hlast h3
      · by_cases hp0 : p = 0
        · subst hp0
          exact LeAt_congr hfirst (hkeep q (by omega) hqn)
            (hcross n q (by omega) (by omega) hq2)
        · exact LeAt_congr (hkeep p hp0 (by omega)) (hkeep q (by omega) hqn)
            (hcross p q (by omega) (by omega) hq2)
    have hcross2 : ∀ p q, p < n → n ≤ q → q < hi → LeAt le d2 (first + p) (first + q) := by
      intro p q hp hq1 hq2 f g hf hg
      rw [hfr2'.2.2.1 (first + q) (by omega)] at hg
      have hP : AllIn d1 first (first + n) (fun f => le f.val g.val) := by
        intro k f' hk1 hk2 hf'
        have h3 := hcross1 (k - first) q (by omega) hq1 hq2
        have e : first + (k - first) = k := by omega
        rw [e] at h3
        exact h3 f' g hf' hg
      exact hfr2'.2.2.2 _ hP (first + p) f (by omega) (by omega) hf
    obtain ⟨d3, h3, hfr3, hs3⟩ := ih d2 (by omega) hS2 (by rw [hfr2'.1]; exact hlen1) hh2
      (hfr2'.sortedOn (Or.inr (le_refl _)) hs1) hcross2
    refine ⟨d3, ?_, (hfr1.trans (hfr2'.mono (le_refl _) (by omega))).trans hfr3, hs3⟩
    rw [range_succ_reverse, List.foldlM_cons]
    simp only [hsw, Option.some_bind, Option.bind_eq_bind, h2]
    exact h3

/-- Library `heapSort` returns and leaves the range `[a, b)` sorted. -/
theorem heapSort_spec {S : R → Prop} (hO : OrderFor le S) (d : featVec R)
    (hS : ValsIn S d) (a b : Nat) (hab : a ≤ b) (hb : b ≤ d.length) :
    ∃ d', heapSort d a b = some d' ∧ Frame a b d d' ∧ SortedOn le d' a b := by
  have e : a + (b - a) = b := by omega
  obtain ⟨d1, h1, hfr1, hh1⟩ := buildHeap_spec hO a (b - a) ((b - a - 1) / 2 + 1) d hS
    (by omega) (fun c hc h1 hlo => by omega)
  obtain ⟨d2, h2, hfr2, hs2⟩ := popLoop_spec hO a (b - a) (b - a) d1 (le_refl _)
    (hfr1.valsIn hS) (by rw [hfr1.1]; omega) hh1 (fun p q hp hpq hq => by omega)
    (fun p q hp hq1 hq2 => by omega)
  rw [e] at hfr1 hfr2 hs2
  refine ⟨d2, ?_, hfr1.trans hfr2, hs2⟩
  unfold heapSort
  simp only [h1, Option.some_bind, Option.bind_eq_bind]
  exact h2

end HeapSortLemmas

/-! ## The library sort: `medianOfThree` -/

section MedianLemmas

variable {R : Type} [LT R] [DecidableRel (fun a b : R => a < b)] {le : R → R → Prop}

theorem Less_true_lt {d : featVec R} {i j : Nat} {f g : feature R} (hf : d[i]? = some f)
    (hg : d[j]? = some g) (h : d.Less i j = some true) : f.val < g.val := by
  rw [Less_some d i j f g hf hg] at h
  simpa using h

theorem Less_false_not_lt {d : featVec R} {i j : Nat} {f g : feature R}
    (hf : d[i]? = some f) (hg : d[j]? = some g) (h : d.Less i j = some false) :
    ¬ f.val < g.val := by
  rw [Less_some d i j f g hf hg] at h
  simpa using h

/-- One `if data.Less(i, j) { data.Swap(i, j) }`: afterwards the entry at `j` is not
greater than the entry at `i`, and the two entries are the old ones in some order. -/
theorem condSwap_spec {S : R → Prop} (hO : OrderFor le S) (d : featVec R) (hS : ValsIn S d)
    (lo hi i j : Nat) (hi1 : lo ≤ i) (hi2 : i < hi) (hj1 : lo ≤ j) (hj2 : j < hi)
    (hlen : hi ≤ d.length) :
    ∃ d', (∀ (β : Type) (k : featVec R → Option β),
        ((d.Less i j).bind fun c =>
          if c = true then (d.Swap i j).bind k else (some d).bind k) = k d') ∧
      ((d.Less i j).bind fun c => if c = true then d.Swap i j else some d) = some d' ∧
      Frame lo hi d d' ∧ LeAt le d' j i ∧
      (∀ k, k ≠ i → k ≠ j → d'[k]? = d[k]?) ∧
      ((d'[i]? = d[i]? ∧ d'[j]? = d[j]?) ∨ (d'[i]? = d[j]? ∧ d'[j]? = d[i]?)) := by
  obtain ⟨f, g, hf, hg, hless⟩ := Less_total d i j (by omega) (by omega)
  by_cases hlt : f.val < g.val
  · rw [decide_eq_true hlt] at hless
    obtain ⟨d1, hsw, hfr, hget⟩ := Swap_frame d lo hi i j hi1 hi2 hj1 hj2 hlen
    have hj' : d1[j]? = d[i]? := by rw [hget, if_pos rfl]
    have hi' : d1[i]? = d[j]? := by
      rw [hget]
      by_cases hij : i = j
      · rw [if_pos hij, hij]
      · rw [if_neg hij, if_pos rfl]
    refine ⟨d1, ?_, ?_, hfr, LeAt_congr hj' hi' (LeAt_of_lt hO hS hf hg hlt), ?_,
      Or.inr ⟨hi', hj'⟩⟩
    · intro β k
      simp [hless, hsw]
    · simp [hless, hsw]
    · intro k hk1 hk2
      rw [hget, if_neg hk2, if_neg hk1]
  · rw [decide_eq_false hlt] at hless
    refine ⟨d, ?_, ?_, Frame.refl _ _ _, LeAt_of_not_lt hO hS hg hf hlt, fun _ _ _ => rfl,
      Or.inl ⟨rfl, rfl⟩⟩
    · intro β k
      simp [hless]
    · simp [hless]

/-- Library `medianOfThree` returns and only rearranges the three entries; for three
different indices it leaves `data[m0] <= data[m1] <= data[m2]`. -/
theorem medianOfThree_spec {S : R → Prop} (hO : OrderFor le S) (d : featVec R)
    (hS : ValsIn S d) (lo hi m1 m0 m2 : Nat) (h11 : lo ≤ m1) (h12 : m1 < hi)
    (h01 : lo ≤ m0) (h02 : m0 < hi) (h21 : lo ≤ m2) (h22 : m2 < hi)
    (hlen : hi ≤ d.length) :
    ∃ d', medianOfThree d m1 m0 m2 = some d' ∧ Frame lo hi d d' ∧
      (m0 ≠ m1 → m1 ≠ m2 → m0 ≠ m2 → LeAt le d' m0 m1 ∧ LeAt le d' m1 m2) := by
  obtain ⟨d1, hE1, _, hfr1, hle1, hkeep1, _⟩ :=
    condSwap_spec hO d hS lo hi m1 m0 h11 h12 h01 h02 hlen
  have hS1 : ValsIn S d1 := hfr1.valsIn hS
  have hlen1 : hi ≤ d1.length := by rw [hfr1.1]; exact hlen
  unfold medianOfThree
  simp only [Option.bind_eq_bind, Option.pure_def]
  rw [hE1]
  obtain ⟨f, g, hf, hg, hless⟩ := Less_total d1 m2 m1 (by omega) (by omega)
  by_cases hlt : f.val < g.val
  · rw [decide_eq_true hlt] at hless
    obtain ⟨d2, hsw, hfr2, hget⟩ := Swap_frame d1 lo hi m2 m1 h21 h22 h11 h12 hlen1
    have hS2 : ValsIn S d2 := hfr2.valsIn hS1
    have hlen2 : hi ≤ d2.length := by rw [hfr2.1]; exact hlen1
    obtain ⟨d3, _, hE3, hfr3, hle3, hkeep3, hcase3⟩ :=
      condSwap_spec hO d2 hS2 lo hi m1 m0 h11 h12 h01 h02 hlen2
    refine ⟨d3, ?_, (hfr1.trans hfr2).trans hfr3, ?_⟩
    · simp only [hless, Option.some_bind, if_true, hsw]
      exact hE3
    · intro h01' h12' h02'
      refine ⟨hle3, ?_⟩
      have e1 : d2[m1]? = d1[m2]? := by rw [hget, if_pos rfl]
      have e2 : d2[m2]? = d1[m1]? := by rw [hget, if_neg (Ne.symm h12'), if_pos rfl]
      have e0 : d2[m0]? = d1[m0]? := by rw [hget, if_neg h01', if_neg h02']
      have e32 : d3[m2]? = d2[m2]? := hkeep3 m2 (Ne.symm h12') (Ne.symm h02')
      have hA : LeAt le d2 m1 m2 := LeAt_congr e1 e2 (LeAt_of_lt hO hS1 hf hg hlt)
      have hB : LeAt le d2 m0 m2 := LeAt_congr e0 e2 hle1
      rcases hcase3 with ⟨c1, _⟩ | ⟨c1, _⟩
      · exact LeAt_congr c1 e32 hA
      · exact LeAt_congr c1 e32 hB
  · rw [decide_eq_false hlt] at hless
    refine ⟨d1, ?_, hfr1, ?_⟩
    · simp [hless]
    · intro _ _ _
      exact ⟨hle1, LeAt_of_not_lt hO hS1 hg hf hlt⟩

end MedianLemmas

/-! ## The library sort: the scans of `doPivot` -/

section PivotScans

variable {R : Type} [LT R] [DecidableRel (fun a b : R => a < b)] {le : R → R → Prop}

theorem Less_bool (d : featVec R) (i j : Nat) (hi : i < d.length) (hj : j < d.length) :
    d.Less i j = some true ∨ d.Less i j = some false := by
  obtain ⟨f, g, _, _, h⟩ := Less_total d i j hi hj
  rw [h]
  by_cases hlt : f.val < g.val
  · exact Or.inl (by rw [decide_eq_true hlt])
  · exact Or.inr (by rw [decide_eq_false hlt])

theorem scanLess_spec (d : featVec R) (pivot c : Nat) (hp : pivot < d.length)
    (hc : c ≤ d.length) :
    ∀ (n a : Nat), c - a ≤ n →
      ∃ a1, scanLess d pivot a c = some a1 ∧ a ≤ a1 ∧ (a ≤ c → a1 ≤ c) ∧ (c ≤ a → a1 = a) ∧
        (∀ k, a ≤ k → k < a1 → d.Less k pivot = some true) ∧
        (a1 < c → d.Less a1 pivot = some false) := by
  intro n
  induction n with
  | zero =>
    intro a hn
    rw [scanLess, dif_neg (by omega)]
    exact ⟨a, rfl, le_refl _, fun h => h, fun _ => rfl, fun k h1 h2 => by omega,
      fun h => by omega⟩
  | succ n ih =>
    intro a hn
    rw [scanLess]
    by_cases hac : a < c
    · rw [dif_pos hac]
      rcases Less_bool d a pivot (by omega) hp with h | h
      · rw [h]
        obtain ⟨a1, h1, h2, h3, _, h5, h6⟩ := ih (a + 1) (by omega)
        refine ⟨a1, h1, by omega, fun _ => h3 (by omega), fun h => by omega, ?_, h6⟩
        intro k hk1 hk2
        by_cases hka : k = a
        · rw [hka]; exact h
        · exact h5 k (by omega) hk2
      · rw [h]
        exact ⟨a, rfl, le_refl _, fun h => h, fun _ => rfl, fun k h1 h2 => by omega,
          fun _ => h⟩
    · rw [dif_neg hac]
      exact ⟨a, rfl, le_refl _, fun h => h, fun _ => rfl, fun k h1 h2 => by omega,
        fun h => by omega⟩

theorem scanNotGreater_spec (d : featVec R) (pivot c : Nat) (hp : pivot < d.length)
    (hc : c ≤ d.length) :
    ∀ (n b : Nat), c - b ≤ n →
      ∃ b1, scanNotGreater d pivot b c = some b1 ∧ b ≤ b1 ∧ (b ≤ c → b1 ≤ c) ∧
        (c ≤ b → b1 = b) ∧
        (∀ k, b ≤ k → k < b1 → d.Less pivot k = some false) ∧
        (b1 < c → d.Less pivot b1 = some true) := by
  intro n
  induction n with
  | zero =>
    intro b hn
    rw [scanNotGreater, dif_neg (by omega)]
    exact ⟨b, rfl, le_refl _, fun h => h, fun _ => rfl, fun k h1 h2 => by omega,
      fun h => by omega⟩
  | succ n ih =>
    intro b hn
    rw [scanNotGreater]
    by_cases hbc : b < c
    · rw [dif_pos hbc]
      rcases Less_bool d pivot b hp (by omega) with h | h
      · rw [h]
        exact ⟨b, rfl, le_refl _, fun h => h, fun _ => rfl, fun k h1 h2 => by omega,
          fun _ => h⟩
      · rw [h]
        obtain ⟨b1, h1, h2, h3, _, h5, h6⟩ := ih (b + 1) (by omega)
        refine ⟨b1, h1, by omega, fun _ => h3 (by omega), fun h => by omega, ?_, h6⟩
        intro k hk1 hk2
        by_cases hkb : k = b
        · rw [hkb]; exact h
        · exact h5 k (by omega) hk2
    · rw [dif_neg hbc]
      exact ⟨b, rfl, le_refl _, fun h => h, fun _ => rfl, fun k h1 h2 => by omega,
        fun h => by omega⟩

theorem scanGreater_spec (d : featVec R) (pivot b : Nat) (hp : pivot < d.length) :
    ∀ (c : Nat), c ≤ d.length →
      ∃ c1, scanGreater d pivot b c = some c1 ∧ c1 ≤ c ∧ (b ≤ c → b ≤ c1) ∧
        (c ≤ b → c1 = c) ∧
        (∀ k, c1 ≤ k → k < c → d.Less pivot k = some true) ∧
        (b < c1 → d.Less pivot (c1 - 1) = some false) := by
  intro c
  induction c with
  | zero =>
    intro _
    exact ⟨0, rfl, le_refl _, fun h => h, fun _ => rfl, fun k h1 h2 => by omega,
      fun h => by omega⟩
  | succ c ih =>
    intro hc
    unfold scanGreater
    by_cases hbc : b < c + 1
    · rw [if_pos hbc]
      rcases Less_bool d pivot c hp (by omega) with h | h
      · rw [h]
        obtain ⟨c1, h1, h2, h3, _, h5, h6⟩ := ih (by omega)
        refine ⟨c1, h1, by omega, fun _ => h3 (by omega), fun h => by omega, ?_, h6⟩
        intro k hk1 hk2
        by_cases hkc : k = c
        · rw [hkc]; exact h
        · exact h5 k hk1 (by omega)
      · rw [h]
        exact ⟨c + 1, rfl, le_refl _, fun h => h, fun _ => rfl, fun k h1 h2 => by omega,
          fun _ => h⟩
    · rw [if_neg hbc]
      exact ⟨c + 1, rfl, le_refl _, fun h => h, fun _ => rfl, fun k h1 h2 => by omega,
        fun h => by omega⟩

theorem scanNotLessDown_spec (d : featVec R) (pivot a : Nat) (hp : pivot < d.length) :
    ∀ (b : Nat), b ≤ d.length →
      ∃ b1, scanNotLessDown d pivot a b = some b1 ∧ b1 ≤ b ∧ (a ≤ b → a ≤ b1) ∧
        (b ≤ a → b1 = b) ∧
        (∀ k, b1 ≤ k → k < b → d.Less k pivot = some false) ∧
        (a < b1 → d.Less (b1 - 1) pivot = some true) := by
  intro b
  induction b with
  | zero =>
    intro _
    exact ⟨0, rfl, le_refl _, fun h => h, fun _ => rfl, fun k h1 h2 => by omega,
      fun h => by omega⟩
  | succ b ih =>
    intro hb
    unfold scanNotLessDown
    by_cases hab : a < b + 1
    · rw [if_pos hab]
      rcases Less_bool d b pivot (by omega) hp with h | h
      · rw [h]
        exact ⟨b + 1, rfl, le_refl _, fun h => h, fun _ => rfl, fun k h1 h2 => by omega,
          fun _ => h⟩
      · rw [h]
        obtain ⟨b1, h1, h2, h3, _, h5, h6⟩ := ih (by omega)
        refine ⟨b1, h1, by omega, fun _ => h3 (by omega), fun h => by omega, ?_, h6⟩
        intro k hk1 hk2
        by_cases hkb : k = b
        · rw [hkb]; exact h
        · exact h5 k hk1 (by omega)
    · rw [if_neg hab]
      exact ⟨b + 1, rfl, le_refl _, fun h => h, fun _ => rfl, fun k h1 h2 => by omega,
        fun h => by omega⟩

end PivotScans

/-! ## The library sort: the loops of `doPivot` -/

section PartitionLemmas

variable {R : Type} [LT R] [DecidableRel (fun a b : R => a < b)] {le : R → R → Prop}

theorem partitionLoop_spec {S : R → Prop} (hO : OrderFor le S) (lo hi : Nat)
    (pf : feature R) :
    ∀ (fuel : Nat) (d : featVec R) (b c : Nat), c - b < fuel → ValsIn S d →
      d[lo]? = some pf → lo < b → b ≤ c → c ≤ hi → hi ≤ d.length →
      AllIn d (lo + 1) b (fun f => le f.val pf.val) →
      AllIn d c hi (fun f => le pf.val f.val) →
      ∃ d' b', partitionLoop lo fuel d b c = some (d', b', b') ∧ Frame (lo + 1) hi d d' ∧
        b ≤ b' ∧ b' ≤ c ∧
        AllIn d' (lo + 1) b' (fun f => le f.val pf.val) ∧
        AllIn d' b' hi (fun f => le pf.val f.val) := by
  intro fuel
  induction fuel with
  | zero => intro d b c h; omega
  | succ fuel ih =>
    intro d b c hfuel hS hpf hlob hbc hchi hlen hL hG
    have hp : lo < d.length := by omega
    obtain ⟨b1, hb1, hbb1, hb1c, _, hscanb, hstopb⟩ :=
      scanNotGreater_spec d lo c hp (by omega) (c - b) b (le_refl _)
    have hb1c' := hb1c hbc
    obtain ⟨c1, hc1, hc1c, hbc1, _, hscanc, hstopc⟩ :=
      scanGreater_spec d lo b1 hp c (by omega)
    have hbc1' := hbc1 hb1c'
    have hL1 : AllIn d (lo + 1) b1 (fun f => le f.val pf.val) := by
      intro k f hk1 hk2 hf
      by_cases hkb : k < b
      · exact hL k f hk1 hkb hf
      · exact hO.2.1 _ _ (hS k f hf) (hS lo pf hpf)
          (Less_false_not_lt hpf hf (hscanb k (by omega) hk2))
    have hG1 : AllIn d c1 hi (fun f => le pf.val f.val) := by
      intro k f hk1 hk2 hf
      by_cases hkc : c ≤ k
      · exact hG k f hkc hk2 hf
      · exact hO.1 _ _ (hS lo pf hpf) (hS k f hf)
          (Less_true_lt hpf hf (hscanc k hk1 (by omega)))
    unfold partitionLoop
    simp only [hb1, hc1]
    by_cases hex : b1 ≥ c1
    · rw [if_pos hex]
      have e : c1 = b1 := by omega
      subst e
      exact ⟨d, c1, rfl, Frame.refl _ _ _, hbb1, hb1c', hL1, hG1⟩
    · rw [if_neg hex]
      have ht := hstopb (by omega)
      have hf' := hstopc (by omega)
      have hne : b1 ≠ c1 - 1 := by
        intro e
        rw [← e, ht] at hf'
        cases hf'
      obtain ⟨d1, hsw, hfr, hget⟩ :=
        Swap_frame d (lo + 1) hi b1 (c1 - 1) (by omega) (by omega) (by omega) (by omega) hlen
      simp only [hsw]
      have hpf1 : d1[lo]? = some pf := by
        rw [hfr.2.2.1 lo (by omega)]; exact hpf
      obtain ⟨d2, b2, hrun, hfr2, h1, h2, hL2, hG2⟩ := ih d1 (b1 + 1) (c1 - 1) (by omega)
        (hfr.valsIn hS) hpf1 (by omega) (by omega) (by omega) (by rw [hfr.1]; exact hlen)
        (by
          intro k f hk1 hk2 hf
          rw [hget] at hf
          split_ifs at hf with e1 e2
          · omega
          · exact hO.2.1 _ _ (hS _ f hf) (hS lo pf hpf) (Less_false_not_lt hpf hf hf')
          · exact hL1 k f hk1 (by omega) hf)
        (by
          intro k f hk1 hk2 hf
          rw [hget] at hf
          split_ifs at hf with e1 e2
          · exact hO.1 _ _ (hS lo pf hpf) (hS b1 f hf) (Less_true_lt hpf hf ht)
          · omega
          · exact hG1 k f (by omega) hk2 hf)
      exact ⟨d2, b2, hrun, hfr.trans hfr2, by omega, by omega, hL2, hG2⟩

theorem protectLoop_spec {S : R → Prop} (hO : OrderFor le S) (lo hi c : Nat)
    (pf : feature R) :
    ∀ (fuel : Nat) (d : featVec R) (a b : Nat), b - a < fuel → ValsIn S d →
      d[lo]? = some pf → lo < a → lo < b → b ≤ c → c ≤ hi → hi ≤ d.length →
      AllIn d (lo + 1) c (fun f => le f.val pf.val) →
      AllIn d b hi (fun f => le pf.val f.val) →
      ∃ d' b', protectLoop lo fuel d a b = some (d', b') ∧ Frame (lo + 1) hi d d' ∧
        lo < b' ∧ b' ≤ c ∧
        AllIn d' (lo + 1) c (fun f => le f.val pf.val) ∧
        AllIn d' b' hi (fun f => le pf.val f.val) := by
  intro fuel
  induction fuel with
  | zero => intro d a b h; omega
  | succ fuel ih =>
    intro d a b hfuel hS hpf hloa hlob hbc hchi hlen hL hG
    have hp : lo < d.length := by omega
    obtain ⟨b1, hb1, hb1b, hab1, hb1eq, hscanb, hstopb⟩ :=
      scanNotLessDown_spec d lo a hp b (by omega)
    obtain ⟨a1, ha1, haa1, ha1b, ha1eq, _, hstopa⟩ :=
      scanLess_spec d lo b1 hp (by omega) (b1 - a) a (le_refl _)
    have hlob1 : lo < b1 := by
      by_cases hab : a ≤ b
      · have := hab1 hab
        omega
      · have := hb1eq (by omega)
        omega
    have hG1 : AllIn d b1 hi (fun f => le pf.val f.val) := by
      intro k f hk1 hk2 hf
      by_cases hkb : b ≤ k
      · exact hG k f hkb hk2 hf
      · exact hO.2.1 _ _ (hS lo pf hpf) (hS k f hf)
          (Less_false_not_lt hf hpf (hscanb k hk1 (by omega)))
    unfold protectLoop
    simp only [hb1, ha1]
    by_cases hex : a1 ≥ b1
    · rw [if_pos hex]
      exact ⟨d, b1, rfl, Frame.refl _ _ _, hlob1, by omega, hL, hG1⟩
    · rw [if_neg hex]
      have hab1' : a ≤ b1 := by
        by_contra hcon
        have := ha1eq (by omega)
        omega
      have ht := hstopb (by omega)
      have hf' := hstopa (by omega)
      have hne : a1 ≠ b1 - 1 := by
        intro e
        rw [e, ht] at hf'
        cases hf'
      obtain ⟨d1, hsw, hfr, hget⟩ :=
        Swap_frame d (lo + 1) c a1 (b1 - 1) (by omega) (by omega) (by omega) (by omega)
          (by omega)
      simp only [hsw]
      have hpf1 : d1[lo]? = some pf := by
        rw [hfr.2.2.1 lo (by omega)]; exact hpf
      obtain ⟨d2, b2, hrun, hfr2, h1, h2, hL2, hG2⟩ := ih d1 (a1 + 1) (b1 - 1) (by omega)
        (hfr.valsIn hS) hpf1 (by omega) (by omega) (by omega) hchi
        (by rw [hfr.1]; exact hlen)
        (hfr.2.2.2 _ hL)
        (by
          intro k f hk1 hk2 hf
          rw [hget] at hf
          split_ifs at hf with e1 e2
          · exact hO.2.1 _ _ (hS lo pf hpf) (hS _ f hf) (Less_false_not_lt hf hpf hf')
          · omega
          · exact hG1 k f (by omega) hk2 hf)
      exact ⟨d2, b2, hrun, (hfr.mono (le_refl _) hchi).trans hfr2, h1, h2, hL2, hG2⟩

end PartitionLemmas

section DupsCheckLemmas

variable {R : Type} [LT R] [DecidableRel (fun a b : R => a < b)] {le : R → R → Prop}

theorem dupsCheck_spec {S : R → Prop} (hO : OrderFor le S) (lo hi m : Nat) (pf : feature R)
    (d : featVec R) (b : Nat) (hS : ValsIn S d) (hpf : d[lo]? = some pf) (hlom : lo < m)
    (hmb : m + 2 ≤ b) (hbhi : b < hi) (hlen : hi ≤ d.length)
    (hL : AllIn d (lo + 1) b (fun f => le f.val pf.val))
    (hG : AllIn d b hi (fun f => le pf.val f.val)) :
    ∃ d' b' c' prot, dupsCheck d lo m hi b b = some (d', b', c', prot) ∧
      Frame (lo + 1) hi d d' ∧ lo < b' ∧ b' ≤ c' ∧ c' ≤ hi ∧
      AllIn d' (lo + 1) c' (fun f => le f.val pf.val) ∧
      AllIn d' b' hi (fun f => le pf.val f.val) := by
  have hp : lo < d.length := by omega
  -- first test: `data[hi-1] = pivot`
  have step1 : ∃ d1 c1,
      ((d.Less lo (hi - 1) = some true ∧ d1 = d ∧ c1 = b) ∨
        (d.Less lo (hi - 1) = some false ∧ d.Swap b (hi - 1) = some d1 ∧ c1 = b + 1)) ∧
      Frame (lo + 1) hi d d1 ∧ b ≤ c1 ∧ c1 ≤ hi ∧
      AllIn d1 (lo + 1) c1 (fun f => le f.val pf.val) ∧
      AllIn d1 b hi (fun f => le pf.val f.val) := by
    rcases Less_bool d lo (hi - 1) hp (by omega) with h | h
    · exact ⟨d, b, Or.inl ⟨h, rfl, rfl⟩, Frame.refl _ _ _, le_refl _, by omega, hL, hG⟩
    · obtain ⟨d1, hsw, hfr, hget⟩ :=
        Swap_frame d b hi b (hi - 1) (le_refl _) hbhi (by omega) (by omega) hlen
      refine ⟨d1, b + 1, Or.inr ⟨h, hsw, rfl⟩, hfr.mono (by omega) (le_refl _), by omega,
        by omega, ?_, hfr.2.2.2 _ hG⟩
      intro k f hk1 hk2 hf
      rw [hget] at hf
      split_ifs at hf with e1 e2
      · have e : b = hi - 1 := by omega
        rw [e] at hf
        exact hO.2.1 _ _ (hS _ f hf) (hS lo pf hpf) (Less_false_not_lt hpf hf h)
      · exact hO.2.1 _ _ (hS _ f hf) (hS lo pf hpf) (Less_false_not_lt hpf hf h)
      · exact hL k f hk1 (by omega) hf
  obtain ⟨d1, c1, heq1, hfr1, hbc1, hc1hi, hL1, hG1⟩ := step1
  have hS1 : ValsIn S d1 := hfr1.valsIn hS
  have hlen1 : hi ≤ d1.length := by rw [hfr1.1]; exact hlen
  have hpf1 : d1[lo]? = some pf := by rw [hfr1.2.2.1 lo (by omega)]; exact hpf
  have hp1 : lo < d1.length := by omega
  -- second test: `data[b-1] = pivot`
  have step2 : ∃ b2,
      ((d1.Less (b - 1) lo = some true ∧ b2 = b) ∨
        (d1.Less (b - 1) lo = some false ∧ b2 = b - 1)) ∧
      b2 ≤ b ∧ b - 1 ≤ b2 ∧ AllIn d1 b2 hi (fun f => le pf.val f.val) := by
    rcases Less_bool d1 (b - 1) lo (by omega) hp1 with h | h
    · exact ⟨b, Or.inl ⟨h, rfl⟩, le_refl _, by omega, hG1⟩
    · refine ⟨b - 1, Or.inr ⟨h, rfl⟩, by omega, le_refl _, ?_⟩
      intro k f hk1 hk2 hf
      by_cases hkb : b ≤ k
      · exact hG1 k f hkb hk2 hf
      · have e : k = b - 1 := by omega
        rw [e] at hf
        exact hO.2.1 _ _ (hS1 lo pf hpf1) (hS1 _ f hf) (Less_false_not_lt hf hpf1 h)
  obtain ⟨b2, heq2, hb2b, hbb2, hG2⟩ := step2
  -- third test: `data[m] = pivot`
  have step3 : ∃ d3 b3,
      ((d1.Less m lo = some true ∧ d3 = d1 ∧ b3 = b2) ∨
        (d1.Less m lo = some false ∧ d1.Swap m (b2 - 1) = some d3 ∧ b3 = b2 - 1)) ∧
      Frame (lo + 1) hi d1 d3 ∧ b3 ≤ b2 ∧ b2 - 1 ≤ b3 ∧
      AllIn d3 (lo + 1) c1 (fun f => le f.val pf.val) ∧
      AllIn d3 b3 hi (fun f => le pf.val f.val) := by
    rcases Less_bool d1 m lo (by omega) hp1 with h | h
    · exact ⟨d1, b2, Or.inl ⟨h, rfl, rfl⟩, Frame.refl _ _ _, le_refl _, by omega, hL1, hG2⟩
    · obtain ⟨d3, hsw, hfr, hget⟩ :=
        Swap_frame d1 (lo + 1) c1 m (b2 - 1) (by omega) (by omega) (by omega) (by omega)
          (by omega)
      refine ⟨d3, b2 - 1, Or.inr ⟨h, hsw, rfl⟩, hfr.mono (le_refl _) hc1hi, by omega,
        le_refl _, hfr.2.2.2 _ hL1, ?_⟩
      intro k f hk1 hk2 hf
      rw [hget] at hf
      split_ifs at hf with e1 e2
      · exact hO.2.1 _ _ (hS1 lo pf hpf1) (hS1 _ f hf) (Less_false_not_lt hf hpf1 h)
      · omega
      · exact hG2 k f (by omega) hk2 hf
  obtain ⟨d3, b3, heq3, hfr3, hb3b2, hb2b3, hL3, hG3⟩ := step3
  have hrun : (dupsCheck d lo m hi b b).map (fun r => (r.1, r.2.1, r.2.2.1))
      = some (d3, b3, c1) := by
    unfold dupsCheck
    rcases heq1 with ⟨h1, rfl, rfl⟩ | ⟨h1, hsw1, rfl⟩ <;>
    rcases heq2 with ⟨h2, rfl⟩ | ⟨h2, rfl⟩ <;>
    rcases heq3 with ⟨h3, rfl, rfl⟩ | ⟨h3, hsw3, rfl⟩ <;>
    first
      | simp [h1, h2, h3, hsw1, hsw3]
      | simp [h1, h2, h3, hsw1]
      | simp [h1, h2, h3, hsw3]
      | simp [h1, h2, h3]
  obtain ⟨r, hr, hr'⟩ := Option.map_eq_some'.mp hrun
  obtain ⟨r1, r2, r3, r4⟩ := r
  simp only [Prod.mk.injEq] at hr'
  obtain ⟨rfl, rfl, rfl⟩ := hr'
  exact ⟨r1, r2, r3, r4, hr, hfr1.trans hfr3, by omega, by omega, hc1hi, hL3, hG3⟩

end DupsCheckLemmas

/-! ## The library sort: `doPivot` -/

section DoPivotRun

variable {R : Type} [LT R] [DecidableRel (fun a b : R => a < b)] {le : R → R → Prop}

theorem doPivot_run (d dA dB d0 d1 d2 d3 d4 d5 : featVec R) (lo hi a b b3 c3 b4 : Nat)
    (prot : Bool)
    (heq0 : (hi - lo > 40 ∧
          medianOfThree d lo (lo + (hi - lo) / 8) (lo + 2 * ((hi - lo) / 8)) = some dA ∧
          medianOfThree dA (lo + (hi - lo) / 2) (lo + (hi - lo) / 2 - (hi - lo) / 8)
            (lo + (hi - lo) / 2 + (hi - lo) / 8) = some dB ∧
          medianOfThree dB (hi - 1) (hi - 1 - (hi - lo) / 8) (hi - 1 - 2 * ((hi - lo) / 8))
            = some d0) ∨
        (¬ hi - lo > 40 ∧ d0 = d ∧ dA = d ∧ dB = d))
    (hmed : medianOfThree d0 lo (lo + (hi - lo) / 2) (hi - 1) = some d1)
    (hscan : scanLess d1 lo (lo + 1) (hi - 1) = some a)
    (hpart : partitionLoop lo (hi - lo) d1 a (hi - 1) = some (d2, b, b))
    (heq3 : (¬ hi - b < 5 ∧ hi - b < (hi - lo) / 4 ∧
          dupsCheck d2 lo (lo + (hi - lo) / 2) hi b b = some (d3, b3, c3, prot)) ∨
        (¬ (¬ hi - b < 5 ∧ hi - b < (hi - lo) / 4) ∧ d3 = d2 ∧ b3 = b ∧ c3 = b ∧
          prot = decide (hi - b < 5)))
    (heq4 : (prot = true ∧ protectLoop lo (hi - lo) d3 a b3 = some (d4, b4)) ∨
        (prot = false ∧ d4 = d3 ∧ b4 = b3))
    (hsw : d4.Swap lo (b4 - 1) = some d5) :
    doPivot d lo hi = some (d5, b4 - 1, c3) := by
  have hrest : ∀ x : featVec R, x = d0 →
      ((medianOfThree x lo (lo + (hi - lo) / 2) (hi - 1)).bind fun data =>
        (scanLess data lo (lo + 1) (hi - 1)).bind fun a =>
          (partitionLoop lo (hi - lo) data a (hi - 1)).bind fun r =>
            if (!decide (hi - r.2.2 < 5) && decide (hi - r.2.2 < (hi - lo) / 4)) = true then
              (dupsCheck r.1 lo (lo + (hi - lo) / 2) hi r.2.1 r.2.2).bind fun y =>
                if y.2.2.2 = true then
                  (protectLoop lo (hi - lo) y.1 a y.2.1).bind fun z =>
                    (z.1.Swap lo (z.2 - 1)).bind fun data => some (data, z.2 - 1, y.2.2.1)
                else
                  (some (y.1, y.2.1)).bind fun z =>
                    (z.1.Swap lo (z.2 - 1)).bind fun data => some (data, z.2 - 1, y.2.2.1)
            else
              (some (r.1, r.2.1, r.2.2, decide (hi - r.2.2 < 5))).bind fun y =>
                if y.2.2.2 = true then
                  (protectLoop lo (hi - lo) y.1 a y.2.1).bind fun z =>
                    (z.1.Swap lo (z.2 - 1)).bind fun data => some (data, z.2 - 1, y.2.2.1)
                else
                  (some (y.1, y.2.1)).bind fun z =>
                    (z.1.Swap lo (z.2 - 1)).bind fun data => some (data, z.2 - 1, y.2.2.1))
        = some (d5, b4 - 1, c3) := by
    intro x hx
    subst hx
    rcases heq3 with ⟨hc1, hc2, hdups⟩ | ⟨hc, rfl, rfl, rfl, rfl⟩
    · simp only [hmed, hscan, hpart, Option.some_bind]
      have hcond : (!decide (hi - b < 5) && decide (hi - b < (hi - lo) / 4)) = true := by
        simp [hc1, hc2]
      rw [if_pos hcond]
      simp only [hdups, Option.some_bind]
      rcases heq4 with ⟨hp, hprot⟩ | ⟨hp, rfl, rfl⟩
      · rw [if_pos hp]
        simp only [hprot, Option.some_bind, hsw]
      · rw [if_neg (by simp [hp])]
        simp only [Option.some_bind, hsw]
    · have hcond : ¬ (!decide (hi - c3 < 5) && decide (hi - c3 < (hi - lo) / 4)) = true := by
        simpa using hc
      simp only [hmed, hscan, hpart, Option.some_bind]
      rw [if_neg hcond]
      rcases heq4 with ⟨hp, hprot⟩ | ⟨hp, rfl, rfl⟩
      · rw [if_pos hp]
        simp only [hprot, Option.some_bind, hsw]
      · rw [if_neg (by simp [hp])]
        simp only [Option.some_bind, hsw]
  unfold doPivot
  simp only [Option.bind_eq_bind, Option.pure_def]
  rcases heq0 with ⟨h40, hA, hB, h0⟩ | ⟨h40, rfl, rfl, rfl⟩
  · rw [if_pos h40]
    simp only [hA, hB, h0, Option.some_bind]
    exact hrest _ rfl
  · rw [if_neg h40]
    simp only [Option.some_bind]
    exact hrest _ rfl

end DoPivotRun

section DoPivotLemmas

variable {R : Type} [LT R] [DecidableRel (fun a b : R => a < b)] {le : R → R → Prop}

/-- Library `doPivot` on a range of more than twelve entries returns, only rearranges the
range, and leaves it split around some `val`: nothing before `midhi` is greater,
nothing from `midlo` on is smaller. -/
theorem doPivot_spec {S : R → Prop} (hO : OrderFor le S) (d : featVec R) (hS : ValsIn S d)
    (lo hi : Nat) (h12 : lo + 12 < hi) (hlen : hi ≤ d.length) :
    ∃ d' mlo mhi pf, doPivot d lo hi = some (d', mlo, mhi) ∧ Frame lo hi d d' ∧
      lo ≤ mlo ∧ mlo < mhi ∧ mhi ≤ hi ∧ d'[mlo]? = some pf ∧
      AllIn d' lo mhi (fun f => le f.val pf.val) ∧
      AllIn d' mlo hi (fun f => le pf.val f.val) := by
  -- the median of three medians
  have stage0 : ∃ dA dB d0,
      ((hi - lo > 40 ∧
          medianOfThree d lo (lo + (hi - lo) / 8) (lo + 2 * ((hi - lo) / 8)) = some dA ∧
          medianOfThree dA (lo + (hi - lo) / 2) (lo + (hi - lo) / 2 - (hi - lo) / 8)
            (lo + (hi - lo) / 2 + (hi - lo) / 8) = some dB ∧
          medianOfThree dB (hi - 1) (hi - 1 - (hi - lo) / 8) (hi - 1 - 2 * ((hi - lo) / 8))
            = some d0) ∨
        (¬ hi - lo > 40 ∧ d0 = d ∧ dA = d ∧ dB = d)) ∧ Frame lo hi d d0 := by
    by_cases h40 : hi - lo > 40
    · obtain ⟨dA, hA, hfrA, _⟩ := medianOfThree_spec hO d hS lo hi lo (lo + (hi - lo) / 8)
        (lo + 2 * ((hi - lo) / 8)) (by omega) (by omega) (by omega) (by omega) (by omega)
        (by omega) hlen
      obtain ⟨dB, hB, hfrB, _⟩ := medianOfThree_spec hO dA (hfrA.valsIn hS) lo hi
        (lo + (hi - lo) / 2) (lo + (hi - lo) / 2 - (hi - lo) / 8)
        (lo + (hi - lo) / 2 + (hi - lo) / 8) (by omega) (by omega) (by omega) (by omega)
        (by omega) (by omega) (by rw [hfrA.1]; exact hlen)
      obtain ⟨d0, h0, hfr0, _⟩ := medianOfThree_spec hO dB (hfrB.valsIn (hfrA.valsIn hS))
        lo hi (hi - 1) (hi - 1 - (hi - lo) / 8) (hi - 1 - 2 * ((hi - lo) / 8)) (by omega)
        (by omega) (by omega) (by omega) (by omega) (by omega)
        (by rw [hfrB.1, hfrA.1]; exact hlen)
      exact ⟨dA, dB, d0, Or.inl ⟨h40, hA, hB, h0⟩, (hfrA.trans hfrB).trans hfr0⟩
    · exact ⟨d, d, d, Or.inr ⟨h40, rfl, rfl, rfl⟩, Frame.refl _ _ _⟩
  obtain ⟨dA, dB, d0, heq0, hfr0⟩ := stage0
  have hS0 : ValsIn S d0 := hfr0.valsIn hS
  have hlen0 : hi ≤ d0.length := by rw [hfr0.1]; exact hlen
  -- the pivot
  obtain ⟨d1, hmed, hfr1, hord⟩ := medianOfThree_spec hO d0 hS0 lo hi lo
    (lo + (hi - lo) / 2) (hi - 1) (by omega) (by omega) (by omega) (by omega) (by omega)
    (by omega) hlen0
  obtain ⟨_, hord2⟩ := hord (by omega) (by omega) (by omega)
  have hS1 : ValsIn S d1 := hfr1.valsIn hS0
  have hlen1 : hi ≤ d1.length := by rw [hfr1.1]; exact hlen0
  have hp1 : lo < d1.length := by omega
  obtain ⟨pf, hpf1⟩ : ∃ pf, d1[lo]? = some pf := ⟨d1[lo], List.getElem?_eq_getElem hp1⟩
  -- the first scan
  obtain ⟨a, hscan, hlo_a, ha_hi, _, hscan_lt, _⟩ :=
    scanLess_spec d1 lo (hi - 1) hp1 (by omega) (hi - 1 - (lo + 1)) (lo + 1) (le_refl _)
  have ha_hi' := ha_hi (by omega)
  -- the partition
  obtain ⟨d2, b, hpart, hfr2, hab, hbhi, hL2, hG2⟩ :=
    partitionLoop_spec hO lo hi pf (hi - lo) d1 a (hi - 1) (by omega) hS1 hpf1 (by omega)
      ha_hi' (by omega) hlen1
      (by
        intro k f hk1 hk2 hf
        exact hO.1 _ _ (hS1 k f hf) (hS1 lo pf hpf1)
          (Less_true_lt hf hpf1 (hscan_lt k hk1 hk2)))
      (by
        intro k f hk1 hk2 hf
        have e : k = hi - 1 := by omega
        rw [e] at hf
        exact hord2 pf f hpf1 hf)
  have hS2 : ValsIn S d2 := hfr2.valsIn hS1
  have hlen2 : hi ≤ d2.length := by rw [hfr2.1]; exact hlen1
  have hpf2 : d2[lo]? = some pf := by rw [hfr2.2.2.1 lo (by omega)]; exact hpf1
  -- the tests for entries equal to the pivot
  have stage3 : ∃ d3 b3 c3 prot,
      ((¬ hi - b < 5 ∧ hi - b < (hi - lo) / 4 ∧
          dupsCheck d2 lo (lo + (hi - lo) / 2) hi b b = some (d3, b3, c3, prot)) ∨
        (¬ (¬ hi - b < 5 ∧ hi - b < (hi - lo) / 4) ∧ d3 = d2 ∧ b3 = b ∧ c3 = b ∧
          prot = decide (hi - b < 5))) ∧
      Frame (lo + 1) hi d2 d3 ∧ lo < b3 ∧ b3 ≤ c3 ∧ c3 ≤ hi ∧
      AllIn d3 (lo + 1) c3 (fun f => le f.val pf.val) ∧
      AllIn d3 b3 hi (fun f => le pf.val f.val) := by
    by_cases hcond : ¬ hi - b < 5 ∧ hi - b < (hi - lo) / 4
    · obtain ⟨d3, b3, c3, prot, hdups, hfr3, h1, h2, h3, hL3, hG3⟩ :=
        dupsCheck_spec hO lo hi (lo + (hi - lo) / 2) pf d2 b hS2 hpf2 (by omega) (by omega)
          (by omega) hlen2 hL2 hG2
      exact ⟨d3, b3, c3, prot, Or.inl ⟨hcond.1, hcond.2, hdups⟩, hfr3, h1, h2, h3, hL3, hG3⟩
    · exact ⟨d2, b, b, _, Or.inr ⟨hcond, rfl, rfl, rfl, rfl⟩, Frame.refl _ _ _, by omega,
        le_refl _, by omega, hL2, hG2⟩
  obtain ⟨d3, b3, c3, prot, heq3, hfr3, hlob3, hb3c3, hc3hi, hL3, hG3⟩ := stage3
  have hS3 : ValsIn S d3 := hfr3.valsIn hS2
  have hlen3 : hi ≤ d3.length := by rw [hfr3.1]; exact hlen2
  have hpf3 : d3[lo]? = some pf := by rw [hfr3.2.2.1 lo (by omega)]; exact hpf2
  -- the protection against many duplicates
  have stage4 : ∃ d4 b4,
      ((prot = true ∧ protectLoop lo (hi - lo) d3 a b3 = some (d4, b4)) ∨
        (prot = false ∧ d4 = d3 ∧ b4 = b3)) ∧
      Frame (lo + 1) hi d3 d4 ∧ lo < b4 ∧ b4 ≤ c3 ∧
      AllIn d4 (lo + 1) c3 (fun f => le f.val pf.val) ∧
      AllIn d4 b4 hi (fun f => le pf.val f.val) := by
    cases hprot : prot with
    | true =>
      obtain ⟨d4, b4, hrun, hfr4, h1, h2, hL4, hG4⟩ :=
        protectLoop_spec hO lo hi c3 pf (hi - lo) d3 a b3 (by omega) hS3 hpf3 (by omega)
          hlob3 hb3c3 hc3hi hlen3 hL3 hG3
      exact ⟨d4, b4, Or.inl ⟨rfl, hrun⟩, hfr4, h1, h2, hL4, hG4⟩
    | false =>
      exact ⟨d3, b3, Or.inr ⟨rfl, rfl, rfl⟩, Frame.refl _ _ _, hlob3, hb3c3, hL3, hG3⟩
  obtain ⟨d4, b4, heq4, hfr4, hlob4, hb4c3, hL4, hG4⟩ := stage4
  have hlen4 : hi ≤ d4.length := by rw [hfr4.1]; exact hlen3
  have hpf4 : d4[lo]? = some pf := by rw [hfr4.2.2.1 lo (by omega)]; exact hpf3
  -- the pivot goes to the middle
  obtain ⟨d5, hsw, hfr5, hget⟩ :=
    Swap_frame d4 lo hi lo (b4 - 1) (le_refl _) (by omega) (by omega) (by omega) hlen4
  have hS4 : ValsIn S d4 := hfr4.valsIn hS3
  have hirr : le pf.val pf.val := by
    by_cases h : pf.val < pf.val
    · exact hO.1 _ _ (hS4 lo pf hpf4) (hS4 lo pf hpf4) h
    · exact hO.2.1 _ _ (hS4 lo pf hpf4) (hS4 lo pf hpf4) h
  refine ⟨d5, b4 - 1, c3, pf, ?_, ?_, by omega, by omega, hc3hi, ?_, ?_, ?_⟩
  · exact doPivot_run d dA dB d0 d1 d2 d3 d4 d5 lo hi a b b3 c3 b4 prot heq0 hmed hscan hpart
      heq3 heq4 hsw
  · exact ((((hfr0.trans hfr1).trans (hfr2.mono (by omega) (le_refl _))).trans
      (hfr3.mono (by omega) (le_refl _))).trans (hfr4.mono (by omega) (le_refl _))).trans hfr5
  · rw [hget, if_pos rfl]
    exact hpf4
  · intro k f hk1 hk2 hf
    rw [hget] at hf
    split_ifs at hf with e1 e2
    · rw [hpf4] at hf
      cases hf
      exact hirr
    · by_cases e3 : b4 - 1 = lo
      · rw [e3, hpf4] at hf
        cases hf
        exact hirr
      · exact hL4 (b4 - 1) f (by omega) (by omega) hf
    · exact hL4 k f (by omega) hk2 hf
  · intro k f hk1 hk2 hf
    rw [hget] at hf
    split_ifs at hf with e1 e2
    · rw [hpf4] at hf
      cases hf
      exact hirr
    · omega
    · exact hG4 k f (by omega) hk2 hf

end DoPivotLemmas

/-! ## The library sort: `quickSort` and `Sort` -/

section QuickSortLemmas

variable {R : Type} [LT R] [DecidableRel (fun a b : R => a < b)] {le : R → R → Prop}

theorem SortedOn_of_split {S : R → Prop} (hO : OrderFor le S) {d : featVec R}
    (hS : ValsIn S d) {a b mlo mhi : Nat} {p : R} (hp : S p)
    (h1 : SortedOn le d a mlo) (h2 : SortedOn le d mhi b)
    (hL : AllIn d a mhi (fun f => le f.val p))
    (hG : AllIn d mlo b (fun f => le p f.val)) : SortedOn le d a b := by
  intro i j hi hij hj f g hf hg
  by_cases hjl : j < mlo
  · exact h1 i j hi hij hjl f g hf hg
  · by_cases hir : mhi ≤ i
    · exact h2 i j hir hij hj f g hf hg
    · exact hO.2.2 _ _ _ (hS i f hf) hp (hS j g hg) (hL i f hi (by omega) hf)
        (hG j g (by omega) hj hg)

/-- Library `quickSort` returns for every `maxDepth`, only rearranges the range `[a, b)`
and leaves it sorted. -/
theorem quickSort_spec {S : R → Prop} (hO : OrderFor le S) :
    ∀ (maxDepth : Nat) (d : featVec R) (a b : Nat), a ≤ b → b ≤ d.length → ValsIn S d →
      ∃ d', quickSort d a b maxDepth = some d' ∧ Frame a b d d' ∧ SortedOn le d' a b := by
  have small : ∀ (d : featVec R) (a b : Nat), a ≤ b → b ≤ d.length → ValsIn S d →
      ¬ b - a > 12 →
      ∃ d', (if b - a > 1 then
          ((List.range' (a + 6) (b - (a + 6))).foldlM
            (fun (data : featVec R) i => do
              if (← data.Less i (i - 6)) then data.Swap i (i - 6) else pure data) d).bind
            fun data => insertionSort data a b
        else some d) = some d' ∧ Frame a b d d' ∧ SortedOn le d' a b := by
    intro d a b hab hb hS _
    by_cases h1 : b - a > 1
    · rw [if_pos h1]
      obtain ⟨d1, hg, hfr1⟩ : ∃ d1, (List.range' (a + 6) (b - (a + 6))).foldlM
            (fun (data : featVec R) i => do
              if (← data.Less i (i - 6)) then data.Swap i (i - 6) else pure data) d
            = some d1 ∧ Frame a b d d1 := by
        by_cases h6 : a + 6 ≤ b
        · exact gapPass_spec a b (b - (a + 6)) (a + 6) d (le_refl _) (by omega) hb
        · have e : b - (a + 6) = 0 := by omega
          rw [e]
          exact ⟨d, rfl, Frame.refl _ _ _⟩
      obtain ⟨d2, hi, hfr2, hs⟩ := insertionSort_spec hO d1 (hfr1.valsIn hS) a b
        (by rw [hfr1.1]; exact hb)
      refine ⟨d2, ?_, hfr1.trans hfr2, hs⟩
      rw [hg]
      exact hi
    · rw [if_neg h1]
      exact ⟨d, rfl, Frame.refl _ _ _, fun i j h1 h2 h3 => by omega⟩
  intro maxDepth
  induction maxDepth with
  | zero =>
    intro d a b hab hb hS
    unfold quickSort
    by_cases h12 : b - a > 12
    · rw [if_pos h12]
      exact heapSort_spec hO d hS a b hab hb
    · rw [if_neg h12]
      exact small d a b hab hb hS h12
  | succ n ih =>
    intro d a b hab hb hS
    unfold quickSort
    by_cases h12 : b - a > 12
    · rw [if_pos h12]
      obtain ⟨d1, mlo, mhi, pf, hpiv, hfr1, h1, h2, h3, hpf, hL, hG⟩ :=
        doPivot_spec hO d hS a b (by omega) hb
      have hS1 : ValsIn S d1 := hfr1.valsIn hS
      have hb1 : b ≤ d1.length := by rw [hfr1.1]; exact hb
      have hp : S pf.val := hS1 mlo pf hpf
      simp only [hpiv, Option.some_bind, Option.bind_eq_bind]
      by_cases hside : mlo - a < b - mhi
      · rw [if_pos hside]
        obtain ⟨d2, hq2, hfr2, hs2⟩ := ih d1 a mlo h1 (by omega) hS1
        have hS2 : ValsIn S d2 := hfr2.valsIn hS1
        obtain ⟨d3, hq3, hfr3, hs3⟩ := ih d2 mhi b h3 (by rw [hfr2.1]; exact hb1) hS2
        refine ⟨d3, ?_, (hfr1.trans (hfr2.mono (le_refl _) (by omega))).trans
          (hfr3.mono (by omega) (le_refl _)), ?_⟩
        · simp only [hq2, Option.some_bind]
          exact hq3
        · exact SortedOn_of_split hO (hfr3.valsIn hS2) hp
            (hfr3.sortedOn (Or.inl (by omega)) hs2) hs3
            (hfr3.allIn (Or.inr (Or.inl (le_refl _)))
              (hfr2.allIn (Or.inl ⟨le_refl _, by omega⟩) hL))
            (hfr3.allIn (Or.inl ⟨by omega, le_refl _⟩)
              (hfr2.allIn (Or.inr (Or.inr (le_refl _))) hG))
      · rw [if_neg hside]
        obtain ⟨d2, hq2, hfr2, hs2⟩ := ih d1 mhi b h3 hb1 hS1
        have hS2 : ValsIn S d2 := hfr2.valsIn hS1
        obtain ⟨d3, hq3, hfr3, hs3⟩ := ih d2 a mlo h1 (by rw [hfr2.1]; omega) hS2
        refine ⟨d3, ?_, (hfr1.trans (hfr2.mono (by omega) (le_refl _))).trans
          (hfr3.mono (le_refl _) (by omega)), ?_⟩
        · simp only [hq2, Option.some_bind]
          exact hq3
        · exact SortedOn_of_split hO (hfr3.valsIn hS2) hp hs3
            (hfr3.sortedOn (Or.inr (by omega)) hs2)
            (hfr3.allIn (Or.inl ⟨le_refl _, by omega⟩)
              (hfr2.allIn (Or.inr (Or.inl (le_refl _))) hL))
            (hfr3.allIn (Or.inr (Or.inr (le_refl _)))
              (hfr2.allIn (Or.inl ⟨by omega, le_refl _⟩) hG))
    · rw [if_neg h12]
      exact small d a b hab hb hS h12

/-- The library function `sort.Sort` returns, its result is a permutation of the slice,
and the result is sorted when `<` is a strict weak order on the values of the slice. -/
theorem sort_Sort_spec {S : R → Prop} (hO : OrderFor le S) (d : featVec R)
    (hS : ValsIn S d) :
    ∃ d', sort_Sort d = some d' ∧ d'.Perm d ∧ SortedOn le d' 0 d'.length := by
  obtain ⟨d', h1, hfr, hs⟩ := quickSort_spec hO (maxDepth d.length) d 0 d.length
    (Nat.zero_le _) (le_refl _) hS
  refine ⟨d', h1, hfr.2.1, ?_⟩
  rw [hfr.1]
  exact hs

end QuickSortLemmas

/-! ## The sort step on `float64` values -/

section SortFinal

variable {R : Type}

theorem Float64.num_lt_num [LT R] (a b : R) :
    (Float64.num a < Float64.num b) ↔ a < b := Iff.rfl

theorem Float64.not_nan_lt [LT R] (x : Float64 R) : ¬ Float64.nan < x := by
  cases x <;> exact fun h => h

theorem Float64.not_lt_nan [LT R] (x : Float64 R) : ¬ x < Float64.nan := by
  cases x <;> exact fun h => h

theorem Float64.num_le_num [LE R] (a b : R) :
    (Float64.num a ≤ Float64.num b) ↔ a ≤ b := Iff.rfl

theorem Float64.not_nan_le [LE R] (x : Float64 R) : ¬ Float64.nan ≤ x := by
  cases x <;> exact fun h => h

theorem Float64.not_le_nan [LE R] (x : Float64 R) : ¬ x ≤ Float64.nan := by
  cases x <;> exact fun h => h

theorem OrderFor_true [LT R] : OrderFor (fun _ _ : R => True) (fun _ => True) :=
  ⟨fun _ _ _ _ _ => trivial, fun _ _ _ _ _ => trivial, fun _ _ _ _ _ _ _ _ => trivial⟩

theorem OrderFor_linearOrder [LinearOrder R] :
    OrderFor (fun x y : R => x ≤ y) (fun _ => True) :=
  ⟨fun _ _ _ _ h => le_of_lt h, fun _ _ _ _ h => not_lt.mp h,
    fun _ _ _ _ _ _ h1 h2 => le_trans h1 h2⟩

theorem OrderFor_float64 [LinearOrder R] :
    OrderFor (fun x y : Float64 R => x ≤ y) (fun x => x ≠ Float64.nan) := by
  refine ⟨?_, ?_, ?_⟩
  · intro x y _ _ h
    cases x <;> cases y
    · exact le_of_lt h
    · exact h
    · exact h
    · exact h
  · intro x y hx hy h
    cases x <;> cases y
    · exact not_lt.mp h
    · exact absurd rfl hy
    · exact absurd rfl hx
    · exact absurd rfl hx
  · intro x y z _ _ _ h1 h2
    cases x <;> cases y <;> cases z <;>
    first
      | exact le_trans h1 h2
      | exact False.elim h1
      | exact False.elim h2

theorem pairwise_of_SortedOn {le : R → R → Prop} (d : featVec R)
    (h : SortedOn le d 0 d.length) : d.Pairwise (fun f g => le f.val g.val) := by
  rw [List.pairwise_iff_getElem]
  intro i j hi hj hij
  exact h i j (Nat.zero_le _) hij hj _ _ (List.getElem?_eq_getElem hi)
    (List.getElem?_eq_getElem hj)

/-- The library function `sort.Sort` returns on every slice, whatever `<` is on the
values, and its result is a permutation of the slice. -/
theorem sort_Sort_perm [LT R] [DecidableRel (fun a b : R => a < b)] (d : featVec R) :
    ∃ d', sort_Sort d = some d' ∧ d'.Perm d := by
  obtain ⟨d', h1, h2, _⟩ := sort_Sort_spec OrderFor_true d (fun _ _ _ => trivial)
  exact ⟨d', h1, h2⟩

/-- On values without NaN (a linear order) `sort.Sort` returns a permutation of the slice
in non-decreasing order of `val`. -/
theorem sort_Sort_linearOrder [LinearOrder R] (d : featVec R) :
    ∃ d', sort_Sort d = some d' ∧ d'.Perm d ∧ d'.Pairwise (fun f g => f.val ≤ g.val) := by
  obtain ⟨d', h1, h2, h3⟩ := sort_Sort_spec OrderFor_linearOrder d (fun _ _ _ => trivial)
  exact ⟨d', h1, h2, pairwise_of_SortedOn d' h3⟩

/-- The run of `sort.Sort` on a slice is one of the runs of `Swap` calls that `applySwaps`
ranges over. -/
theorem sort_Sort_swap_run [LinearOrderedField R] (a : featVec R) :
    ∃ swaps, applySwaps swaps a = sort_Sort a := by
  obtain ⟨a', h1, h2⟩ := sort_Sort_perm a
  obtain ⟨swaps, hs⟩ := exists_swaps_of_perm a a' h2.symm
  exact ⟨swaps, by rw [hs, h1]⟩

theorem quickSort_small [LT R] [DecidableRel (fun a b : R => a < b)] (d : featVec R)
    (a b n : Nat) (h : b - a ≤ 12) :
    quickSort d a b n = quickSort d a b 0 := by
  have h' : ¬ b - a > 12 := by omega
  cases n
  · rfl
  · rw [quickSort, if_neg h', quickSort, if_neg h']

theorem sort_Sort_tieInput : sort_Sort (tieInput : featVec ℝ) = some tieOutput := by
  unfold sort_Sort
  rw [quickSort_small _ _ _ _ (by simp [featVec.Len, tieInput])]
  simp [quickSort, featVec.Len, tieInput, tieOutput, insertionSort, insertionLoop,
    featVec.Less, featVec.Swap, List.range']

theorem sort_Sort_nanInput :
    sort_Sort (nanInput : featVec (Float64 ℝ)) = some nanInput := by
  unfold sort_Sort
  rw [quickSort_small _ _ _ _ (by simp [featVec.Len, nanInput])]
  simp [quickSort, featVec.Len, nanInput, insertionSort, insertionLoop,
    featVec.Less, featVec.Swap, List.range', Float64.num_lt_num, Float64.not_nan_lt,
    Float64.not_lt_nan]

theorem sort_Sort_numInput :
    sort_Sort (numInput : featVec (Float64 ℝ)) = some numOutput := by
  unfold sort_Sort
  rw [quickSort_small _ _ _ _ (by simp [featVec.Len, numInput])]
  norm_num [quickSort, featVec.Len, numInput, numOutput, insertionSort, insertionLoop,
    featVec.Less, featVec.Swap, List.range', Float64.num_lt_num]

/-- C8, as stated, fails: on `nanInput` the sort step changes nothing, and in its result
the entry with `val` 2 stands before the entry with `val` 1, so the result is not
non-decreasing in `val`, for `<=` and for "no later entry is smaller". -/
theorem C8_nan_breaks_order :
    sort_Sort (nanInput : featVec (Float64 ℝ)) = some nanInput ∧
    ¬ (nanInput : featVec (Float64 ℝ)).Pairwise (fun f g => f.val ≤ g.val) ∧
    ¬ (nanInput : featVec (Float64 ℝ)).Pairwise (fun f g => ¬ g.val < f.val) := by
  refine ⟨sort_Sort_nanInput, ?_, ?_⟩
  · intro h
    have h2 := List.pairwise_iff_getElem.mp h 0 2 (by simp [nanInput]) (by simp [nanInput])
      (by decide)
    simp [nanInput, Float64.num_le_num] at h2
  · intro h
    have h2 := List.pairwise_iff_getElem.mp h 0 2 (by simp [nanInput]) (by simp [nanInput])
      (by decide)
    simp [nanInput, Float64.num_lt_num] at h2

/-- C8, amended: for every feature sequence the sort step returns, and its result is a
permutation of the input; when no `val` is NaN the result is non-decreasing in `val`. -/
theorem C8_sort_permutation_sorted [LinearOrder R] (a : featVec (Float64 R)) :
    ∃ a', sort_Sort a = some a' ∧ a'.Perm a ∧
      ((∀ f ∈ a, f.val ≠ Float64.nan) → a'.Pairwise (fun f g => f.val ≤ g.val)) := by
  obtain ⟨a', h1, h2⟩ := sort_Sort_perm a
  refine ⟨a', h1, h2, fun hnan => ?_⟩
  obtain ⟨a'', h1', _, h3⟩ := sort_Sort_spec OrderFor_float64 a
    (fun k f hf => hnan f (List.getElem?_mem hf))
  rw [h1] at h1'
  cases h1'
  exact pairwise_of_SortedOn a' h3

theorem C8_sort_permutation_sorted_witness :
    (∀ f ∈ (numInput : featVec (Float64 ℝ)), f.val ≠ Float64.nan) ∧
    sort_Sort (numInput : featVec (Float64 ℝ)) = some numOutput ∧
    (numOutput : featVec (Float64 ℝ)).Perm numInput ∧
    (numOutput : featVec (Float64 ℝ)).Pairwise (fun f g => f.val ≤ g.val) := by
  have hnan : ∀ f ∈ (numInput : featVec (Float64 ℝ)), f.val ≠ Float64.nan := by
    simp [numInput]
  obtain ⟨a', h1, h2, h3⟩ := C8_sort_permutation_sorted (numInput : featVec (Float64 ℝ))
  rw [sort_Sort_numInput] at h1
  cases h1
  exact ⟨hnan, sort_Sort_numInput, h2, h3 hnan⟩

/-- C9: on `tieInput` the sort step returns `tieOutput`, in which the entry `(0, 0, 2)`
stands behind the five entries it tied with and stood before; the sort is not stable. -/
theorem C9_sort_reorders_ties :
    sort_Sort (tieInput : featVec ℝ) = some tieOutput ∧
    ¬ StableFor (tieInput : featVec ℝ) tieOutput := by
  refine ⟨sort_Sort_tieInput, ?_⟩
  intro h
  have h2 := h 2
  simp [tieInput, tieOutput] at h2

end SortFinal

/-! ## Kernel sums -/

theorem cos_odd_sum (θ : ℝ) (n : Nat) :
    (∑ x ∈ Finset.range n, Real.cos ((2 * (x : ℝ) + 1) * θ)) * (2 * Real.sin θ) =
      Real.sin (2 * (n : ℝ) * θ) := by
  induction n with
  | zero => simp
  | succ n ih =>
    rw [Finset.sum_range_succ, add_mul, ih]
    have h1 : 2 * ((n + 1 : Nat) : ℝ) * θ = (2 * (n : ℝ) + 1) * θ + θ := by push_cast; ring
    have h2 : 2 * (n : ℝ) * θ = (2 * (n : ℝ) + 1) * θ - θ := by ring
    rw [h1, h2, Real.sin_add, Real.sin_sub]
    ring

theorem cos_row_sum_zero (K u : Nat) (hu : 0 < u) (huK : u < 2 * K) :
    ∑ x ∈ Finset.range K, Real.cos (((2 * (x : ℝ) + 1) * ((u : ℝ) * Real.pi)) / (2 * (K : ℝ))) = 0 := by
  have hK : (0 : ℝ) < (K : ℝ) := by
    have : 0 < K := by omega
    exact_mod_cast this
  have hθ0 : 0 < (u : ℝ) * Real.pi / (2 * (K : ℝ)) := by
    have : (0 : ℝ) < (u : ℝ) := by exact_mod_cast hu
    positivity
  have hθ1 : (u : ℝ) * Real.pi / (2 * (K : ℝ)) < Real.pi := by
    rw [div_lt_iff₀ (by positivity)]
    have : (u : ℝ) < 2 * (K : ℝ) := by exact_mod_cast huK
    nlinarith [Real.pi_pos]
  have hsin : 0 < Real.sin ((u : ℝ) * Real.pi / (2 * (K : ℝ))) :=
    Real.sin_pos_of_pos_of_lt_pi hθ0 hθ1
  have h := cos_odd_sum ((u : ℝ) * Real.pi / (2 * (K : ℝ))) K
  have h0 : Real.sin (2 * (K : ℝ) * ((u : ℝ) * Real.pi / (2 * (K : ℝ)))) = 0 := by
    rw [show 2 * (K : ℝ) * ((u : ℝ) * Real.pi / (2 * (K : ℝ))) = (u : ℝ) * Real.pi by
      field_simp]
    exact Real.sin_nat_mul_pi u
  rw [h0] at h
  have hs : ∑ x ∈ Finset.range K, Real.cos ((2 * (x : ℝ) + 1) * ((u : ℝ) * Real.pi / (2 * (K : ℝ)))) = 0 := by
    rcases mul_eq_zero.mp h with h | h
    · exact h
    · exfalso; linarith
  rw [← hs]
  refine Finset.sum_congr rfl (fun x _ => ?_)
  rw [mul_div_assoc]

theorem kernelSum_mul (K u v : Nat) :
    kernelSum Real.cos Real.pi K u v =
      (∑ x ∈ Finset.range K, Real.cos (((2 * (x : ℝ) + 1) * ((u : ℝ) * Real.pi)) / (2 * (K : ℝ)))) *
      (∑ y ∈ Finset.range K, Real.cos (((2 * (y : ℝ) + 1) * ((v : ℝ) * Real.pi)) / (2 * (K : ℝ)))) := by
  unfold kernelSum dct
  rw [Finset.sum_mul_sum]

theorem kernelSum_zero_zero (K : Nat) :
    kernelSum Real.cos Real.pi K 0 0 = (K : ℝ) * (K : ℝ) := by
  rw [kernelSum_mul]
  simp

theorem kernelSum_off_dc (K u v : Nat) (hu : u < K) (hv : v < K) (h : (u, v) ≠ (0, 0)) :
    kernelSum Real.cos Real.pi K u v = 0 := by
  rw [kernelSum_mul]
  by_cases hu0 : u = 0
  · have hv0 : 0 < v := by
      rcases Nat.eq_zero_or_pos v with h0 | h0
      · exact absurd (by rw [hu0, h0]) h
      · exact h0
    rw [cos_row_sum_zero K v hv0 (by omega), mul_zero]
  · rw [cos_row_sum_zero K u (Nat.pos_of_ne_zero hu0) (by omega), zero_mul]

/-! ## The cell of the zero frequency -/

section DcCell

variable {R : Type} [LinearOrderedField R]

theorem nodup_uvPairs (K : Nat) : (uvPairs K).Nodup := by
  unfold uvPairs
  rw [List.nodup_flatMap]
  refine ⟨fun u _ => ?_, ?_⟩
  · refine (List.nodup_range _).map ?_
    intro a b h
    simpa using h
  · refine (List.nodup_range _).pairwise_of_forall_ne ?_
    intro a _ b _ hab
    simp only [Function.onFun, List.disjoint_left, List.mem_map, List.mem_range]
    rintro p ⟨j, _, rfl⟩ ⟨j', _, h⟩
    simp only [Prod.mk.injEq] at h
    exact hab h.1.symm

theorem uvPairs_head (K : Nat) (hK : 1 ≤ K) :
    ∃ rest, uvPairs K = (0, 0) :: rest ∧ (0, 0) ∉ rest := by
  obtain ⟨k, rfl⟩ : ∃ k, K = k + 1 := ⟨K - 1, by omega⟩
  have h : uvPairs (k + 1) = (0, 0) :: (uvPairs (k + 1)).tail := by
    unfold uvPairs
    rw [List.range_succ_eq_map]
    simp
  refine ⟨_, h, ?_⟩
  have hn := nodup_uvPairs (k + 1)
  rw [h, List.nodup_cons] at hn
  exact hn.1

theorem foldl_transformStep_not_mem (cos sqrt : R → R) (pi : R)
    (conv : Nat → Nat → Nat → Nat × Nat × Nat) (K : Nat) (dx dy : Int) (b : RGBA)
    (i0 i1 : Nat) (l : List (Nat × Nat)) (acc : State R × dctPx R) (u v : Nat)
    (h : (u, v) ∉ l) :
    (l.foldl (transformStep cos sqrt pi conv K dx dy b i0 i1) acc).2 u v = acc.2 u v := by
  induction l generalizing acc with
  | nil => rfl
  | cons p l ih =>
    rw [List.foldl_cons, ih _ (fun hm => h (List.mem_cons_of_mem _ hm))]
    have hp : ¬ (u = p.1 ∧ v = p.2) := by
      rintro ⟨h1, h2⟩
      exact h (by rw [h1, h2]; exact List.mem_cons_self _ _)
    simp only [transformStep, store, if_neg hp]

theorem transform_dc (cos sqrt : R → R) (pi : R)
    (conv : Nat → Nat → Nat → Nat × Nat × Nat) (K : Nat) (hK : 1 ≤ K) (dx dy : Int)
    (b : RGBA) (s : State R) :
    (transform cos sqrt pi conv K dx dy b s).2 0 0 =
      (coefficient cos sqrt pi conv K dx dy b (b.PixOffset b.MinX b.MinY)
        (b.PixOffset b.MinX b.MinY + b.Dx * 4) 0 0 s).toPixel := by
  obtain ⟨rest, hrest, hnot⟩ := uvPairs_head K hK
  rw [transform_eq_foldl, hrest, List.foldl_cons, foldl_transformStep_not_mem _ _ _ _ _ _ _ _ _ _ _ _ _ _ hnot]
  simp [transformStep, store, State.toPixel]

end DcCell

/-! ## Blocks of a uniform image -/

theorem PixOffset_min (b : RGBA) : b.PixOffset b.MinX b.MinY = 0 := by
  simp [RGBA.PixOffset]

theorem SubImage_inside (p : RGBA) (i j K : Nat) (hK : 0 < K) (hx : p.MinX = 0)
    (hy : p.MinY = 0) (hi : i + K ≤ p.MaxX) (hj : j + K ≤ p.MaxY) :
    p.SubImage i j (i + K) (j + K) =
      { Pix := fun k => p.Pix (p.PixOffset i j + k), Stride := p.Stride,
        MinX := i, MinY := j, MaxX := i + K, MaxY := j + K } := by
  unfold RGBA.SubImage
  have h1 : max i p.MinX = i := by rw [hx]; exact Nat.max_eq_left (Nat.zero_le _)
  have h2 : max j p.MinY = j := by rw [hy]; exact Nat.max_eq_left (Nat.zero_le _)
  have h3 : min (i + K) p.MaxX = i + K := Nat.min_eq_left hi
  have h4 : min (j + K) p.MaxY = j + K := Nat.min_eq_left hj
  simp only [h1, h2, h3, h4]
  rw [if_neg]
  omega

theorem rowIndices_zero (K : Nat) : rowIndices 0 (0 + K * 4) = (List.range K).map (fun k => 0 + 4 * k) := by
  unfold rowIndices
  have : (0 + K * 4 - 0 + 3) / 4 = K := by omega
  rw [this]

theorem uniform_PixOffset (W H yc i j : Nat) :
    (uniformImage W H yc).PixOffset i j = 4 * (j * W + i) := by
  simp only [RGBA.PixOffset, uniformImage, Nat.sub_zero]
  ring

theorem uniform_Pix_luma (W H yc i j k : Nat) :
    (uniformImage W H yc).Pix ((uniformImage W H yc).PixOffset i j + (0 + 4 * k)) = yc := by
  have h : ((uniformImage W H yc).PixOffset i j + (0 + 4 * k)) % 4 = 0 := by
    rw [uniform_PixOffset]
    omega
  simp only [uniformImage] at h ⊢
  rw [if_pos h]

theorem uniform_Pix_chroma (W H yc i j k : Nat) :
    (uniformImage W H yc).Pix ((uniformImage W H yc).PixOffset i j + (0 + 4 * k + 2)) = 128 := by
  have h : ((uniformImage W H yc).PixOffset i j + (0 + 4 * k + 2)) % 4 = 2 := by
    rw [uniform_PixOffset]
    omega
  simp only [uniformImage] at h ⊢
  rw [if_neg (by omega), if_neg (by omega)]

theorem uniform_block_eq (W H yc i j : Nat) (hi : i + 4 ≤ W) (hj : j + 4 ≤ H) :
    (uniformImage W H yc).SubImage i j (i + 4) (j + 4) =
      { Pix := fun k => (uniformImage W H yc).Pix ((uniformImage W H yc).PixOffset i j + k),
        Stride := 4 * W, MinX := i, MinY := j, MaxX := i + 4, MaxY := j + 4 } :=
  SubImage_inside (uniformImage W H yc) i j 4 (by decide) rfl rfl hi hj

theorem uniform_block_rowSumY (W H yc i j : Nat) (hi : i + 4 ≤ W) (hj : j + 4 ≤ H) :
    rowSumY (R := ℝ) ((uniformImage W H yc).SubImage i j (i + 4) (j + 4))
      (((uniformImage W H yc).SubImage i j (i + 4) (j + 4)).PixOffset
        ((uniformImage W H yc).SubImage i j (i + 4) (j + 4)).MinX
        ((uniformImage W H yc).SubImage i j (i + 4) (j + 4)).MinY)
      (((uniformImage W H yc).SubImage i j (i + 4) (j + 4)).PixOffset
        ((uniformImage W H yc).SubImage i j (i + 4) (j + 4)).MinX
        ((uniformImage W H yc).SubImage i j (i + 4) (j + 4)).MinY +
        ((uniformImage W H yc).SubImage i j (i + 4) (j + 4)).Dx * 4) = 4 * (yc : ℝ) := by
  rw [PixOffset_min]
  have hDx : ((uniformImage W H yc).SubImage i j (i + 4) (j + 4)).Dx = 4 := by
    rw [uniform_block_eq W H yc i j hi hj]
    simp [RGBA.Dx]
  rw [hDx, rowSumY, rowIndices_zero, uniform_block_eq W H yc i j hi hj]
  simp only [List.map_map, Function.comp_def, uniform_Pix_luma]
  simp
  ring

theorem sqrt_four : Real.sqrt 4 = 2 := by
  rw [show (4 : ℝ) = 2 ^ 2 by norm_num]
  exact Real.sqrt_sq (by norm_num)

theorem uniform_block_lumaAt (W H yc i j x y : Nat) (hi : i + 4 ≤ W) (hj : j + 4 ≤ H) :
    lumaAt ((uniformImage W H yc).SubImage i j (i + 4) (j + 4)) x y = yc := by
  rw [uniform_block_eq W H yc i j hi hj]
  simp only [lumaAt, RGBA.PixOffset, uniformImage, Nat.sub_zero, Nat.add_sub_cancel_left]
  rw [if_pos]
  have h : (j * (4 * W) + i * 4 + (y * (4 * W) + x * 4)) = 4 * (j * W + i + y * W + x) := by
    ring
  rw [h]
  omega

/-- C1 fails on the first block of a uniform 4×4 image with luma 1 (so that `dx = dy = K`
and every accumulator starts at 0): the cell `dctPixels[0][0]` gets the luma value 16,
while the formula `α(0)·α(0)·Σ pixel(x,y)·cos(0)·cos(0)` gives 4. -/
theorem C1_dc_luma_of_uniform_block :
    ((transform Real.cos Real.sqrt Real.pi YCbCrToRGB BlockSize 4 4
        ((uniformImage 4 4 1).SubImage 0 0 (0 + 4) (0 + 4)) State.init).2 0 0).y = 16 ∧
    specCoefficient Real.cos Real.sqrt Real.pi BlockSize
      (fun x y => ((lumaAt ((uniformImage 4 4 1).SubImage 0 0 (0 + 4) (0 + 4)) x y : Nat) : ℝ))
      0 0 = 4 := by
  constructor
  · rw [transform_dc _ _ _ _ _ (by decide), coefficient_eq]
    simp only [State.toPixel]
    rw [uniform_block_rowSumY 4 4 1 0 0 (by decide) (by decide), kernelSum_zero_zero]
    simp only [alpha, State.init, BlockSize]
    norm_num [sqrt_four]
  · have hl : ∀ x y, lumaAt ((uniformImage 4 4 1).SubImage 0 0 (0 + 4) (0 + 4)) x y = 1 :=
      fun x y => uniform_block_lumaAt 4 4 1 0 0 x y (by decide) (by decide)
    simp only [specCoefficient, hl, specAlpha, BlockSize]
    norm_num [sqrt_four]

/-! ## Accumulators across the coefficient loops -/

section Invariants

variable {R : Type} [LinearOrderedField R]

theorem foldl_transformStep_avr (cos sqrt : R → R) (pi : R)
    (conv : Nat → Nat → Nat → Nat × Nat × Nat) (K : Nat) (dx dy : Int) (b : RGBA)
    (i0 i1 : Nat) (l : List (Nat × Nat)) (acc : State R × dctPx R) :
    (l.foldl (transformStep cos sqrt pi conv K dx dy b i0 i1) acc).1.avr =
        acc.1.avr + (l.length : R) * (((K : R) * (K : R)) * rowSumR conv b i0 i1) ∧
    (l.foldl (transformStep cos sqrt pi conv K dx dy b i0 i1) acc).1.avg =
        acc.1.avg + (l.length : R) * (((K : R) * (K : R)) * rowSumG conv b i0 i1) ∧
    (l.foldl (transformStep cos sqrt pi conv K dx dy b i0 i1) acc).1.avb =
        acc.1.avb + (l.length : R) * (((K : R) * (K : R)) * rowSumB conv b i0 i1) := by
  induction l generalizing acc with
  | nil => simp
  | cons p l ih =>
    rw [List.foldl_cons]
    obtain ⟨h1, h2, h3⟩ := ih (transformStep cos sqrt pi conv K dx dy b i0 i1 acc p)
    rw [h1, h2, h3]
    simp only [transformStep, coefficient_eq, List.length_cons, Nat.cast_add, Nat.cast_one]
    refine ⟨?_, ?_, ?_⟩ <;> ring

theorem foldl_transformStep_cy_pos (cos sqrt : R → R) (pi : R)
    (conv : Nat → Nat → Nat → Nat × Nat × Nat) (K : Nat) (dx dy : Int) (b : RGBA)
    (i0 i1 : Nat) (l : List (Nat × Nat)) (acc : State R × dctPx R)
    (hk : ∀ p ∈ l, 0 ≤ kernelSum cos pi K p.1 p.2 * rowSumY b i0 i1)
    (ha : ∀ p ∈ l, 0 < alpha sqrt dx dy (p.1 : R) * alpha sqrt dx dy (p.2 : R))
    (h : 0 < acc.1.cy) :
    0 < (l.foldl (transformStep cos sqrt pi conv K dx dy b i0 i1) acc).1.cy := by
  induction l generalizing acc with
  | nil => exact h
  | cons p l ih =>
    rw [List.foldl_cons]
    apply ih _ (fun q hq => hk q (List.mem_cons_of_mem _ hq))
      (fun q hq => ha q (List.mem_cons_of_mem _ hq))
    simp only [transformStep, coefficient_eq]
    have h1 := hk p (List.mem_cons_self _ _)
    have h2 := ha p (List.mem_cons_self _ _)
    exact mul_pos (by linarith) h2

end Invariants

theorem mem_uvPairs (K u v : Nat) : (u, v) ∈ uvPairs K ↔ u < K ∧ v < K := by
  simp only [uvPairs, List.mem_flatMap, List.mem_map, List.mem_range, Prod.mk.injEq]
  constructor
  · rintro ⟨a, ha, c, hc, rfl, rfl⟩
    exact ⟨ha, hc⟩
  · rintro ⟨h1, h2⟩
    exact ⟨u, h1, v, h2, rfl, rfl⟩

theorem length_uvPairs (K : Nat) : (uvPairs K).length = K * K := by
  simp [uvPairs, List.length_flatMap, Function.comp_def]

theorem kernelSum_nonneg (K u v : Nat) (hu : u < K) (hv : v < K) :
    0 ≤ kernelSum Real.cos Real.pi K u v := by
  by_cases h : (u, v) = (0, 0)
  · obtain ⟨rfl, rfl⟩ := Prod.mk.inj h
    rw [kernelSum_zero_zero]
    positivity
  · rw [kernelSum_off_dc K u v hu hv h]

theorem alpha_pos (dx dy : Int) (hx : 0 < dx) (hy : 0 < dy) (a : ℝ) :
    0 < alpha Real.sqrt dx dy a := by
  have h1 : (0 : ℝ) < (dx : ℝ) := by exact_mod_cast hx
  have h2 : (0 : ℝ) < (dy : ℝ) := by exact_mod_cast hy
  unfold alpha
  split
  · exact Real.sqrt_pos.mpr (by positivity)
  · exact Real.sqrt_pos.mpr (by positivity)

theorem rowSumY_nonneg (b : RGBA) (i0 i1 : Nat) : (0 : ℝ) ≤ rowSumY b i0 i1 := by
  unfold rowSumY
  apply List.sum_nonneg
  intro x hx
  simp only [List.mem_map] at hx
  obtain ⟨i, _, rfl⟩ := hx
  exact Nat.cast_nonneg _

theorem transform_cy_pos (conv : Nat → Nat → Nat → Nat × Nat × Nat) (K : Nat) (hK : 1 ≤ K)
    (dx dy : Int) (hx : 0 < dx) (hy : 0 < dy) (b : RGBA) (s : State ℝ) (hs : 0 ≤ s.cy)
    (hrow : 0 < rowSumY (R := ℝ) b (b.PixOffset b.MinX b.MinY)
      (b.PixOffset b.MinX b.MinY + b.Dx * 4)) :
    0 < (transform Real.cos Real.sqrt Real.pi conv K dx dy b s).1.cy := by
  obtain ⟨rest, hrest, _⟩ := uvPairs_head K hK
  have hmem : ∀ p ∈ rest, p.1 < K ∧ p.2 < K := by
    intro p hp
    have : (p.1, p.2) ∈ uvPairs K := by rw [hrest]; exact List.mem_cons_of_mem _ hp
    exact (mem_uvPairs K p.1 p.2).mp this
  rw [transform_eq_foldl, hrest, List.foldl_cons]
  apply foldl_transformStep_cy_pos
  · intro p hp
    exact mul_nonneg (kernelSum_nonneg K p.1 p.2 (hmem p hp).1 (hmem p hp).2) hrow.le
  · intro p _
    exact mul_pos (alpha_pos dx dy hx hy _) (alpha_pos dx dy hx hy _)
  · simp only [transformStep, coefficient_eq]
    apply mul_pos
    · rw [kernelSum_zero_zero]
      have hKr : (0 : ℝ) < (K : ℝ) := by exact_mod_cast hK
      have : 0 < (K : ℝ) * (K : ℝ) * rowSumY (R := ℝ) b (b.PixOffset b.MinX b.MinY)
          (b.PixOffset b.MinX b.MinY + b.Dx * 4) := by positivity
      linarith
    · exact mul_pos (alpha_pos dx dy hx hy _) (alpha_pos dx dy hx hy _)

theorem transform_avr (cos sqrt : ℝ → ℝ) (pi : ℝ) (conv : Nat → Nat → Nat → Nat × Nat × Nat)
    (K : Nat) (dx dy : Int) (b : RGBA) (s : State ℝ) :
    (transform cos sqrt pi conv K dx dy b s).1.avr =
      s.avr + ((K * K : Nat) : ℝ) * (((K : ℝ) * (K : ℝ)) *
        rowSumR conv b (b.PixOffset b.MinX b.MinY) (b.PixOffset b.MinX b.MinY + b.Dx * 4)) := by
  rw [transform_eq_foldl, (foldl_transformStep_avr _ _ _ _ _ _ _ _ _ _ _ _).1, length_uvPairs]

theorem transform_dc_luma (conv : Nat → Nat → Nat → Nat × Nat × Nat) (K : Nat) (hK : 1 ≤ K)
    (dx dy : Int) (b : RGBA) (s : State ℝ) :
    ((transform Real.cos Real.sqrt Real.pi conv K dx dy b s).2 0 0).y =
      (s.cy + (K : ℝ) * (K : ℝ) * rowSumY b (b.PixOffset b.MinX b.MinY)
          (b.PixOffset b.MinX b.MinY + b.Dx * 4)) *
        (Real.sqrt (1 / (dx : ℝ)) * Real.sqrt (1 / (dx : ℝ))) := by
  rw [transform_dc _ _ _ _ _ hK, coefficient_eq]
  simp only [State.toPixel, kernelSum_zero_zero, alpha, Nat.cast_zero, if_true]

theorem YCbCrToRGB_gray_one : YCbCrToRGB 1 128 128 = (1, 1, 1) := by decide

theorem uniform_block_Dx (W H yc i j : Nat) (hi : i + 4 ≤ W) (hj : j + 4 ≤ H) :
    ((uniformImage W H yc).SubImage i j (i + 4) (j + 4)).Dx = 4 := by
  rw [uniform_block_eq W H yc i j hi hj]
  simp [RGBA.Dx]

theorem uniform_block_rowSumR (W H i j : Nat) (hi : i + 4 ≤ W) (hj : j + 4 ≤ H) :
    rowSumR (R := ℝ) YCbCrToRGB ((uniformImage W H 1).SubImage i j (i + 4) (j + 4))
      (((uniformImage W H 1).SubImage i j (i + 4) (j + 4)).PixOffset
        ((uniformImage W H 1).SubImage i j (i + 4) (j + 4)).MinX
        ((uniformImage W H 1).SubImage i j (i + 4) (j + 4)).MinY)
      (((uniformImage W H 1).SubImage i j (i + 4) (j + 4)).PixOffset
        ((uniformImage W H 1).SubImage i j (i + 4) (j + 4)).MinX
        ((uniformImage W H 1).SubImage i j (i + 4) (j + 4)).MinY +
        ((uniformImage W H 1).SubImage i j (i + 4) (j + 4)).Dx * 4) = 4 := by
  rw [PixOffset_min, uniform_block_Dx W H 1 i j hi hj, rowSumR, rowIndices_zero,
    uniform_block_eq W H 1 i j hi hj]
  simp only [List.map_map, Function.comp_def, uniform_Pix_luma, uniform_Pix_chroma,
    YCbCrToRGB_gray_one]
  simp
  norm_num

theorem sqrt_eighth_mul_self : Real.sqrt (1 / ((8 : Int) : ℝ)) * Real.sqrt (1 / ((8 : Int) : ℝ)) = 1 / 8 := by
  rw [Real.mul_self_sqrt (by norm_num)]
  norm_num

/-! ## Extraction over a uniform 8×8 image -/

theorem processBlock_uniform8 (s : State ℝ) (hcy : 0 ≤ s.cy) (block : imageBlock)
    (hb : ∃ i j, i + 4 ≤ 8 ∧ j + 4 ≤ 8 ∧
      block.img = (uniformImage 8 8 1).SubImage i j (i + 4) (j + 4)) :
    ∃ (s' : State ℝ) (e1 e2 : List (feature ℝ)),
      processBlock Real.cos Real.sqrt Real.pi YCbCrToRGB 4 8 8 s block = some s' ∧
      e1.length = 5 ∧ e2.length = 2 ∧
      s'.features = s.features ++
        (⟨block.x, block.y, (s.cy + 64) / 8⟩ :: e1 ++
          ⟨block.x, block.y, (s.avr + 1024) / 16⟩ :: e2) ∧
      0 < s'.cy ∧ s'.avr = (s.avr + 1024) / 16 := by
  obtain ⟨i, j, hi, hj, himg⟩ := hb
  have hdc := transform_dc_luma YCbCrToRGB 4 (by decide) 8 8 block.img s
  have havr := transform_avr Real.cos Real.sqrt Real.pi YCbCrToRGB 4 8 8 block.img s
  have hpos : 0 < (transform Real.cos Real.sqrt Real.pi YCbCrToRGB 4 8 8 block.img s).1.cy := by
    apply transform_cy_pos YCbCrToRGB 4 (by decide) 8 8 (by decide) (by decide) block.img s hcy
    rw [himg, uniform_block_rowSumY 8 8 1 i j hi hj]
    norm_num
  rw [himg, uniform_block_rowSumY 8 8 1 i j hi hj, ← himg, sqrt_eighth_mul_self] at hdc
  rw [himg, uniform_block_rowSumR 8 8 i j hi hj, ← himg] at havr
  have hdc' : ((transform Real.cos Real.sqrt Real.pi YCbCrToRGB 4 8 8 block.img s).2 0 0).y =
      (s.cy + 64) / 8 := by
    rw [hdc]; norm_num; ring
  have havr' : (transform Real.cos Real.sqrt Real.pi YCbCrToRGB 4 8 8 block.img s).1.avr /
      ((4 * 4 : Nat) : ℝ) = (s.avr + 1024) / 16 := by
    rw [havr]; norm_num
  refine ⟨_,
    [⟨block.x, block.y, ((transform Real.cos Real.sqrt Real.pi YCbCrToRGB 4 8 8 block.img s).2 0 1).y⟩,
     ⟨block.x, block.y, ((transform Real.cos Real.sqrt Real.pi YCbCrToRGB 4 8 8 block.img s).2 1 0).y⟩,
     ⟨block.x, block.y, ((transform Real.cos Real.sqrt Real.pi YCbCrToRGB 4 8 8 block.img s).2 0 0).r⟩,
     ⟨block.x, block.y, ((transform Real.cos Real.sqrt Real.pi YCbCrToRGB 4 8 8 block.img s).2 0 0).g⟩,
     ⟨block.x, block.y, ((transform Real.cos Real.sqrt Real.pi YCbCrToRGB 4 8 8 block.img s).2 0 0).b⟩],
    [⟨block.x, block.y,
       (transform Real.cos Real.sqrt Real.pi YCbCrToRGB 4 8 8 block.img s).1.avb / ((4 * 4 : Nat) : ℝ)⟩,
     ⟨block.x, block.y,
       (transform Real.cos Real.sqrt Real.pi YCbCrToRGB 4 8 8 block.img s).1.avg / ((4 * 4 : Nat) : ℝ)⟩],
    processBlock_eq Real.cos Real.sqrt Real.pi YCbCrToRGB 4 (by decide) 8 8 s block,
    rfl, rfl, ?_, hpos, havr'⟩
  simp only [transform_features, hdc', havr', List.cons_append, List.nil_append]

theorem extract_uniform8 (l : List imageBlock)
    (hl : ∀ b ∈ l, ∃ i j, i + 4 ≤ 8 ∧ j + 4 ≤ 8 ∧
      b.img = (uniformImage 8 8 1).SubImage i j (i + 4) (j + 4))
    (s : State ℝ) (hcy : 0 < s.cy) (havr : 0 < s.avr) :
    ∃ (s' : State ℝ) (rest : List (feature ℝ)),
      extract Real.cos Real.sqrt Real.pi YCbCrToRGB 4 8 8 l s = some s' ∧
      s'.features = s.features ++ rest ∧ rest.length = 9 * l.length ∧
      0 < s'.cy ∧ 0 < s'.avr := by
  induction l generalizing s with
  | nil => exact ⟨s, [], rfl, by simp, rfl, hcy, havr⟩
  | cons b bs ih =>
    obtain ⟨s1, e1, e2, h1, hl1, hl2, hf1, hc1, ha1⟩ :=
      processBlock_uniform8 s hcy.le b (hl b (List.mem_cons_self _ _))
    have ha1' : 0 < s1.avr := by rw [ha1]; positivity
    obtain ⟨s2, rest, h2, hf2, hlen, hc2, ha2⟩ :=
      ih (fun c hc => hl c (List.mem_cons_of_mem _ hc)) s1 hc1 ha1'
    refine ⟨s2, (⟨b.x, b.y, (s.cy + 64) / 8⟩ :: e1 ++
      ⟨b.x, b.y, (s.avr + 1024) / 16⟩ :: e2) ++ rest, ?_, ?_, ?_, hc2, ha2⟩
    · unfold extract at h2 ⊢
      rw [List.foldlM_cons, h1]
      exact h2
    · rw [hf2, hf1, List.append_assoc]
    · simp only [List.length_append, List.length_cons, hl1, hl2, hlen]
      omega

theorem mem_makeBlocks_uniform8 (b : imageBlock)
    (hb : b ∈ makeBlocks 4 (uniformImage 8 8 1) 8 8) :
    ∃ i j, i + 4 ≤ 8 ∧ j + 4 ≤ 8 ∧ b.img = (uniformImage 8 8 1).SubImage i j (i + 4) (j + 4) := by
  rw [makeBlocks_eq] at hb
  simp only [List.mem_flatMap, List.mem_map, List.mem_range] at hb
  obtain ⟨i, hi, j, hj, rfl⟩ := hb
  have hi' : i < 5 := hi
  have hj' : j < 5 := hj
  exact ⟨i, j, by omega, by omega, rfl⟩

theorem makeBlocks_uniform8_split :
    ∃ mid : List imageBlock, mid.length = 23 ∧
      (∀ b ∈ mid, b ∈ makeBlocks 4 (uniformImage 8 8 1) 8 8) ∧
      makeBlocks 4 (uniformImage 8 8 1) 8 8 =
        ⟨0, 0, (uniformImage 8 8 1).SubImage 0 0 (0 + 4) (0 + 4)⟩ ::
          (mid ++ [⟨4, 4, (uniformImage 8 8 1).SubImage 4 4 (4 + 4) (4 + 4)⟩]) := by
  refine ⟨((makeBlocks 4 (uniformImage 8 8 1) 8 8).tail).dropLast, rfl, ?_, rfl⟩
  intro b hb
  exact List.mem_of_mem_tail (List.mem_of_mem_dropLast hb)

theorem getElem?_append_at {α : Type} (pre chunk : List α) (n k : Nat) (h : pre.length = n) :
    (pre ++ chunk)[n + k]? = chunk[k]? := by
  rw [List.getElem?_append_right (by omega)]
  congr 1
  omega

theorem chunk_getElem? {α : Type} (A B : α) (e1 e2 : List α) (h : e1.length = 5) :
    (A :: e1 ++ B :: e2)[0]? = some A ∧ (A :: e1 ++ B :: e2)[6]? = some B := by
  refine ⟨by simp, ?_⟩
  rw [List.cons_append, List.getElem?_cons_succ]
  have h2 := getElem?_append_at e1 (B :: e2) 5 0 h
  rw [Nat.add_zero] at h2
  rw [h2]
  simp

/-- C4 fails on a uniform 8×8 image with luma 1 and `BlockSize = 4`: the blocks at `(0,0)`
and `(4,4)` have the same pixel window, yet the DC-luma entry of the first (index 0) is 8
and that of the second (index 216) is larger, and the avgRed entries (indices 6 and 222)
are 64 and more than 64. -/
theorem C4_duplicate_patch_entries_differ :
    (∀ x y, lumaAt ((uniformImage 8 8 1).SubImage 0 0 (0 + 4) (0 + 4)) x y =
        lumaAt ((uniformImage 8 8 1).SubImage 4 4 (4 + 4) (4 + 4)) x y) ∧
    ∃ (s : State ℝ) (f0 f6 f216 f222 : feature ℝ),
      extract Real.cos Real.sqrt Real.pi YCbCrToRGB BlockSize 8 8
        (makeBlocks BlockSize (uniformImage 8 8 1) 8 8) State.init = some s ∧
      s.features[0]? = some f0 ∧ s.features[6]? = some f6 ∧
      s.features[216]? = some f216 ∧ s.features[222]? = some f222 ∧
      (f0.x, f0.y) = (0, 0) ∧ (f6.x, f6.y) = (0, 0) ∧
      (f216.x, f216.y) = (4, 4) ∧ (f222.x, f222.y) = (4, 4) ∧
      f0.val = 8 ∧ 8 < f216.val ∧ f6.val = 64 ∧ 64 < f222.val := by
  constructor
  · intro x y
    rw [uniform_block_lumaAt 8 8 1 0 0 x y (by decide) (by decide),
      uniform_block_lumaAt 8 8 1 4 4 x y (by decide) (by decide)]
  obtain ⟨mid, hmidlen, hmid, hsplit⟩ := makeBlocks_uniform8_split
  obtain ⟨s1, e1, e2, h1, hl1, hl2, hf1, hc1, ha1⟩ :=
    processBlock_uniform8 (State.init : State ℝ) (le_refl _)
      ⟨0, 0, (uniformImage 8 8 1).SubImage 0 0 (0 + 4) (0 + 4)⟩
      ⟨0, 0, by decide, by decide, rfl⟩
  have ha1' : 0 < s1.avr := by rw [ha1]; simp only [State.init]; norm_num
  obtain ⟨s2, rest, h2, hf2, hlen, hc2, ha2⟩ :=
    extract_uniform8 mid (fun b hb => mem_makeBlocks_uniform8 b (hmid b hb)) s1 hc1 ha1'
  obtain ⟨s3, e3, e4, h3, hl3, hl4, hf3, hc3, ha3⟩ :=
    processBlock_uniform8 s2 hc2.le
      ⟨4, 4, (uniformImage 8 8 1).SubImage 4 4 (4 + 4) (4 + 4)⟩
      ⟨4, 4, by decide, by decide, rfl⟩
  have hrun : extract Real.cos Real.sqrt Real.pi YCbCrToRGB BlockSize 8 8
      (makeBlocks BlockSize (uniformImage 8 8 1) 8 8) State.init = some s3 := by
    show extract Real.cos Real.sqrt Real.pi YCbCrToRGB 4 8 8
      (makeBlocks 4 (uniformImage 8 8 1) 8 8) State.init = some s3
    rw [hsplit]
    unfold extract at h2 ⊢
    rw [List.foldlM_cons, h1]
    simp only [Option.some_bind, Option.bind_eq_bind]
    rw [List.foldlM_append, h2]
    simp only [Option.some_bind, Option.bind_eq_bind, List.foldlM_cons, List.foldlM_nil, h3,
      Option.pure_def]
  have hpre : s2.features.length = 216 := by
    rw [hf2, hf1]
    simp only [List.length_append, List.length_cons, hl1, hl2, hlen, hmidlen, State.init,
      List.length_nil]
  have hinit : (State.init : State ℝ).features = [] := rfl
  refine ⟨s3, ⟨0, 0, ((State.init : State ℝ).cy + 64) / 8⟩,
    ⟨0, 0, ((State.init : State ℝ).avr + 1024) / 16⟩,
    ⟨4, 4, (s2.cy + 64) / 8⟩, ⟨4, 4, (s2.avr + 1024) / 16⟩, hrun, ?_, ?_, ?_, ?_,
    rfl, rfl, rfl, rfl, ?_, ?_, ?_, ?_⟩
  · rw [hf3, hf2, hf1, hinit, List.nil_append, List.append_assoc]
    rw [List.getElem?_append_left (by simp)]
    exact (chunk_getElem? _ _ e1 e2 hl1).1
  · rw [hf3, hf2, hf1, hinit, List.nil_append, List.append_assoc]
    rw [List.getElem?_append_left (by simp [hl1]; omega)]
    exact (chunk_getElem? _ _ e1 e2 hl1).2
  · rw [hf3]
    have h := getElem?_append_at s2.features
      (⟨4, 4, (s2.cy + 64) / 8⟩ :: e3 ++ ⟨4, 4, (s2.avr + 1024) / 16⟩ :: e4) 216 0 hpre
    exact h.trans (chunk_getElem? _ _ e3 e4 hl3).1
  · rw [hf3]
    have h := getElem?_append_at s2.features
      (⟨4, 4, (s2.cy + 64) / 8⟩ :: e3 ++ ⟨4, 4, (s2.avr + 1024) / 16⟩ :: e4) 216 6 hpre
    exact h.trans (chunk_getElem? _ _ e3 e4 hl3).2
  · simp only [State.init]; norm_num
  · show 8 < (s2.cy + 64) / 8
    linarith
  · simp only [State.init]; norm_num
  · show 64 < (s2.avr + 1024) / 16
    linarith

/-! ## Forward transform followed by `idct` -/

theorem forwardDCT_one (u v : Nat) (hu : u < 4) (hv : v < 4) :
    forwardDCT Real.cos Real.sqrt Real.pi 4 (fun _ _ => 1) u v =
      if u = 0 ∧ v = 0 then 4 else 0 := by
  have h : forwardDCT Real.cos Real.sqrt Real.pi 4 (fun _ _ => 1) u v =
      specAlpha Real.sqrt 4 u * specAlpha Real.sqrt 4 v * kernelSum Real.cos Real.pi 4 u v := by
    simp only [forwardDCT, kernelSum, one_mul]
  rw [h]
  by_cases h0 : u = 0 ∧ v = 0
  · obtain ⟨rfl, rfl⟩ := h0
    rw [kernelSum_zero_zero]
    simp only [specAlpha]
    norm_num [sqrt_four]
  · rw [if_neg h0, kernelSum_off_dc 4 u v hu hv (fun hp => h0 (Prod.mk.inj hp)), mul_zero]

theorem sqrt_two_mul_self : Real.sqrt 2 * Real.sqrt 2 = 2 := Real.mul_self_sqrt (by norm_num)

/-- C3 fails for the 4×4 block whose samples are all 1: the sum
`Σ (2/K)·idct(u,v,x,y,K)·C(u,v)` at `(x, y) = (2, 0)` is `√2/2`, not the sample 1. -/
theorem C3_inverse_of_constant_block :
    inverseDCT Real.cos Real.sqrt Real.pi BlockSize
        (forwardDCT Real.cos Real.sqrt Real.pi BlockSize (fun _ _ => 1)) 2 0 = Real.sqrt 2 / 2 ∧
    Real.sqrt 2 / 2 ≠ 1 := by
  constructor
  · simp only [inverseDCT, BlockSize, Finset.sum_range_succ, Finset.sum_range_zero, zero_add]
    simp only [forwardDCT_one _ _ (show (0:Nat) < 4 by decide) (show (0:Nat) < 4 by decide),
      forwardDCT_one _ _ (show (0:Nat) < 4 by decide) (show (1:Nat) < 4 by decide),
      forwardDCT_one _ _ (show (0:Nat) < 4 by decide) (show (2:Nat) < 4 by decide),
      forwardDCT_one _ _ (show (0:Nat) < 4 by decide) (show (3:Nat) < 4 by decide),
      forwardDCT_one _ _ (show (1:Nat) < 4 by decide) (show (0:Nat) < 4 by decide),
      forwardDCT_one _ _ (show (1:Nat) < 4 by decide) (show (1:Nat) < 4 by decide),
      forwardDCT_one _ _ (show (1:Nat) < 4 by decide) (show (2:Nat) < 4 by decide),
      forwardDCT_one _ _ (show (1:Nat) < 4 by decide) (show (3:Nat) < 4 by decide),
      forwardDCT_one _ _ (show (2:Nat) < 4 by decide) (show (0:Nat) < 4 by decide),
      forwardDCT_one _ _ (show (2:Nat) < 4 by decide) (show (1:Nat) < 4 by decide),
      forwardDCT_one _ _ (show (2:Nat) < 4 by decide) (show (2:Nat) < 4 by decide),
      forwardDCT_one _ _ (show (2:Nat) < 4 by decide) (show (3:Nat) < 4 by decide),
      forwardDCT_one _ _ (show (3:Nat) < 4 by decide) (show (0:Nat) < 4 by decide),
      forwardDCT_one _ _ (show (3:Nat) < 4 by decide) (show (1:Nat) < 4 by decide),
      forwardDCT_one _ _ (show (3:Nat) < 4 by decide) (show (2:Nat) < 4 by decide),
      forwardDCT_one _ _ (show (3:Nat) < 4 by decide) (show (3:Nat) < 4 by decide)]
    norm_num [idct, dct, idctAlpha]
    rw [show 2 * Real.pi / 8 = Real.pi / 4 by ring, Real.cos_pi_div_four, mul_assoc (Real.sqrt 2 / 2),
      ← mul_inv, sqrt_two_mul_self]
    ring
  · intro h
    have h2 : Real.sqrt 2 = 2 := by linarith
    have h3 := sqrt_two_mul_self
    rw [h2] at h3
    norm_num at h3

/-! ## Scan and small images -/

section ScanLemmas

variable {R : Type} [LinearOrderedField R]
theorem scan_loop (sqrt : R → R) (features : List (feature R)) (n : Nat)
    (hn : n + 1 ≤ features.length ∨ n = 0) :
    (List.range n).foldlM
      (fun out i => do
        let blockA ← features[i]?
        let blockB ← features[i + 1]?
        let res := analyze sqrt blockA blockB
        return out ++ [res])
      ([] : List R) =
      some ((List.zipWith (analyze sqrt) features features.tail).take n) := by
  induction n with
  | zero => rfl
  | succ n ih =>
    have hlen : n + 1 < features.length := by omega
    rw [List.range_succ, List.foldlM_append, ih (Or.inl (by omega))]
    simp only [Option.some_bind, Option.bind_eq_bind, List.foldlM_cons, List.foldlM_nil,
      List.getElem?_eq_getElem hlen, List.getElem?_eq_getElem (show n < features.length by omega),
      Option.pure_def, Option.some.injEq]
    rw [List.take_succ]
    congr 1
    have h1 : n < (List.zipWith (analyze sqrt) features features.tail).length := by
      simp only [List.length_zipWith, List.length_tail]
      omega
    rw [List.getElem?_eq_getElem h1]
    simp [List.getElem_zipWith]

theorem scan_eq (sqrt : R → R) (features : List (feature R)) :
    scan sqrt features = some (List.zipWith (analyze sqrt) features features.tail) := by
  unfold scan
  rw [scan_loop sqrt features _ (by omega)]
  congr 1
  apply List.take_of_length_le
  simp only [List.length_zipWith, List.length_tail]
  omega

theorem sqrt_100 : Real.sqrt 100 = 10 := by
  rw [show (100 : ℝ) = 10 ^ 2 by norm_num]
  exact Real.sqrt_sq (by norm_num)

/-- C11, as stated, fails: for the two entries at `(0,0)` and `(6,8)`, whose distance 10 is
not below `Threshold`, the scan still emits an output for the pair, the value 0, so the
output has `len(features) − 1 = 1` entries and is not empty. -/
theorem C11_far_pair_still_emitted :
    scan Real.sqrt ([⟨0, 0, 1⟩, ⟨6, 8, 2⟩] : List (feature ℝ)) = some [0] ∧
    ¬ Real.sqrt ((((0 : Int) - 6 : Int) : ℝ) ^ 2 + (((0 : Int) - 8 : Int) : ℝ) ^ 2) <
        (Threshold : ℝ) := by
  have h10 : Real.sqrt ((((0 : Int) - 6 : Int) : ℝ) ^ 2 + (((0 : Int) - 8 : Int) : ℝ) ^ 2) = 10 := by
    rw [show ((((0 : Int) - 6 : Int) : ℝ) ^ 2 + (((0 : Int) - 8 : Int) : ℝ) ^ 2) = 100 by
      norm_num]
    exact sqrt_100
  constructor
  · rw [scan_eq]
    simp only [List.tail_cons, List.zipWith_cons_cons, List.zipWith_nil_right,
      Option.some.injEq, List.cons.injEq, and_true]
    rw [analyze_of_exact _ _ ⟨by decide, by decide⟩ ⟨by decide, by decide⟩, if_neg]
    rw [show ((((0 : Int) : ℝ) - ((6 : Int) : ℝ)) ^ 2 + (((0 : Int) : ℝ) - ((8 : Int) : ℝ)) ^ 2)
      = 100 by norm_num, sqrt_100]
    norm_num [Threshold]
  · rw [h10]; norm_num [Threshold]

/-- C11, amended: the scan returns, and it emits exactly one output for every adjacent
pair `(i, i+1)`, in increasing order of `i`: the value `analyze(features[i],
features[i+1])`, which is the distance when it is below `Threshold` and 0 otherwise. The
output has `len(features) − 1` entries (none for an empty sequence). -/
theorem C11_scan_emits_every_pair (sqrt : R → R) (features : List (feature R)) :
    scan sqrt features = some (List.zipWith (analyze sqrt) features features.tail) ∧
    (List.zipWith (analyze sqrt) features features.tail).length = features.length - 1 := by
  refine ⟨scan_eq sqrt features, ?_⟩
  simp only [List.length_zipWith, List.length_tail]
  omega

theorem makeBlocks_eq_nil (K : Nat) (newImg : RGBA) (dx dy : Int)
    (h : dx < K ∨ dy < K) : makeBlocks K newImg dx dy = [] := by
  rw [makeBlocks_eq]
  rcases h with h | h
  · have : (dx - K + 1).toNat = 0 := by omega
    rw [this]
    rfl
  · have : (dy - K + 1).toNat = 0 := by omega
    rw [this]
    simp

theorem applySwaps_nil (swaps : List (Nat × Nat)) (a' : featVec R)
    (h : applySwaps swaps ([] : featVec R) = some a') : a' = [] :=
  List.Perm.eq_nil (applySwaps_perm swaps [] a' h)

/-- C14: for an image narrower or lower than the block size the block loop makes no block
(one of its bounds is not positive), the extraction leaves the feature sequence empty, the
bound `len(features) − 1` of the scan loop is −1, and the pipeline returns the empty
output; no run of it returns anything else. -/
theorem C14_small_image_empty_output (cos sqrt : R → R) (pi : R)
    (conv : Nat → Nat → Nat → Nat × Nat × Nat) (K : Nat) (newImg : RGBA)
    (h : (newImg.MaxX : Int) < K ∨ (newImg.MaxY : Int) < K) :
    ((newImg.MaxX : Int) - K + 1 ≤ 0 ∨ (newImg.MaxY : Int) - K + 1 ≤ 0) ∧
    makeBlocks K newImg newImg.MaxX newImg.MaxY = [] ∧
    extract cos sqrt pi conv K newImg.MaxX newImg.MaxY
      (makeBlocks K newImg newImg.MaxX newImg.MaxY) (State.init : State R) = some State.init ∧
    (State.init : State R).features = [] ∧
    (((State.init : State R).features.length : Int) - 1 = -1) ∧
    scan sqrt ((State.init : State R).features) = some [] ∧
    pipeline cos sqrt pi conv K newImg [] = some ([] : List R) ∧
    ∀ (swaps : List (Nat × Nat)) (out : List R),
      pipeline cos sqrt pi conv K newImg swaps = some out → out = [] := by
  have hb := makeBlocks_eq_nil K newImg newImg.MaxX newImg.MaxY h
  refine ⟨by omega, hb, by rw [hb]; rfl, rfl, rfl, rfl, ?_, ?_⟩
  · simp only [pipeline, hb]
    rfl
  · intro swaps out hout
    simp only [pipeline, hb] at hout
    have he : extract cos sqrt pi conv K (↑newImg.MaxX) (↑newImg.MaxY) []
        (State.init : State R) = some State.init := rfl
    rw [he] at hout
    simp only [Option.some_bind, Option.bind_eq_bind] at hout
    rcases hs : applySwaps swaps (State.init : State R).features with _ | sorted
    · rw [hs] at hout
      simp at hout
    · rw [hs] at hout
      have hnil : sorted = [] := applySwaps_nil swaps sorted hs
      rw [hnil] at hout
      simp only [Option.some_bind] at hout
      have : scan sqrt ([] : List (feature R)) = some [] := rfl
      rw [this] at hout
      exact (Option.some.inj hout).symm

end ScanLemmas

/-! ## The comparator and the zero result of `analyze` -/

section Comparator

variable {R : Type} [LinearOrderedField R]

theorem Less_eq_some_true (a : featVec R) (i j : Nat) (h : a.Less i j = some true) :
    ∃ (hi : i < a.length) (hj : j < a.length), a[i].val < a[j].val := by
  by_cases hi : i < a.length
  · by_cases hj : j < a.length
    · rw [Less_eq a i j hi hj] at h
      exact ⟨hi, hj, by simpa using h⟩
    · unfold featVec.Less at h
      rw [List.getElem?_eq_getElem hi, List.getElem?_eq_none (by omega)] at h
      simp at h
  · unfold featVec.Less at h
    rw [List.getElem?_eq_none (by omega)] at h
    simp at h

theorem Less_congr (a b : featVec R) (h : a.map (fun f => f.val) = b.map (fun f => f.val))
    (i j : Nat) : a.Less i j = b.Less i j := by
  have hlen : a.length = b.length := by
    have := congrArg List.length h
    simpa using this
  have hval : ∀ k (hk : k < a.length) (hk' : k < b.length), a[k].val = b[k].val := by
    intro k hk hk'
    have h1 : (a.map (fun f => f.val))[k]? = (b.map (fun f => f.val))[k]? := by rw [h]
    simpa [List.getElem?_eq_getElem hk, List.getElem?_eq_getElem hk'] using h1
  by_cases hi : i < a.length
  · by_cases hj : j < a.length
    · rw [Less_eq a i j hi hj, Less_eq b i j (hlen ▸ hi) (hlen ▸ hj),
        hval i hi (hlen ▸ hi), hval j hj (hlen ▸ hj)]
    · unfold featVec.Less
      rw [List.getElem?_eq_none (show a.length ≤ j by omega),
        List.getElem?_eq_none (show b.length ≤ j by omega)]
      rcases a[i]? with _ | x <;> rcases b[i]? with _ | y <;> rfl
  · unfold featVec.Less
    rw [List.getElem?_eq_none (show a.length ≤ i by omega),
      List.getElem?_eq_none (show b.length ≤ i by omega)]
    rfl

/-- C15: for valid indices `Less(i, j)` holds exactly when `a[i].val < a[j].val` (so it is
false when the two values are equal); `Less` is irreflexive, asymmetric and transitive,
and it gives the same answers on any two slices that agree on `val`, whatever their `x`
and `y`. -/
theorem C15_less_is_strict_order_on_val (a : featVec R) :
    (∀ (i j : Nat) (hi : i < a.length) (hj : j < a.length),
      a.Less i j = some (decide (a[i].val < a[j].val))) ∧
    (∀ (i j : Nat) (hi : i < a.length) (hj : j < a.length),
      a[i].val = a[j].val → a.Less i j = some false) ∧
    (∀ i : Nat, i < a.length → a.Less i i = some false) ∧
    (∀ i j : Nat, a.Less i j = some true → a.Less j i = some false) ∧
    (∀ i j k : Nat, a.Less i j = some true → a.Less j k = some true →
      a.Less i k = some true) ∧
    (∀ b : featVec R, a.map (fun f => f.val) = b.map (fun f => f.val) →
      ∀ i j : Nat, a.Less i j = b.Less i j) := by
  refine ⟨fun i j hi hj => Less_eq a i j hi hj, ?_, ?_, ?_, ?_, fun b h i j => Less_congr a b h i j⟩
  · intro i j hi hj h
    rw [Less_eq a i j hi hj, h]
    simp
  · intro i hi
    rw [Less_eq a i i hi hi]
    simp
  · intro i j h
    obtain ⟨hi, hj, hlt⟩ := Less_eq_some_true a i j h
    rw [Less_eq a j i hj hi]
    simp [le_of_lt hlt]
  · intro i j k h1 h2
    obtain ⟨hi, hj, hlt1⟩ := Less_eq_some_true a i j h1
    obtain ⟨_, hk, hlt2⟩ := Less_eq_some_true a j k h2
    rw [Less_eq a i k hi hk]
    simp [lt_trans hlt1 hlt2]

theorem C15_less_is_strict_order_on_val_witness :
    ((tieInput : featVec ℝ).Less 6 0 = some true ∧ (tieInput : featVec ℝ).Less 0 1 = some false) ∧
    (tieInput : featVec ℝ).Less 0 6 = some false := by
  have h60 : (tieInput : featVec ℝ).Less 6 0 = some true := by
    simp [featVec.Less, tieInput]
  have h01 : (tieInput : featVec ℝ).Less 0 1 = some false := by
    simp [featVec.Less, tieInput]
  exact ⟨⟨h60, h01⟩, (C15_less_is_strict_order_on_val (tieInput : featVec ℝ)).2.2.2.1 6 0 h60⟩

end Comparator

theorem sqrt_sq_add_eq_zero (p q : ℝ) : Real.sqrt (p ^ 2 + q ^ 2) = 0 ↔ p = 0 ∧ q = 0 := by
  rw [Real.sqrt_eq_zero (by positivity)]
  constructor
  · intro h
    constructor <;> nlinarith [sq_nonneg p, sq_nonneg q]
  · rintro ⟨rfl, rfl⟩
    norm_num

/-- C16, as stated, fails: for the entries at `(2^53 + 1, 0)` and `(2^53, 0)` `analyze`
returns 0, although the block coordinates differ and their distance 1 is below
`Threshold`. -/
theorem C16_zero_for_distinct_close_pair :
    analyze Real.sqrt (⟨2 ^ 53 + 1, 0, 1⟩ : feature ℝ) ⟨2 ^ 53, 0, 2⟩ = 0 ∧
    ¬ (((2 : Int) ^ 53 + 1 = 2 ^ 53) ∧ ((0 : Int) = 0)) ∧
    ¬ ((Threshold : ℝ) ≤ Real.sqrt ((((2 ^ 53 + 1 : Int) - (2 ^ 53 : Int) : Int) : ℝ) ^ 2 +
      (((0 : Int) - (0 : Int) : Int) : ℝ) ^ 2)) := by
  refine ⟨analyze_huge_pair, by decide, ?_⟩
  have h1 : Real.sqrt ((((2 ^ 53 + 1 : Int) - (2 ^ 53 : Int) : Int) : ℝ) ^ 2 +
      (((0 : Int) - (0 : Int) : Int) : ℝ) ^ 2) = 1 := by norm_num
  rw [h1]
  norm_num [Threshold]

/-- C16, amended: for entries whose coordinates are at most `2^53` in absolute value,
`analyze(A, B)` is 0 exactly when `A` and `B` have the same block coordinates or their
distance is at least `Threshold`; for all entries, any result other than 0 lies strictly
between 0 and `Threshold`. -/
theorem C16_zero_result_is_ambiguous (A B : feature ℝ) :
    (A.x.natAbs ≤ 2 ^ 53 ∧ A.y.natAbs ≤ 2 ^ 53 → B.x.natAbs ≤ 2 ^ 53 ∧ B.y.natAbs ≤ 2 ^ 53 →
      (analyze Real.sqrt A B = 0 ↔
        (A.x = B.x ∧ A.y = B.y) ∨
        (Threshold : ℝ) ≤
          Real.sqrt (((A.x - B.x : Int) : ℝ) ^ 2 + ((A.y - B.y : Int) : ℝ) ^ 2))) ∧
    (analyze Real.sqrt A B ≠ 0 →
      0 < analyze Real.sqrt A B ∧ analyze Real.sqrt A B < (Threshold : ℝ)) := by
  constructor
  · intro hA hB
    have hzero : Real.sqrt (((A.x : ℝ) - (B.x : ℝ)) ^ 2 + ((A.y : ℝ) - (B.y : ℝ)) ^ 2) = 0 ↔
        A.x = B.x ∧ A.y = B.y := by
      rw [sqrt_sq_add_eq_zero, sub_eq_zero, sub_eq_zero, Int.cast_inj, Int.cast_inj]
    rw [analyze_of_exact A B hA hB]
    simp only [Int.cast_sub]
    by_cases hlt : Real.sqrt (((A.x : ℝ) - (B.x : ℝ)) ^ 2 + ((A.y : ℝ) - (B.y : ℝ)) ^ 2) <
        (Threshold : ℝ)
    · simp only [if_pos hlt]
      rw [hzero]
      constructor
      · intro h; exact Or.inl h
      · rintro (h | h)
        · exact h
        · exact absurd hlt (not_lt.mpr h)
    · simp only [if_neg hlt]
      constructor
      · intro _; exact Or.inr (not_lt.mp hlt)
      · intro _; trivial
  · unfold analyze
    simp only
    split
    · rename_i hlt
      intro hne
      exact ⟨lt_of_le_of_ne (Real.sqrt_nonneg _) (Ne.symm hne), hlt⟩
    · intro h
      exact absurd rfl h

theorem analyze_three_four :
    analyze Real.sqrt (⟨0, 0, 1⟩ : feature ℝ) ⟨3, 4, 2⟩ = 5 := by
  rw [analyze_of_exact _ _ ⟨by decide, by decide⟩ ⟨by decide, by decide⟩]
  have h : Real.sqrt ((((0 : Int) : ℝ) - ((3 : Int) : ℝ)) ^ 2 +
      (((0 : Int) : ℝ) - ((4 : Int) : ℝ)) ^ 2) = 5 := by
    rw [show ((((0 : Int) : ℝ) - ((3 : Int) : ℝ)) ^ 2 +
      (((0 : Int) : ℝ) - ((4 : Int) : ℝ)) ^ 2) = 25 by norm_num]
    exact sqrt_25
  simp only [h]
  rw [if_pos]
  norm_num [Threshold]

theorem C16_zero_result_is_ambiguous_witness :
    (analyze Real.sqrt (⟨0, 0, 1⟩ : feature ℝ) ⟨3, 4, 2⟩ ≠ 0 ∧
      0 < analyze Real.sqrt (⟨0, 0, 1⟩ : feature ℝ) ⟨3, 4, 2⟩ ∧
      analyze Real.sqrt (⟨0, 0, 1⟩ : feature ℝ) ⟨3, 4, 2⟩ < (Threshold : ℝ)) ∧
    analyze Real.sqrt (⟨0, 0, 1⟩ : feature ℝ) ⟨0, 0, 2⟩ = 0 := by
  have hne : analyze Real.sqrt (⟨0, 0, 1⟩ : feature ℝ) ⟨3, 4, 2⟩ ≠ 0 := by
    rw [analyze_three_four]; norm_num
  exact ⟨⟨hne, (C16_zero_result_is_ambiguous ⟨0, 0, 1⟩ ⟨3, 4, 2⟩).2 hne⟩,
    ((C16_zero_result_is_ambiguous ⟨0, 0, 1⟩ ⟨0, 0, 2⟩).1 ⟨by decide, by decide⟩
      ⟨by decide, by decide⟩).mpr (Or.inl ⟨rfl, rfl⟩)⟩

theorem C14_small_image_empty_output_witness :
    (((uniformImage 3 8 1).MaxX : Int) < BlockSize ∨ ((uniformImage 3 8 1).MaxY : Int) < BlockSize) ∧
    makeBlocks BlockSize (uniformImage 3 8 1) (uniformImage 3 8 1).MaxX
      (uniformImage 3 8 1).MaxY = [] ∧
    pipeline Real.cos Real.sqrt Real.pi YCbCrToRGB BlockSize (uniformImage 3 8 1) [] =
      some ([] : List ℝ) := by
  have h : ((uniformImage 3 8 1).MaxX : Int) < BlockSize ∨
      ((uniformImage 3 8 1).MaxY : Int) < BlockSize := Or.inl (by decide)
  have hC := C14_small_image_empty_output Real.cos Real.sqrt Real.pi YCbCrToRGB BlockSize
    (uniformImage 3 8 1) h
  exact ⟨h, hC.2.1, hC.2.2.2.2.2.2.1⟩

/-- C17: for `u, v < K` (hence `K ≥ 1`) the sum over `x, y < K` of `dct(x, y, u, v, K)` is `K²`
at `(u, v) = (0, 0)` and 0 otherwise; the `x`, `y` loops add this sum times the sample to
each of `cr`, `cg`, `cb`, `cy`, so for `(u, v) ≠ (0, 0)` they leave the four unchanged. -/
theorem C17_kernel_sum (K u v : Nat) (hu : u < K) (hv : v < K) :
    kernelSum Real.cos Real.pi K u v = (if (u, v) = (0, 0) then (K : ℝ) ^ 2 else 0) ∧
    (∀ (r g b yc : Nat) (s : State ℝ),
      (accumPixel Real.cos Real.pi K u v r g b yc s).cr =
        s.cr + kernelSum Real.cos Real.pi K u v * (r : ℝ) ∧
      (accumPixel Real.cos Real.pi K u v r g b yc s).cg =
        s.cg + kernelSum Real.cos Real.pi K u v * (g : ℝ) ∧
      (accumPixel Real.cos Real.pi K u v r g b yc s).cb =
        s.cb + kernelSum Real.cos Real.pi K u v * (b : ℝ) ∧
      (accumPixel Real.cos Real.pi K u v r g b yc s).cy =
        s.cy + kernelSum Real.cos Real.pi K u v * (yc : ℝ)) ∧
    ((u, v) ≠ (0, 0) → ∀ (r g b yc : Nat) (s : State ℝ),
      (accumPixel Real.cos Real.pi K u v r g b yc s).cr = s.cr ∧
      (accumPixel Real.cos Real.pi K u v r g b yc s).cg = s.cg ∧
      (accumPixel Real.cos Real.pi K u v r g b yc s).cb = s.cb ∧
      (accumPixel Real.cos Real.pi K u v r g b yc s).cy = s.cy) := by
  refine ⟨?_, ?_, ?_⟩
  · by_cases h : (u, v) = (0, 0)
    · obtain ⟨rfl, rfl⟩ := Prod.mk.inj h
      rw [kernelSum_zero_zero, if_pos rfl]
      ring
    · rw [if_neg h, kernelSum_off_dc K u v hu hv h]
  · intro r g b yc s
    rw [accumPixel_eq]
    exact ⟨rfl, rfl, rfl, rfl⟩
  · intro h r g b yc s
    rw [accumPixel_eq, kernelSum_off_dc K u v hu hv h]
    simp

theorem C17_kernel_sum_witness :
    ((0 < BlockSize ∧ 1 < BlockSize) ∧ ((0, 1) : Nat × Nat) ≠ (0, 0)) ∧
    kernelSum Real.cos Real.pi BlockSize 0 1 = 0 ∧
    (accumPixel Real.cos Real.pi BlockSize 0 1 7 8 9 10 (State.init : State ℝ)).cy = 0 := by
  have hC := C17_kernel_sum BlockSize 0 1 (by decide) (by decide)
  have hne : ((0, 1) : Nat × Nat) ≠ (0, 0) := by decide
  refine ⟨⟨⟨by decide, by decide⟩, hne⟩, ?_, ?_⟩
  · rw [hC.1, if_neg hne]
  · rw [(hC.2.2 hne 7 8 9 10 State.init).2.2.2]
    rfl

/-! ## Only the first row of a block is read -/

theorem mem_rowIndices (i0 i1 i : Nat) (h : i ∈ rowIndices i0 i1) :
    ∃ k, i = i0 + 4 * k ∧ 4 * k < i1 - i0 := by
  unfold rowIndices at h
  simp only [List.mem_map, List.mem_range] at h
  obtain ⟨k, hk, rfl⟩ := h
  exact ⟨k, rfl, by omega⟩

section FirstRow

variable {R : Type} [LinearOrderedField R]

theorem foldl_congr_mem {α β : Type} (f g : β → α → β) (l : List α)
    (h : ∀ a ∈ l, ∀ b, f b a = g b a) (init : β) : l.foldl f init = l.foldl g init := by
  induction l generalizing init with
  | nil => rfl
  | cons a l ih =>
    rw [List.foldl_cons, List.foldl_cons, h a (List.mem_cons_self _ _),
      ih (fun c hc => h c (List.mem_cons_of_mem _ hc))]

theorem accumRow_congr (cos : R → R) (pi : R) (conv : Nat → Nat → Nat → Nat × Nat × Nat)
    (K u v : Nat) (b b' : RGBA) (i0 i1 : Nat)
    (h : ∀ i ∈ rowIndices i0 i1, b'.Pix (i + 0) = b.Pix (i + 0) ∧ b'.Pix (i + 2) = b.Pix (i + 2))
    (s : State R) :
    accumRow cos pi conv K u v b' i0 i1 s = accumRow cos pi conv K u v b i0 i1 s := by
  unfold accumRow
  apply foldl_congr_mem
  intro i hi t
  simp only [(h i hi).1, (h i hi).2]

theorem transform_congr (cos sqrt : R → R) (pi : R) (conv : Nat → Nat → Nat → Nat × Nat × Nat)
    (K : Nat) (dx dy : Int) (b b' : RGBA)
    (hgeo : b'.MinX = b.MinX ∧ b'.MinY = b.MinY ∧ b'.MaxX = b.MaxX ∧ b'.MaxY = b.MaxY)
    (hrow : ∀ x c, x < b.Dx → c < 4 → sampleByte b' x 0 c = sampleByte b x 0 c)
    (s : State R) :
    transform cos sqrt pi conv K dx dy b' s = transform cos sqrt pi conv K dx dy b s := by
  obtain ⟨h1, h2, h3, h4⟩ := hgeo
  have hDx : b'.Dx = b.Dx := by unfold RGBA.Dx; rw [h1, h3]
  have hPix : ∀ k, k < b.Dx * 4 → b'.Pix k = b.Pix k := by
    intro k hk
    have := hrow (k / 4) (k % 4) (by omega) (Nat.mod_lt _ (by decide))
    simp only [sampleByte, RGBA.PixOffset, h1, h2, Nat.add_sub_cancel_left, Nat.sub_self,
      Nat.zero_mul, Nat.zero_add] at this
    rwa [show k / 4 * 4 + k % 4 = k by omega] at this
  have hcoef : ∀ u v t,
      coefficient cos sqrt pi conv K dx dy b' (b'.PixOffset b'.MinX b'.MinY)
        (b'.PixOffset b'.MinX b'.MinY + b'.Dx * 4) u v t =
      coefficient cos sqrt pi conv K dx dy b (b.PixOffset b.MinX b.MinY)
        (b.PixOffset b.MinX b.MinY + b.Dx * 4) u v t := by
    intro u v t
    rw [PixOffset_min, PixOffset_min, hDx]
    unfold coefficient
    rw [accumRow_congr cos pi conv K u v b b' 0 (0 + b.Dx * 4)]
    intro i hi
    obtain ⟨k, rfl, hk⟩ := mem_rowIndices _ _ _ hi
    exact ⟨hPix _ (by omega), hPix _ (by omega)⟩
  unfold transform
  simp only [hcoef]

/-- C18: the block loop reads only the first row of a block. If a block `b'` has the bounds
of `b` and the same bytes in the `K` pixels of its first row, whatever its samples in the
rows `1..K−1`, then from every starting state the body of the block loop gives the same
result for both, and with it the same nine feature values. -/
theorem C18_only_first_row_is_read (cos sqrt : R → R) (pi : R)
    (conv : Nat → Nat → Nat → Nat × Nat × Nat) (K : Nat) (dx dy : Int) (b b' : RGBA)
    (hgeo : b'.MinX = b.MinX ∧ b'.MinY = b.MinY ∧ b'.MaxX = b.MaxX ∧ b'.MaxY = b.MaxY)
    (hrow : ∀ x c, x < b.Dx → c < 4 → sampleByte b' x 0 c = sampleByte b x 0 c)
    (s : State R) (x y : Int) :
    processBlock cos sqrt pi conv K dx dy s ⟨x, y, b'⟩ =
      processBlock cos sqrt pi conv K dx dy s ⟨x, y, b⟩ := by
  unfold processBlock
  simp only [transform_congr cos sqrt pi conv K dx dy b b' hgeo hrow s]

end FirstRow

theorem uniformBlock4_eq :
    uniformBlock4 =
      { Pix := fun k => (uniformImage 4 4 1).Pix ((uniformImage 4 4 1).PixOffset 0 0 + k),
        Stride := 4 * 4, MinX := 0, MinY := 0, MaxX := 0 + 4, MaxY := 0 + 4 } :=
  uniform_block_eq 4 4 1 0 0 (by decide) (by decide)

theorem C18_only_first_row_is_read_witness :
    ((uniformBlock4Changed.MinX = uniformBlock4.MinX ∧
        uniformBlock4Changed.MinY = uniformBlock4.MinY ∧
        uniformBlock4Changed.MaxX = uniformBlock4.MaxX ∧
        uniformBlock4Changed.MaxY = uniformBlock4.MaxY) ∧
      (∀ x c, x < uniformBlock4.Dx → c < 4 →
        sampleByte uniformBlock4Changed x 0 c = sampleByte uniformBlock4 x 0 c)) ∧
    sampleByte uniformBlock4Changed 0 1 0 ≠ sampleByte uniformBlock4 0 1 0 ∧
    processBlock Real.cos Real.sqrt Real.pi YCbCrToRGB BlockSize 4 4 (State.init : State ℝ)
        ⟨0, 0, uniformBlock4Changed⟩ =
      processBlock Real.cos Real.sqrt Real.pi YCbCrToRGB BlockSize 4 4 (State.init : State ℝ)
        ⟨0, 0, uniformBlock4⟩ := by
  have hgeo : uniformBlock4Changed.MinX = uniformBlock4.MinX ∧
      uniformBlock4Changed.MinY = uniformBlock4.MinY ∧
      uniformBlock4Changed.MaxX = uniformBlock4.MaxX ∧
      uniformBlock4Changed.MaxY = uniformBlock4.MaxY := ⟨rfl, rfl, rfl, rfl⟩
  have hDx : uniformBlock4.Dx = 4 := uniform_block_Dx 4 4 1 0 0 (by decide) (by decide)
  have hrow : ∀ x c, x < uniformBlock4.Dx → c < 4 →
      sampleByte uniformBlock4Changed x 0 c = sampleByte uniformBlock4 x 0 c := by
    intro x c hx hc
    rw [hDx] at hx
    have hoff : uniformBlock4.PixOffset (uniformBlock4.MinX + x) (uniformBlock4.MinY + 0) =
        x * 4 := by
      simp [RGBA.PixOffset]
    show (if 16 ≤ uniformBlock4.PixOffset (uniformBlock4.MinX + x) (uniformBlock4.MinY + 0) + c
        then 77 else _) = _
    have hoff' : uniformBlock4Changed.PixOffset (uniformBlock4Changed.MinX + x)
        (uniformBlock4Changed.MinY + 0) = x * 4 := hoff
    rw [hoff, if_neg (by omega)]
    simp only [sampleByte, hoff, hoff']
  refine ⟨⟨hgeo, hrow⟩, ?_, C18_only_first_row_is_read Real.cos Real.sqrt Real.pi YCbCrToRGB
    BlockSize 4 4 uniformBlock4 uniformBlock4Changed hgeo hrow State.init 0 0⟩
  decide

/-! ## Coefficients and averages of a uniform block -/

theorem uvPairs_head_two (K : Nat) (hK : 2 ≤ K) :
    ∃ rest, uvPairs K = (0, 0) :: (0, 1) :: rest ∧ (0, 1) ∉ rest := by
  obtain ⟨k, rfl⟩ : ∃ k, K = k + 2 := ⟨K - 2, by omega⟩
  have h : uvPairs (k + 2) = (0, 0) :: (0, 1) :: ((uvPairs (k + 2)).tail).tail := by
    unfold uvPairs
    rw [List.range_succ_eq_map, List.range_succ_eq_map]
    simp
  refine ⟨_, h, ?_⟩
  have hn := nodup_uvPairs (k + 2)
  rw [h, List.nodup_cons, List.nodup_cons] at hn
  exact hn.2.1

section SecondCell

variable {R : Type} [LinearOrderedField R]

theorem transform_cell_zero_one (cos sqrt : R → R) (pi : R)
    (conv : Nat → Nat → Nat → Nat × Nat × Nat) (K : Nat) (hK : 2 ≤ K) (dx dy : Int)
    (b : RGBA) (s : State R) :
    (transform cos sqrt pi conv K dx dy b s).2 0 1 =
      (coefficient cos sqrt pi conv K dx dy b (b.PixOffset b.MinX b.MinY)
        (b.PixOffset b.MinX b.MinY + b.Dx * 4) 0 1
        (coefficient cos sqrt pi conv K dx dy b (b.PixOffset b.MinX b.MinY)
          (b.PixOffset b.MinX b.MinY + b.Dx * 4) 0 0 s)).toPixel := by
  obtain ⟨rest, hrest, hnot⟩ := uvPairs_head_two K hK
  rw [transform_eq_foldl, hrest, List.foldl_cons, List.foldl_cons,
    foldl_transformStep_not_mem _ _ _ _ _ _ _ _ _ _ _ _ _ _ hnot]
  simp [transformStep, store, State.toPixel]

end SecondCell

theorem specCoefficient_uniformBlock4 :
    specCoefficient Real.cos Real.sqrt Real.pi BlockSize
      (fun x y => ((lumaAt uniformBlock4 x y : Nat) : ℝ)) 0 0 = 4 := by
  have hl : ∀ x y, lumaAt uniformBlock4 x y = 1 :=
    fun x y => uniform_block_lumaAt 4 4 1 0 0 x y (by decide) (by decide)
  simp only [specCoefficient, hl, specAlpha, BlockSize]
  norm_num [sqrt_four]

/-- C12 fails on the block of the uniform 4×4 image in which every channel of every pixel
is 1, from the zero state: the luma cell at `(0, 0)` is 16, whereas `c·sqrt(1/K)·K` is 2
(the formula of the transform gives 4), and the luma cell at `(0, 1)` is `4·√2`, not 0. -/
theorem C12_uniform_block_coefficients :
    ((transform Real.cos Real.sqrt Real.pi YCbCrToRGB BlockSize 4 4 uniformBlock4
        (State.init : State ℝ)).2 0 0).y = 16 ∧
    (1 : ℝ) * Real.sqrt (1 / (BlockSize : ℝ)) * (BlockSize : ℝ) = 2 ∧
    specCoefficient Real.cos Real.sqrt Real.pi BlockSize
      (fun x y => ((lumaAt uniformBlock4 x y : Nat) : ℝ)) 0 0 = 4 ∧
    ((transform Real.cos Real.sqrt Real.pi YCbCrToRGB BlockSize 4 4 uniformBlock4
        (State.init : State ℝ)).2 0 1).y = 4 * Real.sqrt 2 ∧
    (4 * Real.sqrt 2 ≠ 0) := by
  have hrow := uniform_block_rowSumY 4 4 1 0 0 (by decide) (by decide)
  refine ⟨?_, ?_, specCoefficient_uniformBlock4, ?_, ?_⟩
  · rw [transform_dc _ _ _ _ _ (by decide), coefficient_eq]
    simp only [State.toPixel, uniformBlock4]
    rw [hrow, kernelSum_zero_zero]
    simp only [alpha, State.init, BlockSize]
    norm_num [sqrt_four]
  · simp only [BlockSize]
    norm_num [sqrt_four]
  · rw [transform_cell_zero_one _ _ _ _ _ (by decide), coefficient_eq, coefficient_eq]
    simp only [State.toPixel, uniformBlock4]
    rw [hrow, kernelSum_zero_zero,
      kernelSum_off_dc BlockSize 0 1 (by decide) (by decide) (by decide)]
    simp only [alpha, State.init, BlockSize]
    norm_num [sqrt_four]
    have h2 := sqrt_two_mul_self
    have hp : Real.sqrt 2 ≠ 0 := (Real.sqrt_pos.mpr (by norm_num)).ne'
    field_simp
    nlinarith [h2]
  · have : 0 < Real.sqrt 2 := Real.sqrt_pos.mpr (by norm_num)
    positivity

theorem uniform_block_rowSumG (W H i j : Nat) (hi : i + 4 ≤ W) (hj : j + 4 ≤ H) :
    rowSumG (R := ℝ) YCbCrToRGB ((uniformImage W H 1).SubImage i j (i + 4) (j + 4))
      (((uniformImage W H 1).SubImage i j (i + 4) (j + 4)).PixOffset
        ((uniformImage W H 1).SubImage i j (i + 4) (j + 4)).MinX
        ((uniformImage W H 1).SubImage i j (i + 4) (j + 4)).MinY)
      (((uniformImage W H 1).SubImage i j (i + 4) (j + 4)).PixOffset
        ((uniformImage W H 1).SubImage i j (i + 4) (j + 4)).MinX
        ((uniformImage W H 1).SubImage i j (i + 4) (j + 4)).MinY +
        ((uniformImage W H 1).SubImage i j (i + 4) (j + 4)).Dx * 4) = 4 := by
  rw [PixOffset_min, uniform_block_Dx W H 1 i j hi hj, rowSumG, rowIndices_zero,
    uniform_block_eq W H 1 i j hi hj]
  simp only [List.map_map, Function.comp_def, uniform_Pix_luma, uniform_Pix_chroma,
    YCbCrToRGB_gray_one]
  simp
  norm_num

theorem uniform_block_rowSumB (W H i j : Nat) (hi : i + 4 ≤ W) (hj : j + 4 ≤ H) :
    rowSumB (R := ℝ) YCbCrToRGB ((uniformImage W H 1).SubImage i j (i + 4) (j + 4))
      (((uniformImage W H 1).SubImage i j (i + 4) (j + 4)).PixOffset
        ((uniformImage W H 1).SubImage i j (i + 4) (j + 4)).MinX
        ((uniformImage W H 1).SubImage i j (i + 4) (j + 4)).MinY)
      (((uniformImage W H 1).SubImage i j (i + 4) (j + 4)).PixOffset
        ((uniformImage W H 1).SubImage i j (i + 4) (j + 4)).MinX
        ((uniformImage W H 1).SubImage i j (i + 4) (j + 4)).MinY +
        ((uniformImage W H 1).SubImage i j (i + 4) (j + 4)).Dx * 4) = 4 := by
  rw [PixOffset_min, uniform_block_Dx W H 1 i j hi hj, rowSumB, rowIndices_zero,
    uniform_block_eq W H 1 i j hi hj]
  simp only [List.map_map, Function.comp_def, uniform_Pix_luma, uniform_Pix_chroma,
    YCbCrToRGB_gray_one]
  simp
  norm_num

theorem transform_avg_avb (cos sqrt : ℝ → ℝ) (pi : ℝ) (conv : Nat → Nat → Nat → Nat × Nat × Nat)
    (K : Nat) (dx dy : Int) (b : RGBA) (s : State ℝ) :
    (transform cos sqrt pi conv K dx dy b s).1.avg =
      s.avg + ((K * K : Nat) : ℝ) * (((K : ℝ) * (K : ℝ)) *
        rowSumG conv b (b.PixOffset b.MinX b.MinY) (b.PixOffset b.MinX b.MinY + b.Dx * 4)) ∧
    (transform cos sqrt pi conv K dx dy b s).1.avb =
      s.avb + ((K * K : Nat) : ℝ) * (((K : ℝ) * (K : ℝ)) *
        rowSumB conv b (b.PixOffset b.MinX b.MinY) (b.PixOffset b.MinX b.MinY + b.Dx * 4)) := by
  rw [transform_eq_foldl, (foldl_transformStep_avr _ _ _ _ _ _ _ _ _ _ _ _).2.1,
    (foldl_transformStep_avr _ _ _ _ _ _ _ _ _ _ _ _).2.2, length_uvPairs]
  exact ⟨rfl, rfl⟩

theorem uniformBlock4_sampleRGB (x y : Nat) :
    sampleRGB YCbCrToRGB uniformBlock4 x y = (1, 1, 1) := by
  unfold sampleRGB
  rw [uniformBlock4_eq]
  simp only [RGBA.PixOffset, uniformImage, Nat.sub_zero, Nat.add_sub_cancel_left, Nat.zero_add,
    Nat.zero_mul, Nat.mul_zero]
  have h : (y * (4 * 4) + x * 4) % 4 = 0 := by omega
  have h1 : (y * (4 * 4) + x * 4 + 1) % 4 = 1 := by omega
  have h2 : (y * (4 * 4) + x * 4 + 2) % 4 = 2 := by omega
  simp only [h, h1, h2]
  decide

/-- C13 fails on the block of the uniform 4×4 image in which red, green and blue are 1 in
every pixel, from the zero state: the avgRed, avgBlue and avgGreen entries (indices 6, 7,
8) are 64, whereas the mean of each channel over the 16 pixels is 1. -/
theorem C13_averages_of_uniform_block :
    (∃ s : State ℝ,
      processBlock Real.cos Real.sqrt Real.pi YCbCrToRGB BlockSize 4 4 State.init
        ⟨0, 0, uniformBlock4⟩ = some s ∧
      s.features[6]? = some ⟨0, 0, 64⟩ ∧ s.features[7]? = some ⟨0, 0, 64⟩ ∧
      s.features[8]? = some ⟨0, 0, 64⟩) ∧
    meanRed (R := ℝ) YCbCrToRGB BlockSize uniformBlock4 = 1 ∧
    meanGreen (R := ℝ) YCbCrToRGB BlockSize uniformBlock4 = 1 ∧
    meanBlue (R := ℝ) YCbCrToRGB BlockSize uniformBlock4 = 1 := by
  have havr := transform_avr Real.cos Real.sqrt Real.pi YCbCrToRGB BlockSize 4 4 uniformBlock4
    State.init
  have hgb := transform_avg_avb Real.cos Real.sqrt Real.pi YCbCrToRGB BlockSize 4 4 uniformBlock4
    State.init
  have hR := uniform_block_rowSumR 4 4 0 0 (by decide) (by decide)
  have hG := uniform_block_rowSumG 4 4 0 0 (by decide) (by decide)
  have hB := uniform_block_rowSumB 4 4 0 0 (by decide) (by decide)
  obtain ⟨hg, hb⟩ := hgb
  have havr' : (transform Real.cos Real.sqrt Real.pi YCbCrToRGB BlockSize 4 4 uniformBlock4
      State.init).1.avr / ((BlockSize * BlockSize : Nat) : ℝ) = 64 := by
    rw [havr]
    simp only [uniformBlock4]
    rw [hR]
    simp only [State.init, BlockSize]
    norm_num
  have hg' : (transform Real.cos Real.sqrt Real.pi YCbCrToRGB BlockSize 4 4 uniformBlock4
      State.init).1.avg / ((BlockSize * BlockSize : Nat) : ℝ) = 64 := by
    rw [hg]
    simp only [uniformBlock4]
    rw [hG]
    simp only [State.init, BlockSize]
    norm_num
  have hb' : (transform Real.cos Real.sqrt Real.pi YCbCrToRGB BlockSize 4 4 uniformBlock4
      State.init).1.avb / ((BlockSize * BlockSize : Nat) : ℝ) = 64 := by
    rw [hb]
    simp only [uniformBlock4]
    rw [hB]
    simp only [State.init, BlockSize]
    norm_num
  refine ⟨⟨_, processBlock_eq Real.cos Real.sqrt Real.pi YCbCrToRGB BlockSize (by decide) 4 4
    State.init ⟨0, 0, uniformBlock4⟩, ?_, ?_, ?_⟩, ?_, ?_, ?_⟩
  · simp only [transform_features, havr']
    rfl
  · simp only [transform_features, hb']
    rfl
  · simp only [transform_features, hg']
    rfl
  · simp only [meanRed, uniformBlock4_sampleRGB, BlockSize]
    norm_num
  · simp only [meanGreen, uniformBlock4_sampleRGB, BlockSize]
    norm_num
  · simp only [meanBlue, uniformBlock4_sampleRGB, BlockSize]
    norm_num

end Forensic
